import Mathlib

/-!
# DRAMsim3 trace front end: binary trace reader and the four drivers

A shallow embedding of `src/cpu.h` and `src/cpu.cc`: the binary trace reader,
the dependency-trace driver `RamSimCPU`, the synthetic drivers `RandomCPU`
and `StreamCPU`, and the text trace driver `TraceBasedCPU`.

* Bytes are `Fin 256`; 64-bit unsigned fields are `Nat` reduced `% 2 ^ 64`
  at every place where the C++ arithmetic can wrap.
* `std::ifstream` is a byte list, a get position and a `good` flag.  A read
  that runs out of bytes copies what is there, leaves the rest of the
  destination untouched and clears `good`; every later read is a no-op.
  The content of a destination before a read is therefore an explicit
  argument wherever the C++ reads into an uninitialised object.
* The memory system is an external collaborator.  It is represented by the
  list of calls made to it so far, and its admission answers by an arbitrary
  function of that history.
* `exit(-1)` and a failed `assert` are `Except.error`; `assert` is taken as
  compiled in.
* Doubles are exact non-negative fractions rounded to a 53-bit significand,
  ties to even, after each operation.
* Vectors are lists of any length.  In `parseRecord` and in the drivers an
  allocation does not fail; `parseRecordAlloc` is the reader with an
  allocator that can refuse the storage of the two vectors of a record, and
  the round trip (C3) and the chunk offsets (C4) are stated about it.
* The two clock ratios are natural numbers (the constructor is documented to
  take positive integers).
* `std::mt19937_64` is an arbitrary sequence of values; a driver counts the
  values it has drawn.
* The text trace is the list of the transactions of its unread lines, with
  the `eofbit` and `failbit` of the stream.
-/

namespace dramsim3

/-! ## Bytes and little-endian fields -/

/-- One byte of a file. -/
abbrev Byte := Fin 256

/-- Value of a little-endian byte string. -/
def fromLE : List Byte → Nat
  | [] => 0
  | b :: bs => b.val + 256 * fromLE bs

/-- The `n` low-order bytes of `x`, least significant first: the memory image
of an unsigned integer on a little-endian machine. -/
def toLE : Nat → Nat → List Byte
  | 0, _ => []
  | n + 1, x => ⟨x % 256, Nat.mod_lt _ (by decide)⟩ :: toLE n (x / 256)

/-! ## Double arithmetic -/

/-- Floor of the binary logarithm, by halving (`fuel` steps at most). -/
def log2Fuel : Nat → Nat → Nat
  | 0, _ => 0
  | f + 1, n => if n < 2 then 0 else log2Fuel f (n / 2) + 1

/-- Floor of the binary logarithm of `n` (0 for `n = 0`). -/
def ilog2 (n : Nat) : Nat := log2Fuel n n

/-- A finite non-negative double, kept as the exact fraction `num / den`. -/
structure F64 where
  num : Nat
  den : Nat
deriving DecidableEq, Repr

/-- The double nearest to the fraction `n / d` (for `0 < d`): the quotient is
scaled into `[2^52, 2^53)`, rounded to an integer with ties to even, and
scaled back.  Exponent range is not limited; every value that occurs below
lies between `2^-31` and `2^96`, far inside the range of a double. -/
def roundToDouble (n d : Nat) : F64 :=
  if n = 0 then ⟨0, 1⟩ else
  let a := 53 + ilog2 d
  let b := ilog2 n
  let N := n * 2 ^ a
  let D0 := d * 2 ^ b
  let D := if D0 * 2 ^ 53 ≤ N then 2 * D0 else D0
  let b := if D0 * 2 ^ 53 ≤ N then b + 1 else b
  let q := N / D
  let r := N % D
  let m := if 2 * r < D then q else if D < 2 * r then q + 1 else q + q % 2
  if a ≤ b then ⟨m * 2 ^ (b - a), 1⟩ else ⟨m, 2 ^ (a - b)⟩

/-- Conversion `uint64_t → double`. -/
def F64.ofU64 (x : Nat) : F64 := roundToDouble x 1

/-- Division of a double by an `int` converted to double (exact conversion). -/
def F64.divInt (x : F64) (c : Nat) : F64 := roundToDouble x.num (x.den * c)

/-- Multiplication of a double by an `int` converted to double. -/
def F64.mulInt (x : F64) (m : Nat) : F64 := roundToDouble (x.num * m) x.den

/-- The integer `ceil(x)`; `ceil` is exact on doubles. -/
def F64.ceil (x : F64) : Nat := (x.num + x.den - 1) / x.den

/-- The integer `floor(x)`. -/
def F64.floor (x : F64) : Nat := x.num / x.den

/-- Sum of a double and an integer-valued double, rounded. -/
def F64.addNat (x : F64) (c : Nat) : F64 := roundToDouble (x.num + c * x.den) x.den

/-- Conversion `double → int64_t` of a non-negative double.  Out of range is
undefined in C++; the value is what `cvttsd2si` gives on x86-64, the
"integer indefinite" `-2^63`. -/
def F64.toInt64 (x : F64) : Int :=
  if x.floor < 2 ^ 63 then (x.floor : Int) else -(2 ^ 63 : Int)

/-- Number of 64-byte fragments: `ceil(record->size / 64.0)` of `parseRecord`,
the argument of `ids.resize`. The division by `64.0` is in double
arithmetic, on `size` converted to double. -/
def chunkCount (size : Nat) : Nat := ((F64.ofU64 size).divInt 64).ceil

/-- The value stored into `min_issue_cycle`:
`clk_ + ceil(double(delay) / cpu_clock_ratio_ * mem_clock_ratio_)`, a double,
converted to `int64_t`.  A zero `cpu_clock_ratio_` gives an infinity or a NaN,
which converts to the integer indefinite. -/
def issueCycle (clk delay cpu_clock_ratio mem_clock_ratio : Nat) : Int :=
  if cpu_clock_ratio = 0 then -(2 ^ 63 : Int) else
  let c := (((F64.ofU64 delay).divInt cpu_clock_ratio).mulInt mem_clock_ratio).ceil
  ((F64.ofU64 clk).addNat c).toInt64

/-! ## The input file stream -/

/-- A `std::ifstream` opened on a file: its bytes, the get position, and
whether no error or end-of-file flag is set. -/
structure IfStream where
  data : List Byte
  pos : Nat
  good : Bool
deriving DecidableEq, Repr

/-- Unformatted `file.read(buf, n)`. On a stream that is not good nothing is
read and `buf` is untouched. Otherwise the available bytes (at most `n`) are
copied to the front of `buf`; if there are fewer than `n`, eofbit and failbit
are set. -/
def IfStream.read (f : IfStream) (buf : List Byte) (n : Nat) : List Byte × IfStream :=
  if f.good then
    let got := (f.data.drop f.pos).take n
    (got ++ buf.drop got.length,
      { f with pos := f.pos + got.length, good := decide (got.length = n) })
  else (buf, f)

/-- The test `file.peek() == EOF`: true on a stream that is not good, and at
the end of the data, where eofbit is set. -/
def IfStream.peekEOF (f : IfStream) : Bool × IfStream :=
  if f.good then
    if f.pos < f.data.length then (false, f) else (true, { f with good := false })
  else (true, f)

/-- Read of one 8-byte field into an object whose previous content is `old`. -/
def readU64 (f : IfStream) (old : Nat) : Nat × IfStream :=
  let r := f.read (toLE 8 old) 8
  (fromLE r.1, r.2)

/-! ## Requests -/

/-- Modelled from the spec: the declaration of `MemReq` is in `common.h`,
which is not part of the sources at hand. The fields are those `cpu.h` and
`cpu.cc` use, with the types the data model of the spec gives them: 64-bit
unsigned `id`, `addr`, `type`, `delay`, `size`, vectors of 64-bit unsigned
`deps` and `ids`, and a signed 64-bit `min_issue_cycle`. -/
structure MemReq where
  id : Nat
  addr : Nat
  type : Nat
  delay : Nat
  size : Nat
  deps : List Nat
  ids : List Nat
  min_issue_cycle : Int
deriving DecidableEq, Repr

/-- The call `v.resize(n)` of `std::vector<uint64_t>`: new elements are zero. -/
def resize (v : List Nat) (n : Nat) : List Nat :=
  v.take n ++ List.replicate (n - v.length) 0

/-- The loop `for i < depCount: file.read(&record->deps[i], 8)` over the
resized vector. -/
def readDeps (f : IfStream) : List Nat → List Nat × IfStream
  | [] => ([], f)
  | d :: ds =>
    let r := readU64 f d
    let rs := readDeps r.2 ds
    (r.1 :: rs.1, rs.2)

/-! ## TraceInputStream -/

/-- Reasons for which the program ends before its time: the failed `assert`
of `reset`, the two `exit(-1)` of the reader and of the driver, and a
`std::bad_alloc` that nothing catches. -/
inductive Fatal where
  | assertCorrectMagic
  | idNotContinuous
  | notEndedProperly
  | badAlloc
deriving DecidableEq, Repr

deriving instance DecidableEq for Except

/-- The class `TraceInputStream`. -/
structure TraceInputStream where
  file : IfStream
  expectRecordId : Nat
deriving DecidableEq, Repr

/-- The string literal `"BINFILE"` with its terminating zero. -/
def BINFILE : List Byte := [66, 73, 78, 70, 73, 76, 69, 0]

/-- `checkMagic`. The array `char magic[8]` is uninitialised: `magic0` is its
content (as a little-endian integer) before the read. `strcmp` stops at the
terminating zero of the literal, index 7, so it compares exactly 8 bytes. -/
def TraceInputStream.checkMagic (t : TraceInputStream) (magic0 : Nat) :
    Bool × TraceInputStream :=
  let r := t.file.read (toLE 8 magic0) 8
  (decide (r.1 = BINFILE), { t with file := r.2 })

/-- `reset`: clear the flags, seek to 0, check the magic under `assert`,
restart the expected id. -/
def TraceInputStream.reset (t : TraceInputStream) (magic0 : Nat) :
    Except Fatal TraceInputStream :=
  let t1 : TraceInputStream := { t with file := { t.file with pos := 0, good := true } }
  let r := t1.checkMagic magic0
  if r.1 then .ok { r.2 with expectRecordId := 0 } else .error .assertCorrectMagic

/-- The constructor, on a file that exists and holds `bytes`. -/
def TraceInputStream.new (bytes : List Byte) (magic0 : Nat) : Except Fatal TraceInputStream :=
  TraceInputStream.reset ⟨⟨bytes, 0, true⟩, 0⟩ magic0

/-- What `parseRecord` and `next` hand back: the return value, the two out
parameters and the reader. -/
structure ParseResult where
  good : Bool
  record : MemReq
  eof : Bool
  reader : TraceInputStream
deriving DecidableEq, Repr

/-- `parseRecord`. `record` is the object the caller passes in and `depCount0`
the content of the uninitialised local `depCount`. The two calls of `resize`
get their storage here, whatever the number of elements;
`TraceInputStream.parseRecordAlloc` is the same function with an allocator
that can refuse them. -/
def TraceInputStream.parseRecord (t : TraceInputStream) (record : MemReq) (depCount0 : Nat) :
    ParseResult :=
  let p := t.file.peekEOF
  if p.1 then ⟨false, record, true, { t with file := p.2 }⟩ else
  let rid := readU64 p.2 record.id
  let raddr := readU64 rid.2 record.addr
  let rtype := readU64 raddr.2 record.type
  let rdelay := readU64 rtype.2 record.delay
  let rsize := readU64 rdelay.2 record.size
  let rcount := readU64 rsize.2 depCount0
  let rdeps := readDeps rcount.2 (resize record.deps rcount.1)
  ⟨true,
   { id := rid.1, addr := raddr.1, type := rtype.1, delay := rdelay.1, size := rsize.1,
     deps := rdeps.1, ids := List.range (chunkCount rsize.1),
     min_issue_cycle := record.min_issue_cycle },
   false, { t with file := rdeps.2 }⟩

/-- `next`: parse, then check that the id continues the sequence. -/
def TraceInputStream.next (t : TraceInputStream) (record : MemReq) (depCount0 : Nat) :
    Except Fatal ParseResult :=
  let r := t.parseRecord record depCount0
  if r.good then
    if r.record.id ≠ t.expectRecordId then .error .idNotContinuous
    else .ok { r with reader := { r.reader with
                                  expectRecordId := (r.reader.expectRecordId + 1) % 2 ^ 64 } }
  else .ok r

/-- Results of `n` successive calls of `next`, each on the reader the call
before left: the records of the calls that returned true, in order, and the
reader after the last call (`none` once a call has terminated the program). -/
def nextMany (record : MemReq) (depCount0 : Nat) :
    Nat → TraceInputStream → List MemReq × Option TraceInputStream
  | 0, t => ([], some t)
  | n + 1, t =>
    match t.next record depCount0 with
    | .error _ => ([], none)
    | .ok r =>
      let rest := nextMany record depCount0 n r.reader
      if r.good then (r.record :: rest.1, rest.2) else rest

/-! ## The memory system, seen from the drivers -/

/-- Modelled from the spec: `memory_system.h` is not part of the sources at
hand; the three calls are those `cpu.cc` makes, with the signatures of the
memory model contract (`uint64_t` address, `bool` write flag). One call to
the memory system; a `WillAcceptTransaction` carries the answer it got. -/
inductive Event where
  | ClockTick
  | WillAcceptTransaction (addr : Nat) (is_write : Bool) (answer : Bool)
  | AddTransaction (addr : Nat) (is_write : Bool)
deriving DecidableEq, Repr

/-- Modelled from the spec: the admission behaviour of the memory system,
which the sources at hand do not contain: the answer to
`WillAcceptTransaction(addr, is_write)` after a given history of calls. Any
function is allowed. -/
abbrev Admission := List Event → Nat → Bool → Bool

/-! ## RamSimCPU -/

/-- The class `RamSimCPU` with the members of its base `CPU`.
`memory_system_` is the history of calls made to the memory system.
`submitted` is a ghost field, written next to each `AddTransaction` and never
read by the driver: the id of the request a transaction was submitted for,
its address and its write flag. -/
structure RamSimCPU where
  memory_system_ : List Event
  clk_ : Nat
  trace_file_ : TraceInputStream
  cpu_clock_ratio_ : Nat
  mem_clock_ratio_ : Nat
  pendReq : List MemReq
  all_trace_read : Bool
  finish : Bool
  submitted : List (Nat × Nat × Bool)
deriving DecidableEq, Repr

/-- The member initialiser `maxPendEntry = 256`. -/
def maxPendEntry : Nat := 256

/-- `depSolved`, with the pending vector as an argument: no dependency of
`record` is the id of a pending request. -/
def depSolved (pendReq : List MemReq) (record : MemReq) : Bool :=
  record.deps.all fun dep => pendReq.all fun req => !decide (req.id = dep)

/-- The constructor: an opened reader, cycle 0, nothing pending. -/
def RamSimCPU.new (bytes : List Byte) (magic0 : Nat) (cpu_clock_ratio mem_clock_ratio : Nat) :
    Except Fatal RamSimCPU :=
  match TraceInputStream.new bytes magic0 with
  | .error e => .error e
  | .ok t => .ok
    { memory_system_ := [], clk_ := 0, trace_file_ := t,
      cpu_clock_ratio_ := cpu_clock_ratio, mem_clock_ratio_ := mem_clock_ratio,
      pendReq := [], all_trace_read := false, finish := false, submitted := [] }

/-- The values of uninitialised objects the reader writes into: the local
`MemReq record` of `ClockTick` and the local `depCount` of `parseRecord`.
Only a call that meets the end of the file inside a record leaves any of it
visible, and after such a call the stream is never good again. -/
structure Uninit where
  record : MemReq
  depCount : Nat
deriving DecidableEq, Repr

/-- The refill loop `while (pendReq.size() < maxPendEntry)` of `ClockTick`
(cpu.cc lines 137-165). Every iteration that does not leave the loop appends
one request, so `maxPendEntry` iterations are enough; `fuel` counts them. The
result is the reader, the pending vector and `all_trace_read`. -/
def refillLoop (u : Uninit) (clk cpu_clock_ratio mem_clock_ratio : Nat) :
    Nat → TraceInputStream → List MemReq → Bool →
    Except Fatal (TraceInputStream × List MemReq × Bool)
  | 0, t, pendReq, all_trace_read => .ok (t, pendReq, all_trace_read)
  | fuel + 1, t, pendReq, all_trace_read =>
    if pendReq.length < maxPendEntry then
      match t.next u.record u.depCount with
      | .error e => .error e
      | .ok r =>
        if r.good then
          let record : MemReq :=
            if depSolved pendReq r.record then
              { r.record with
                min_issue_cycle := issueCycle clk r.record.delay cpu_clock_ratio mem_clock_ratio }
            else { r.record with min_issue_cycle := -1 }
          refillLoop u clk cpu_clock_ratio mem_clock_ratio fuel r.reader
            (pendReq ++ [record]) all_trace_read
        else if !r.eof then .error .notEndedProperly
        else .ok (r.reader, pendReq, true)
    else .ok (t, pendReq, all_trace_read)

/-- Body of the rescan loop (cpu.cc lines 171-177) for one request. -/
def resolve (clk cpu_clock_ratio mem_clock_ratio : Nat) (pendReq : List MemReq) (req : MemReq) :
    MemReq :=
  if req.min_issue_cycle = -1 then
    if depSolved pendReq req then
      { req with min_issue_cycle := issueCycle clk req.delay cpu_clock_ratio mem_clock_ratio }
    else req
  else req

/-- Address of the fragment with offset `o`: `it->addr + *id_it * 64` in
64-bit unsigned arithmetic. -/
def fragAddr (r : MemReq) (o : Nat) : Nat := (r.addr + o * 64) % 2 ^ 64

/-- The write flag passed for a request: `it->type` converted to `bool`. -/
def isWrite (r : MemReq) : Bool := decide (r.type ≠ 0)

/-- The loop over `it->ids` (cpu.cc lines 188-205): while the memory system
accepts the first remaining offset, submit it and erase it; stop at the first
refusal. Result: the remaining offsets, the call history, the ghost list. -/
def offerLoop (mem : Admission) (r : MemReq) :
    List Nat → List Event → List (Nat × Nat × Bool) →
    List Nat × List Event × List (Nat × Nat × Bool)
  | [], log, sub => ([], log, sub)
  | o :: rest, log, sub =>
    let ans := mem log (fragAddr r o) (isWrite r)
    let log1 := log ++ [Event.WillAcceptTransaction (fragAddr r o) (isWrite r) ans]
    if ans then
      offerLoop mem r rest (log1 ++ [Event.AddTransaction (fragAddr r o) (isWrite r)])
        (sub ++ [(r.id, fragAddr r o, isWrite r)])
    else (o :: rest, log1, sub)

/-- The scan loop `for (it = pendReq.begin(); it != pendReq.end();)` (cpu.cc
lines 167-209). `done` is the part of the vector before the iterator, `todo`
the part from the iterator on. Erasing `*it` leaves the iterator on the next
element and runs the rescan over the whole vector; otherwise the request is
offered if it is due, and the iterator moves on. Each iteration shortens
`todo` by one, and `fuel` is its length. -/
def scanLoop (mem : Admission) (clk cpu_clock_ratio mem_clock_ratio : Nat) :
    Nat → List MemReq → List MemReq → List Event → List (Nat × Nat × Bool) →
    List MemReq × List Event × List (Nat × Nat × Bool)
  | 0, done, todo, log, sub => (done ++ todo, log, sub)
  | _ + 1, done, [], log, sub => (done, log, sub)
  | fuel + 1, done, x :: rest, log, sub =>
    if x.ids.isEmpty then
      let pend := done ++ rest
      scanLoop mem clk cpu_clock_ratio mem_clock_ratio fuel
        (done.map (resolve clk cpu_clock_ratio mem_clock_ratio pend))
        (rest.map (resolve clk cpu_clock_ratio mem_clock_ratio pend)) log sub
    else if 0 ≤ x.min_issue_cycle then
      if x.min_issue_cycle ≤ (clk : Int) then
        let r := offerLoop mem x x.ids log sub
        scanLoop mem clk cpu_clock_ratio mem_clock_ratio fuel
          (done ++ [{ x with ids := r.1 }]) rest r.2.1 r.2.2
      else scanLoop mem clk cpu_clock_ratio mem_clock_ratio fuel (done ++ [x]) rest log sub
    else scanLoop mem clk cpu_clock_ratio mem_clock_ratio fuel (done ++ [x]) rest log sub

/-- `RamSimCPU::ClockTick`: tick the memory system, refill, scan, count the
cycle, set `finish`. -/
def RamSimCPU.ClockTick (mem : Admission) (u : Uninit) (s : RamSimCPU) : Except Fatal RamSimCPU :=
  let log0 := s.memory_system_ ++ [Event.ClockTick]
  match refillLoop u s.clk_ s.cpu_clock_ratio_ s.mem_clock_ratio_ maxPendEntry
      s.trace_file_ s.pendReq s.all_trace_read with
  | .error e => .error e
  | .ok (t, pend, atr) =>
    let r := scanLoop mem s.clk_ s.cpu_clock_ratio_ s.mem_clock_ratio_ pend.length [] pend
      log0 s.submitted
    .ok { s with
          memory_system_ := r.2.1, clk_ := (s.clk_ + 1) % 2 ^ 64, trace_file_ := t,
          pendReq := r.1, all_trace_read := atr,
          finish := s.finish || (atr && r.1.isEmpty), submitted := r.2.2 }

/-- `RamSimCPU::finished`. -/
def RamSimCPU.finished (s : RamSimCPU) : Bool := s.finish

/-- The driver after `n` calls of `ClockTick`. -/
def RamSimCPU.run (mem : Admission) (u : Uninit) : Nat → RamSimCPU → Except Fatal RamSimCPU
  | 0, s => .ok s
  | n + 1, s =>
    match RamSimCPU.run mem u n s with
    | .error e => .error e
    | .ok s1 => s1.ClockTick mem u

/-! ## The trace file format, as the specification describes it -/

/-- A record of the binary trace format: the six fields stored in the file. -/
structure TraceRecord where
  id : Nat
  address : Nat
  op_type : Nat
  delay : Nat
  size : Nat
  dependency_ids : List Nat
deriving DecidableEq, Repr

/-- The stored fields of a request. -/
def MemReq.toTraceRecord (r : MemReq) : TraceRecord :=
  ⟨r.id, r.addr, r.type, r.delay, r.size, r.deps⟩

/-- File image of a record: little-endian 8-byte fields `id, address, op_type,
delay, size, dependency_count`, then the dependency ids, 8 bytes each. -/
def encodeRecord (r : TraceRecord) : List Byte :=
  toLE 8 r.id ++ toLE 8 r.address ++ toLE 8 r.op_type ++ toLE 8 r.delay ++ toLE 8 r.size ++
    toLE 8 r.dependency_ids.length ++ (r.dependency_ids.map (toLE 8)).flatten

/-- File image of a trace: the 8-byte magic, then the records. -/
def encodeTrace (rs : List TraceRecord) : List Byte :=
  BINFILE ++ (rs.map encodeRecord).flatten

/-- Every field of the record fits its 64-bit slot. -/
def TraceRecord.WF (r : TraceRecord) : Prop :=
  r.id < 2 ^ 64 ∧ r.address < 2 ^ 64 ∧ r.op_type < 2 ^ 64 ∧ r.delay < 2 ^ 64 ∧
    r.size < 2 ^ 64 ∧ r.dependency_ids.length < 2 ^ 64 ∧ ∀ d ∈ r.dependency_ids, d < 2 ^ 64

/-! ## Vocabulary of the claims about the driver -/

/-- The transactions submitted for the request with the given id, in the
order of submission: address and write flag. -/
def submittedFor (sub : List (Nat × Nat × Bool)) (id : Nat) : List (Nat × Bool) :=
  (sub.filter fun e => decide (e.1 = id)).map fun e => e.2

/-- The `AddTransaction` calls of a call history: address and write flag. -/
def addsOf : List Event → List (Nat × Bool)
  | [] => []
  | Event.AddTransaction a w :: es => (a, w) :: addsOf es
  | _ :: es => addsOf es

/-- The calls a tick makes for one request whose first `k` remaining offsets
are accepted: for each of them, in order, the admission query answered true
and the submission; then, if an offset is left, the one query answered false
for it; nothing else. -/
def fragmentCalls (r : MemReq) (k : Nat) : List Event :=
  ((r.ids.take k).map fun o =>
      [Event.WillAcceptTransaction (fragAddr r o) (isWrite r) true,
       Event.AddTransaction (fragAddr r o) (isWrite r)]).flatten ++
    match r.ids.drop k with
    | [] => []
    | o :: _ => [Event.WillAcceptTransaction (fragAddr r o) (isWrite r) false]

/-- The request after its first `k` remaining offsets have been erased. -/
def MemReq.dropIds (r : MemReq) (k : Nat) : MemReq := { r with ids := r.ids.drop k }

/-- The reader works on a file of fewer than `2^64` bytes and has not counted
more ids than it has consumed bytes. -/
def ReaderOk (t : TraceInputStream) : Prop :=
  t.expectRecordId ≤ t.file.pos ∧ t.file.pos ≤ t.file.data.length ∧
    t.file.data.length < 2 ^ 64

/-- The pending requests carry distinct ids in ascending order, all below the
expected id of the reader. -/
def PendingOk (expect : Nat) (pendReq : List MemReq) : Prop :=
  (pendReq.map MemReq.id).Pairwise (· < ·) ∧ ∀ r ∈ pendReq, r.id < expect

/-- Every record the reader returns, now or in a later call, satisfies `P`. -/
def ReaderYields (P : MemReq → Prop) (u : Uninit) (t : TraceInputStream) : Prop :=
  ∀ n, ∀ r ∈ (nextMany u.record u.depCount n t).1, P r

/-- The request `ClockTick` appends for a record it has read: resolved at
once if no dependency is pending, unresolved otherwise (cpu.cc lines
141-146). -/
def stamped (clk cpu_clock_ratio mem_clock_ratio : Nat) (pendReq : List MemReq)
    (record : MemReq) : MemReq :=
  if depSolved pendReq record then
    { record with
      min_issue_cycle := issueCycle clk record.delay cpu_clock_ratio mem_clock_ratio }
  else { record with min_issue_cycle := -1 }

/-- Every dependency id of the request is smaller than its own id. -/
def MemReq.Backward (r : MemReq) : Prop := ∀ d ∈ r.deps, d < r.id

/-- The fragments with the offsets `0, ..., k-1` of a request: address and
write flag, in ascending order of the offsets. -/
def fragments (m : MemReq) (k : Nat) : List (Nat × Bool) :=
  (List.range k).map fun i => (fragAddr m i, isWrite m)

/-- How far the request read as record `m` has got: for some `k` up to its
number of fragments, the transactions submitted for it are exactly its first
`k` fragments in order; a pending request with its id holds exactly the
remaining offsets `k, k+1, ...` (and the address, type and size of the
record); and if no request with its id is pending, all fragments have been
submitted. -/
def Progress (pendReq : List MemReq) (sub : List (Nat × Nat × Bool)) (m : MemReq) : Prop :=
  ∃ k, k ≤ chunkCount m.size ∧
    submittedFor sub m.id = fragments m k ∧
    (∀ q ∈ pendReq, q.id = m.id →
      q.ids = List.range' k (chunkCount m.size - k) ∧
      q.addr = m.addr ∧ q.type = m.type ∧ q.size = m.size) ∧
    ((∀ q ∈ pendReq, q.id ≠ m.id) → k = chunkCount m.size)

/-! ## Sample data -/

/-- A trace of two records in which the first depends on the second. -/
def forwardTrace : List TraceRecord :=
  [⟨0, 4096, 0, 0, 64, [1]⟩, ⟨1, 8192, 1, 0, 130, []⟩]


/-- A trace of two records; the second depends on the first. -/
def sampleTrace : List TraceRecord :=
  [⟨0, 4096, 0, 0, 64, []⟩, ⟨1, 8192, 1, 0, 130, [0]⟩]

/-- A trace whose only record announces one dependency id and ends right
after the `dependency_count` field: 48 of the record's 56 bytes. -/
def truncatedTrace : List Byte := (encodeTrace [⟨0, 4096, 0, 0, 64, [5]⟩]).take 56

/-- A memory system that refuses every transaction. -/
def refuseAll : Admission := fun _ _ _ => false

/-- A memory system that accepts every transaction. -/
def acceptAll : Admission := fun _ _ _ => true

/-- The driver constructed on the sample trace with both clock ratios 1. -/
def sampleStart : RamSimCPU :=
  { memory_system_ := [], clk_ := 0,
    trace_file_ := ⟨⟨encodeTrace sampleTrace, 8, true⟩, 0⟩,
    cpu_clock_ratio_ := 1, mem_clock_ratio_ := 1, pendReq := [], all_trace_read := false,
    finish := false, submitted := [] }

/-- The state of the driver on the sample trace after one tick in which the
memory system refuses everything. -/
def sampleAfterTick : RamSimCPU :=
  { memory_system_ := [Event.ClockTick, Event.WillAcceptTransaction 4096 false false],
    clk_ := 1,
    trace_file_ := ⟨⟨encodeTrace sampleTrace, 112, false⟩, 2⟩,
    cpu_clock_ratio_ := 1, mem_clock_ratio_ := 1,
    pendReq := [⟨0, 4096, 0, 0, 64, [], [0], 0⟩, ⟨1, 8192, 1, 0, 130, [0], [0, 1, 2], -1⟩],
    all_trace_read := true, finish := false, submitted := [] }

/-- A request object whose memory is all zero. -/
def zeroReq : MemReq := ⟨0, 0, 0, 0, 0, [], [], 0⟩

/-! ## The synthetic drivers -/

/-- Modelled from the spec: `std::mt19937_64` belongs to the standard
library. A generator is given by the sequence of the values its calls
return; a driver keeps the number of values it has drawn so far. -/
abbrev Mt19937_64 := Nat → Nat

/-- The value of the call `gen()` made after `n` earlier calls: an unsigned
64-bit integer. -/
def draw (rng : Mt19937_64) (n : Nat) : Nat := rng n % 2 ^ 64

/-- The class `RandomCPU` with the members of its base `CPU`. `gen` is the
number of values drawn from the generator so far. -/
structure RandomCPU where
  memory_system_ : List Event
  clk_ : Nat
  last_addr_ : Nat
  last_write_ : Bool
  gen : Nat
  get_next_ : Bool
deriving DecidableEq, Repr

/-- The constructor: cycle 0, `last_write_ = false`, `get_next_ = true`;
`last_addr_` has no initialiser, `last_addr0` is what its memory holds. -/
def RandomCPU.new (last_addr0 : Nat) : RandomCPU :=
  { memory_system_ := [], clk_ := 0, last_addr_ := last_addr0, last_write_ := false,
    gen := 0, get_next_ := true }

/-- `RandomCPU::ClockTick`. -/
def RandomCPU.ClockTick (mem : Admission) (rng : Mt19937_64) (s : RandomCPU) : RandomCPU :=
  let log0 := s.memory_system_ ++ [Event.ClockTick]
  let s1 : RandomCPU :=
    if s.get_next_ then
      { s with
        last_addr_ := draw rng s.gen,
        last_write_ := decide (draw rng (s.gen + 1) % 3 = 0),
        gen := s.gen + 2 }
    else s
  let ans := mem log0 s1.last_addr_ s1.last_write_
  let log1 := log0 ++ [Event.WillAcceptTransaction s1.last_addr_ s1.last_write_ ans]
  { s1 with
    memory_system_ :=
      if ans then log1 ++ [Event.AddTransaction s1.last_addr_ s1.last_write_] else log1,
    get_next_ := ans,
    clk_ := (s.clk_ + 1) % 2 ^ 64 }

/-- The driver after `n` calls of `ClockTick`. -/
def RandomCPU.run (mem : Admission) (rng : Mt19937_64) : Nat → RandomCPU → RandomCPU
  | 0, s => s
  | n + 1, s => (RandomCPU.run mem rng n s).ClockTick mem rng

/-- The constant `num_stream = 3`. -/
def num_stream : Nat := 3

/-- The member initialiser `array_size_ = 2 << 20`. -/
def array_size_ : Nat := 2 * 2 ^ 20

/-- The member initialiser `stride_ = 64`. -/
def stride_ : Nat := 64

/-- The class `StreamCPU` with the members of its base `CPU`. The arrays
`addrs` and `inserted` are lists of `num_stream` elements; `gen` is the
number of values drawn from the generator so far. -/
structure StreamCPU where
  memory_system_ : List Event
  clk_ : Nat
  offset_ : Nat
  addrs : List Nat
  gen : Nat
  inserted : List Bool
deriving DecidableEq, Repr

/-- The constructor: cycle 0, offset 0, no array inserted; `addrs` has no
initialiser, `a0`, `a1`, `a2` are what its memory holds. -/
def StreamCPU.new (a0 a1 a2 : Nat) : StreamCPU :=
  { memory_system_ := [], clk_ := 0, offset_ := 0, addrs := [a0, a1, a2], gen := 0,
    inserted := List.replicate num_stream false }

/-- The offer loop of `StreamCPU::ClockTick` over the indices still to visit:
for an array not yet inserted, ask the memory system about
`addrs[i] + offset_` (64-bit unsigned) with write flag `i % 3 == 2`; on
acceptance submit it and mark the array. Result: `inserted` and the call
history. -/
def streamOfferLoop (mem : Admission) (addrs : List Nat) (offset : Nat) :
    List Nat → List Bool → List Event → List Bool × List Event
  | [], inserted, log => (inserted, log)
  | i :: rest, inserted, log =>
    if inserted.getD i false then streamOfferLoop mem addrs offset rest inserted log
    else
      let a := (addrs.getD i 0 + offset) % 2 ^ 64
      let w := decide (i % 3 = 2)
      let ans := mem log a w
      let log1 := log ++ [Event.WillAcceptTransaction a w ans]
      if ans then
        streamOfferLoop mem addrs offset rest (inserted.set i true)
          (log1 ++ [Event.AddTransaction a w])
      else streamOfferLoop mem addrs offset rest inserted log1

/-- `StreamCPU::ClockTick`. -/
def StreamCPU.ClockTick (mem : Admission) (rng : Mt19937_64) (s : StreamCPU) : StreamCPU :=
  let log0 := s.memory_system_ ++ [Event.ClockTick]
  let s1 : StreamCPU :=
    if array_size_ ≤ s.offset_ ∨ s.clk_ = 0 then
      { s with
        addrs := (List.range num_stream).map fun i => draw rng (s.gen + i),
        gen := s.gen + num_stream,
        offset_ := 0 }
    else s
  let r := streamOfferLoop mem s1.addrs s1.offset_ (List.range num_stream) s1.inserted log0
  let all_inserted := (List.range num_stream).all fun i => r.1.getD i false
  { s1 with
    memory_system_ := r.2,
    offset_ := if all_inserted then (s1.offset_ + stride_) % 2 ^ 64 else s1.offset_,
    inserted := if all_inserted then List.replicate num_stream false else r.1,
    clk_ := (s.clk_ + 1) % 2 ^ 64 }

/-- The driver after `n` calls of `ClockTick`. -/
def StreamCPU.run (mem : Admission) (rng : Mt19937_64) : Nat → StreamCPU → StreamCPU
  | 0, s => s
  | n + 1, s => (StreamCPU.run mem rng n s).ClockTick mem rng

/-! ## The text trace driver -/

/-- Modelled from the spec: the declaration of `Transaction` is in
`common.h`, which is not part of the sources at hand. The fields are those
`cpu.cc` uses, with the types the data model of the spec gives them. -/
structure Transaction where
  addr : Nat
  is_write : Bool
  added_cycle : Nat
deriving DecidableEq, Repr

/-- Modelled from the spec: the text trace behind `std::ifstream
trace_file_`. The file is a sequence of lines of three whitespace-separated
fields; `lines` are the transactions of the lines not yet read, `trailing`
tells whether white space (a line end) follows the last line, `eofbit` and
`failbit` are the flags of the stream. -/
structure TextStream where
  lines : List Transaction
  trailing : Bool
  eofbit : Bool
  failbit : Bool
deriving DecidableEq, Repr

/-- Modelled from the spec: `trace_file_ >> trans_`; the operator is defined
in `common.cc`, which is not part of the sources at hand. On a good stream
with a line left, the three fields are extracted; reading the last field
meets the end of the file, and sets `eofbit`, exactly when nothing follows
it. With no line left, skipping the white space meets the end of the file:
`eofbit` and `failbit` are set and nothing is extracted; `stale` is what the
operator leaves in the transaction then. -/
def TextStream.extract (stale : Transaction → Transaction) (f : TextStream)
    (trans_ : Transaction) : TextStream × Transaction :=
  if f.eofbit || f.failbit then ({ f with failbit := true }, stale trans_)
  else
    match f.lines with
    | [] => ({ f with eofbit := true, failbit := true }, stale trans_)
    | x :: rest => ({ f with lines := rest, eofbit := rest.isEmpty && !f.trailing }, x)

/-- The class `TraceBasedCPU` with the members of its base `CPU`. -/
structure TraceBasedCPU where
  memory_system_ : List Event
  clk_ : Nat
  trace_file_ : TextStream
  trans_ : Transaction
  get_next_ : Bool
deriving DecidableEq, Repr

/-- The constructor on a trace file that could be opened: cycle 0,
`get_next_ = true`; `trans0` is the default-constructed `trans_`. -/
def TraceBasedCPU.new (lines : List Transaction) (trailing : Bool) (trans0 : Transaction) :
    TraceBasedCPU :=
  { memory_system_ := [], clk_ := 0, trace_file_ := ⟨lines, trailing, false, false⟩,
    trans_ := trans0, get_next_ := true }

/-- The loop `while (!trace_file_.eof())` of `TraceBasedCPU::ClockTick`.
Every iteration after the first that does not leave the loop starts with an
extraction, which consumes a line or sets `eofbit`; `fuel` bounds the number
of iterations. Result: the stream, `trans_`, `get_next_` and the call
history. -/
def traceLoop (mem : Admission) (stale : Transaction → Transaction) (clk : Nat) :
    Nat → TextStream → Transaction → Bool → List Event →
    TextStream × Transaction × Bool × List Event
  | 0, f, trans_, get_next, log => (f, trans_, get_next, log)
  | fuel + 1, f, trans_, get_next, log =>
    if f.eofbit then (f, trans_, get_next, log)
    else
      let r := if get_next then f.extract stale trans_ else (f, trans_)
      let get_next1 := if get_next then false else get_next
      if r.2.added_cycle ≤ clk then
        let ans := mem log r.2.addr r.2.is_write
        let log1 := log ++ [Event.WillAcceptTransaction r.2.addr r.2.is_write ans]
        if ans then
          traceLoop mem stale clk fuel r.1 r.2 true
            (log1 ++ [Event.AddTransaction r.2.addr r.2.is_write])
        else (r.1, r.2, false, log1)
      else (r.1, r.2, get_next1, log)

/-- `TraceBasedCPU::ClockTick`. -/
def TraceBasedCPU.ClockTick (mem : Admission) (stale : Transaction → Transaction)
    (s : TraceBasedCPU) : TraceBasedCPU :=
  let log0 := s.memory_system_ ++ [Event.ClockTick]
  let r := traceLoop mem stale s.clk_ (s.trace_file_.lines.length + 2) s.trace_file_ s.trans_
    s.get_next_ log0
  { s with
    memory_system_ := r.2.2.2, clk_ := (s.clk_ + 1) % 2 ^ 64, trace_file_ := r.1,
    trans_ := r.2.1, get_next_ := r.2.2.1 }

/-- The driver after `n` calls of `ClockTick`. -/
def TraceBasedCPU.run (mem : Admission) (stale : Transaction → Transaction) :
    Nat → TraceBasedCPU → TraceBasedCPU
  | 0, s => s
  | n + 1, s => (TraceBasedCPU.run mem stale n s).ClockTick mem stale

/-! ## Vocabulary of the claims about all drivers -/

/-- The call `e` made directly after the call `prev` (if any) keeps the
admission protocol: an `AddTransaction(a, w)` comes directly after a
`WillAcceptTransaction(a, w)` that was answered true. -/
def admitted (prev : Option Event) (e : Event) : Bool :=
  match e with
  | Event.AddTransaction a w => decide (prev = some (Event.WillAcceptTransaction a w true))
  | _ => true

/-- Every call of the sequence, made after the call `prev`, keeps the
admission protocol. -/
def followsProtocol : Option Event → List Event → Bool
  | _, [] => true
  | prev, e :: rest => admitted prev e && followsProtocol (some e) rest

/-- The issue cycle as the specification words it: `c + ceil(delay * mem /
cpu)` with the exact ceiling of the rational number. -/
def exactIssueCycle (clk delay cpu_clock_ratio mem_clock_ratio : Nat) : Int :=
  (clk : Int) + ((delay * mem_clock_ratio + cpu_clock_ratio - 1) / cpu_clock_ratio : Nat)

/-- A sequence of calls that a tick can make after its `ClockTick`: it holds
no `ClockTick`, and it keeps the admission protocol whatever call came before
it. -/
def OfferCalls (calls : List Event) : Prop :=
  Event.ClockTick ∉ calls ∧ ∀ prev, followsProtocol prev calls = true

/-- The candidate `RandomCPU` offers in the tick that starts in state `s`:
a newly drawn pair if `get_next_` is set, the pair it holds otherwise. -/
def RandomCPU.candidate (rng : Mt19937_64) (s : RandomCPU) : Nat × Bool :=
  if s.get_next_ then (draw rng s.gen, decide (draw rng (s.gen + 1) % 3 = 0))
  else (s.last_addr_, s.last_write_)

/-- The answer of the memory system to the offer of the tick that starts in
state `s`. -/
def RandomCPU.answer (mem : Admission) (rng : Mt19937_64) (s : RandomCPU) : Bool :=
  mem (s.memory_system_ ++ [Event.ClockTick]) (s.candidate rng).1 (s.candidate rng).2

/-- The calls of the offer loop of `StreamCPU` for array `i`, given the flags
`ins` before the loop and the flags `fin` after it. -/
def streamCalls (addrs : List Nat) (off : Nat) (ins fin : List Bool) (i : Nat) : List Event :=
  if ins.getD i false then []
  else
    Event.WillAcceptTransaction ((addrs.getD i 0 + off) % 2 ^ 64) (decide (i % 3 = 2))
        (fin.getD i false) ::
      if fin.getD i false then
        [Event.AddTransaction ((addrs.getD i 0 + off) % 2 ^ 64) (decide (i % 3 = 2))]
      else []

/-- The state of `StreamCPU` after the first block of its tick: new base
addresses and offset 0 if `offset_ >= array_size_ || clk_ == 0`. -/
def StreamCPU.prepared (rng : Mt19937_64) (s : StreamCPU) : StreamCPU :=
  if array_size_ ≤ s.offset_ ∨ s.clk_ = 0 then
    { s with
      addrs := (List.range num_stream).map fun i => draw rng (s.gen + i),
      gen := s.gen + num_stream,
      offset_ := 0 }
  else s

/-- The array `inserted` at the end of the offer loop of the tick that starts
in state `s`. -/
def StreamCPU.flags (mem : Admission) (rng : Mt19937_64) (s : StreamCPU) : List Bool :=
  (streamOfferLoop mem (s.prepared rng).addrs (s.prepared rng).offset_ (List.range num_stream)
    (s.prepared rng).inserted (s.memory_system_ ++ [Event.ClockTick])).1

/-- The address that the tick which starts in state `s` offers for array
`i`. -/
def StreamCPU.offerAddr (rng : Mt19937_64) (s : StreamCPU) (i : Nat) : Nat :=
  ((s.prepared rng).addrs.getD i 0 + (s.prepared rng).offset_) % 2 ^ 64

/-- The calls the claim ascribes to array `i` in the tick that starts in
state `s`: none if the array is inserted; otherwise the query for its address
with write flag `i = 2`, and the submission if the array is marked inserted
at the end of the offers. -/
def StreamCPU.arrayCalls (mem : Admission) (rng : Mt19937_64) (s : StreamCPU) (i : Nat) :
    List Event :=
  if s.inserted.getD i false then []
  else
    Event.WillAcceptTransaction (s.offerAddr rng i) (decide (i = 2))
        ((s.flags mem rng).getD i false) ::
      if (s.flags mem rng).getD i false then
        [Event.AddTransaction (s.offerAddr rng i) (decide (i = 2))]
      else []

/-- All arrays are inserted at the end of the offers of the tick that starts
in state `s`. -/
def StreamCPU.complete (mem : Admission) (rng : Mt19937_64) (s : StreamCPU) : Bool :=
  (List.range num_stream).all fun i => (s.flags mem rng).getD i false

/-- The tick that starts in state `s` submits the fragment of array `i`. -/
def StreamCPU.submits (mem : Admission) (rng : Mt19937_64) (s : StreamCPU) (i : Nat) : Bool :=
  !s.inserted.getD i false && (s.flags mem rng).getD i false

/-- The text trace driver on a file whose only line is a read of address
4096 with issue cycle 2, with nothing after the last field. -/
def lastLineStart : TraceBasedCPU := TraceBasedCPU.new [⟨4096, false, 2⟩] false ⟨0, false, 0⟩

/-- The text trace driver on a file whose only line is a read of address
4096 with issue cycle 0, followed by a line end. -/
def oneLineStart : TraceBasedCPU := TraceBasedCPU.new [⟨4096, false, 0⟩] true ⟨0, false, 0⟩

/-- The sentinel discipline of the pending vector: an unresolved request has
a pending dependency, and every `min_issue_cycle` is the sentinel, a cycle,
or the value `-2^63` of an overflowed conversion. -/
def Waiting (pendReq : List MemReq) : Prop :=
  ∀ q ∈ pendReq,
    (q.min_issue_cycle = -1 → depSolved pendReq q = false) ∧
    (q.min_issue_cycle = -1 ∨ 0 ≤ q.min_issue_cycle ∨ q.min_issue_cycle = -(2 ^ 63 : Int))

/-- A trace of one record without dependencies whose delay is `2^63`. -/
def longDelayTrace : List TraceRecord := [⟨0, 4096, 0, 2 ^ 63, 64, []⟩]

/-- The driver constructed on the trace `longDelayTrace` with both clock
ratios 1. -/
def longDelayStart : RamSimCPU :=
  { memory_system_ := [], clk_ := 0,
    trace_file_ := ⟨⟨encodeTrace longDelayTrace, 8, true⟩, 0⟩,
    cpu_clock_ratio_ := 1, mem_clock_ratio_ := 1, pendReq := [], all_trace_read := false,
    finish := false, submitted := [] }

/-- The state of the driver on the trace `longDelayTrace` after `n + 1`
ticks with a memory system that accepts everything. -/
def longDelayAfter (n : Nat) : RamSimCPU :=
  { memory_system_ := List.replicate (n + 1) Event.ClockTick, clk_ := n + 1,
    trace_file_ := ⟨⟨encodeTrace longDelayTrace, 56, false⟩, 1⟩,
    cpu_clock_ratio_ := 1, mem_clock_ratio_ := 1,
    pendReq := [⟨0, 4096, 0, 2 ^ 63, 64, [], [0], -(2 ^ 63)⟩],
    all_trace_read := true, finish := false, submitted := [] }

/-- A trace of two records; the second has size 0 and depends on the
first. -/
def zeroSizeTrace : List TraceRecord :=
  [⟨0, 4096, 0, 0, 64, []⟩, ⟨1, 8192, 0, 0, 0, [0]⟩]

/-- The driver constructed on the trace `zeroSizeTrace` with both clock
ratios 1. -/
def zeroSizeStart : RamSimCPU :=
  { memory_system_ := [], clk_ := 0,
    trace_file_ := ⟨⟨encodeTrace zeroSizeTrace, 8, true⟩, 0⟩,
    cpu_clock_ratio_ := 1, mem_clock_ratio_ := 1, pendReq := [], all_trace_read := false,
    finish := false, submitted := [] }

/-- The state of the driver on the trace `zeroSizeTrace` after one tick in
which the memory system refuses everything. -/
def zeroSizeAfterTick : RamSimCPU :=
  { memory_system_ := [Event.ClockTick, Event.WillAcceptTransaction 4096 false false],
    clk_ := 1,
    trace_file_ := ⟨⟨encodeTrace zeroSizeTrace, 112, false⟩, 2⟩,
    cpu_clock_ratio_ := 1, mem_clock_ratio_ := 1,
    pendReq := [⟨0, 4096, 0, 0, 64, [], [0], 0⟩],
    all_trace_read := true, finish := false, submitted := [] }

/-- Ghost record of one pass of the offer loop: the request that is offered,
the pending vector at that moment (during the offers only the offsets of the
offered request change), the ghost list `submitted` of the driver before the
pass, and the transactions submitted in the pass. -/
structure Moment where
  request : MemReq
  pending : List MemReq
  before : List (Nat × Nat × Bool)
  submitted : List (Nat × Nat × Bool)
deriving DecidableEq, Repr

/-- The scan loop `scanLoop` with a ghost list that the driver never reads:
every pass of the offer loop appends its `Moment`. -/
def scanLoopGhost (mem : Admission) (clk cpu_clock_ratio mem_clock_ratio : Nat) :
    Nat → List MemReq → List MemReq → List Event → List (Nat × Nat × Bool) → List Moment →
    (List MemReq × List Event × List (Nat × Nat × Bool)) × List Moment
  | 0, done, todo, log, sub, ghost => ((done ++ todo, log, sub), ghost)
  | _ + 1, done, [], log, sub, ghost => ((done, log, sub), ghost)
  | fuel + 1, done, x :: rest, log, sub, ghost =>
    if x.ids.isEmpty then
      let pend := done ++ rest
      scanLoopGhost mem clk cpu_clock_ratio mem_clock_ratio fuel
        (done.map (resolve clk cpu_clock_ratio mem_clock_ratio pend))
        (rest.map (resolve clk cpu_clock_ratio mem_clock_ratio pend)) log sub ghost
    else if 0 ≤ x.min_issue_cycle then
      if x.min_issue_cycle ≤ (clk : Int) then
        let r := offerLoop mem x x.ids log sub
        scanLoopGhost mem clk cpu_clock_ratio mem_clock_ratio fuel
          (done ++ [{ x with ids := r.1 }]) rest r.2.1 r.2.2
          (ghost ++ [⟨x, done ++ x :: rest, sub, r.2.2.drop sub.length⟩])
      else
        scanLoopGhost mem clk cpu_clock_ratio mem_clock_ratio fuel (done ++ [x]) rest log sub
          ghost
    else
      scanLoopGhost mem clk cpu_clock_ratio mem_clock_ratio fuel (done ++ [x]) rest log sub ghost

/-- The passes of the offer loop in the tick that starts in state `s`. -/
def RamSimCPU.moments (mem : Admission) (u : Uninit) (s : RamSimCPU) : List Moment :=
  match refillLoop u s.clk_ s.cpu_clock_ratio_ s.mem_clock_ratio_ maxPendEntry
      s.trace_file_ s.pendReq s.all_trace_read with
  | .error _ => []
  | .ok (_, pend, _) =>
    (scanLoopGhost mem s.clk_ s.cpu_clock_ratio_ s.mem_clock_ratio_ pend.length [] pend
      (s.memory_system_ ++ [Event.ClockTick]) s.submitted []).2

/-- The state of the driver on the sample trace after one tick in which the
memory system accepts everything. -/
def sampleAfterAccept : RamSimCPU :=
  { memory_system_ := [Event.ClockTick, Event.WillAcceptTransaction 4096 false true,
      Event.AddTransaction 4096 false],
    clk_ := 1,
    trace_file_ := ⟨⟨encodeTrace sampleTrace, 112, false⟩, 2⟩,
    cpu_clock_ratio_ := 1, mem_clock_ratio_ := 1,
    pendReq := [⟨0, 4096, 0, 0, 64, [], [], 0⟩, ⟨1, 8192, 1, 0, 130, [0], [0, 1, 2], -1⟩],
    all_trace_read := true, finish := false, submitted := [(0, 4096, false)] }

/-- The request object the reader fills for a record of the trace, with the
`min_issue_cycle` the object held before. -/
def TraceRecord.toMemReq (r : TraceRecord) (min_issue_cycle : Int) : MemReq :=
  ⟨r.id, r.address, r.op_type, r.delay, r.size, r.dependency_ids,
    List.range (chunkCount r.size), min_issue_cycle⟩

/-- The pending vector after the refill has appended the given requests one
after the other. -/
def stampAll (clk cpu_clock_ratio mem_clock_ratio : Nat) : List MemReq → List MemReq → List MemReq
  | pendReq, [] => pendReq
  | pendReq, r :: rs =>
    stampAll clk cpu_clock_ratio mem_clock_ratio
      (pendReq ++ [stamped clk cpu_clock_ratio mem_clock_ratio pendReq r]) rs

/-- A trace of three records without delay: record 0 of size 64 has no
dependency, record 1 of size 64 depends on record 0, record 2 of size 128
depends on record 1. -/
def chainTrace (a0 ty0 a1 ty1 a2 ty2 : Nat) : List TraceRecord :=
  [⟨0, a0, ty0, 0, 64, []⟩, ⟨1, a1, ty1, 0, 64, [0]⟩, ⟨2, a2, ty2, 0, 128, [1]⟩]

/-- Every `WillAcceptTransaction` among the calls `calls`, made after the
history `log`, carries the answer the memory system `mem` gives to it on the
history of all calls made before it. -/
def answeredBy (mem : Admission) : List Event → List Event → Bool
  | _, [] => true
  | log, e :: rest =>
    (match e with
     | Event.WillAcceptTransaction a w ans => decide (ans = mem log a w)
     | _ => true) && answeredBy mem (log ++ [e]) rest

/-- A memory system that refuses the address 8256 and accepts every other
transaction. -/
def refuse8256 : Admission := fun _ a _ => decide (a ≠ 8256)

/-- The state of the driver on the sample trace after a second tick, with the
memory system `refuse8256`: request 0 is erased, request 1 is resolved, its
first fragment is submitted, its second fragment (address 8256) is refused and
its third fragment is not offered. -/
def samplePartial : RamSimCPU :=
  { memory_system_ := [Event.ClockTick, Event.WillAcceptTransaction 4096 false true,
      Event.AddTransaction 4096 false, Event.ClockTick,
      Event.WillAcceptTransaction 8192 true true, Event.AddTransaction 8192 true,
      Event.WillAcceptTransaction 8256 true false],
    clk_ := 2,
    trace_file_ := ⟨⟨encodeTrace sampleTrace, 112, false⟩, 2⟩,
    cpu_clock_ratio_ := 1, mem_clock_ratio_ := 1,
    pendReq := [⟨1, 8192, 1, 0, 130, [0], [1, 2], 1⟩],
    all_trace_read := true, finish := false,
    submitted := [(0, 4096, false), (1, 8192, true)] }

/-- A memory system that refuses the address 4096 and accepts every other
transaction. -/
def refuse4096 : Admission := fun _ a _ => decide (a ≠ 4096)

/-- A generator whose `n`-th value is `4096 * n`. -/
def pageRng : Mt19937_64 := fun n => 4096 * n

/-! ## The reader and the storage of its vectors -/

/-- The memory the program can get. `std::vector` belongs to the standard
library: a `resize` that needs new storage gets it or throws. `alloc n` tells
whether a `std::vector<uint64_t>` that needs new storage for `n` elements
gets it. Any function is allowed. -/
abbrev Allocator := Nat → Bool

/-- The call `v.resize(n)` returns: the vector needs no new storage (it holds
`n` elements already; its capacity is taken to be its size, as for the empty
vectors of a new `MemReq`), or it gets the storage. Otherwise `resize` throws
`std::bad_alloc` (`std::length_error` above `max_size()`), which nothing
catches. -/
def resizeOk (alloc : Allocator) (v : List Nat) (n : Nat) : Bool :=
  decide (n ≤ v.length) || alloc n

/-- `parseRecord` with the storage of its vectors: the function
`TraceInputStream.parseRecord` in which each of the two calls of `resize`
ends the program when it does not get its storage. -/
def TraceInputStream.parseRecordAlloc (alloc : Allocator) (t : TraceInputStream)
    (record : MemReq) (depCount0 : Nat) : Except Fatal ParseResult :=
  let p := t.file.peekEOF
  if p.1 then .ok ⟨false, record, true, { t with file := p.2 }⟩ else
  let rid := readU64 p.2 record.id
  let raddr := readU64 rid.2 record.addr
  let rtype := readU64 raddr.2 record.type
  let rdelay := readU64 rtype.2 record.delay
  let rsize := readU64 rdelay.2 record.size
  let rcount := readU64 rsize.2 depCount0
  if !resizeOk alloc record.deps rcount.1 then .error .badAlloc else
  let rdeps := readDeps rcount.2 (resize record.deps rcount.1)
  if !resizeOk alloc record.ids (chunkCount rsize.1) then .error .badAlloc else
  .ok ⟨true,
   { id := rid.1, addr := raddr.1, type := rtype.1, delay := rdelay.1, size := rsize.1,
     deps := rdeps.1, ids := List.range (chunkCount rsize.1),
     min_issue_cycle := record.min_issue_cycle },
   false, { t with file := rdeps.2 }⟩

/-- `next` with the storage of the vectors: parse, then check that the id
continues the sequence. -/
def TraceInputStream.nextAlloc (alloc : Allocator) (t : TraceInputStream) (record : MemReq)
    (depCount0 : Nat) : Except Fatal ParseResult :=
  match t.parseRecordAlloc alloc record depCount0 with
  | .error e => .error e
  | .ok r =>
    if r.good then
      if r.record.id ≠ t.expectRecordId then .error .idNotContinuous
      else .ok { r with reader := { r.reader with
                                    expectRecordId := (r.reader.expectRecordId + 1) % 2 ^ 64 } }
    else .ok r

/-- Results of `n` successive calls of `nextAlloc`, each on the reader the
call before left: the records of the calls that returned true, in order, and
the reader after the last call (`none` once a call has ended the program). -/
def nextManyAlloc (alloc : Allocator) (record : MemReq) (depCount0 : Nat) :
    Nat → TraceInputStream → List MemReq × Option TraceInputStream
  | 0, t => ([], some t)
  | n + 1, t =>
    match t.nextAlloc alloc record depCount0 with
    | .error _ => ([], none)
    | .ok r =>
      let rest := nextManyAlloc alloc record depCount0 n r.reader
      if r.good then (r.record :: rest.1, rest.2) else rest

/-- An allocator that grants storage for fewer than `2^47` elements (1 PiB of
64-bit integers) and nothing above. -/
def pebibyte : Allocator := fun n => decide (n < 2 ^ 47)

/-- A trace of one record of size `2^53 + 1`. -/
def hugeTrace : List TraceRecord := [⟨0, 0, 0, 0, 2 ^ 53 + 1, []⟩]

theorem log2Fuel_spec (f n : Nat) (hf : n ≤ f) (hn : 1 ≤ n) :
    2 ^ log2Fuel f n ≤ n ∧ n < 2 ^ (log2Fuel f n + 1) := by
  induction f generalizing n with
  | zero => omega
  | succ f ih =>
    unfold log2Fuel
    by_cases h2 : n < 2
    · simp only [h2, if_true]
      omega
    · simp only [h2, if_false]
      obtain ⟨i1, i2⟩ := ih (n / 2) (by omega) (by omega)
      rw [pow_succ] at i2 ⊢
      rw [pow_succ]
      constructor <;> omega

theorem ilog2_spec (n : Nat) (hn : 1 ≤ n) : 2 ^ ilog2 n ≤ n ∧ n < 2 ^ (ilog2 n + 1) :=
  log2Fuel_spec n n (Nat.le_refl _) hn

/-- The scaling step of `roundToDouble`: the divisor `d * 2^b` it settles on
brings the quotient into `[2^52, 2^53)`. -/
theorem roundToDouble_scale (n d : Nat) (hn : 1 ≤ n) (hd : 1 ≤ d) :
    ∃ b, 2 ^ 52 * (d * 2 ^ b) ≤ n * 2 ^ (53 + ilog2 d) ∧
      n * 2 ^ (53 + ilog2 d) < 2 ^ 53 * (d * 2 ^ b) ∧
      roundToDouble n d =
        (if 53 + ilog2 d ≤ b then
          ⟨(if 2 * (n * 2 ^ (53 + ilog2 d) % (d * 2 ^ b)) < d * 2 ^ b then
              n * 2 ^ (53 + ilog2 d) / (d * 2 ^ b)
            else if d * 2 ^ b < 2 * (n * 2 ^ (53 + ilog2 d) % (d * 2 ^ b)) then
              n * 2 ^ (53 + ilog2 d) / (d * 2 ^ b) + 1
            else n * 2 ^ (53 + ilog2 d) / (d * 2 ^ b) +
              n * 2 ^ (53 + ilog2 d) / (d * 2 ^ b) % 2) * 2 ^ (b - (53 + ilog2 d)), 1⟩
        else
          ⟨(if 2 * (n * 2 ^ (53 + ilog2 d) % (d * 2 ^ b)) < d * 2 ^ b then
              n * 2 ^ (53 + ilog2 d) / (d * 2 ^ b)
            else if d * 2 ^ b < 2 * (n * 2 ^ (53 + ilog2 d) % (d * 2 ^ b)) then
              n * 2 ^ (53 + ilog2 d) / (d * 2 ^ b) + 1
            else n * 2 ^ (53 + ilog2 d) / (d * 2 ^ b) +
              n * 2 ^ (53 + ilog2 d) / (d * 2 ^ b) % 2), 2 ^ (53 + ilog2 d - b)⟩) := by
  obtain ⟨ln1, ln2⟩ := ilog2_spec n hn
  obtain ⟨ld1, ld2⟩ := ilog2_spec d hd
  have hn0 : n ≠ 0 := by omega
  rw [pow_succ] at ln2 ld2
  have hA : (2 : Nat) ^ (53 + ilog2 d) = 2 ^ 53 * 2 ^ ilog2 d := pow_add 2 53 (ilog2 d)
  by_cases c : d * 2 ^ ilog2 n * 2 ^ 53 ≤ n * 2 ^ (53 + ilog2 d)
  · refine ⟨ilog2 n + 1, ?_, ?_, ?_⟩
    · rw [pow_succ]
      calc 2 ^ 52 * (d * (2 ^ ilog2 n * 2)) = d * 2 ^ ilog2 n * 2 ^ 53 := by ring
        _ ≤ _ := c
    · rw [hA, pow_succ]
      have h1 : n * 2 ^ ilog2 d < 2 ^ ilog2 n * 2 * d :=
        calc n * 2 ^ ilog2 d ≤ n * d := Nat.mul_le_mul_left _ ld1
          _ < 2 ^ ilog2 n * 2 * d := Nat.mul_lt_mul_of_pos_right ln2 hd
      calc n * (2 ^ 53 * 2 ^ ilog2 d) = 2 ^ 53 * (n * 2 ^ ilog2 d) := by ring
        _ < 2 ^ 53 * (2 ^ ilog2 n * 2 * d) := Nat.mul_lt_mul_of_pos_left h1 (by norm_num)
        _ = 2 ^ 53 * (d * (2 ^ ilog2 n * 2)) := by ring
    · have e : 2 * (d * 2 ^ ilog2 n) = d * 2 ^ (ilog2 n + 1) := by rw [pow_succ]; ring
      simp only [roundToDouble, hn0, if_false, c, if_true, e]
  · refine ⟨ilog2 n, ?_, ?_, ?_⟩
    · rw [hA]
      have h1 : d * 2 ^ ilog2 n ≤ 2 ^ ilog2 d * 2 * n :=
        Nat.mul_le_mul (Nat.le_of_lt ld2) ln1
      calc 2 ^ 52 * (d * 2 ^ ilog2 n) ≤ 2 ^ 52 * (2 ^ ilog2 d * 2 * n) :=
            Nat.mul_le_mul_left _ h1
        _ = n * (2 ^ 53 * 2 ^ ilog2 d) := by ring
    · have := Nat.lt_of_not_le c
      calc n * 2 ^ (53 + ilog2 d) < d * 2 ^ ilog2 n * 2 ^ 53 := this
        _ = 2 ^ 53 * (d * 2 ^ ilog2 n) := by ring
    · simp only [roundToDouble, hn0, if_false, c]

/-- A fraction `n / d` that is `M * 2^e2 / 2^e1` with `M < 2^53` is a double:
rounding returns it unchanged. -/
theorem roundToDouble_exact (n d M e1 e2 : Nat) (hd : 1 ≤ d) (hM : M < 2 ^ 53)
    (h : n * 2 ^ e1 = M * d * 2 ^ e2) :
    (roundToDouble n d).num * d = n * (roundToDouble n d).den ∧
    0 < (roundToDouble n d).den := by
  by_cases hn : n = 0
  · subst hn; simp [roundToDouble]
  have hn1 : 1 ≤ n := Nat.one_le_iff_ne_zero.mpr hn
  obtain ⟨b, hD1, hD2, hround⟩ := roundToDouble_scale n d hn1 hd
  generalize hA : 53 + ilog2 d = A at hD1 hD2 hround
  have hDpos : 0 < d * 2 ^ b := Nat.mul_pos hd (pow_pos (by norm_num) _)
  -- the scaled quotient is the integer `M * 2^g`
  have hkey : n * 2 ^ A * 2 ^ (e1 + b) = M * (d * 2 ^ b) * 2 ^ (e2 + A) := by
    calc n * 2 ^ A * 2 ^ (e1 + b) = (n * 2 ^ e1) * 2 ^ A * 2 ^ b := by rw [pow_add]; ring
      _ = (M * d * 2 ^ e2) * 2 ^ A * 2 ^ b := by rw [h]
      _ = M * (d * 2 ^ b) * 2 ^ (e2 + A) := by rw [pow_add]; ring
  have hle : e1 + b ≤ e2 + A := by
    by_contra hc
    obtain ⟨g, hg⟩ := Nat.exists_eq_add_of_lt (Nat.lt_of_not_le hc)
    rw [hg, Nat.add_assoc, pow_add (2 : Nat) (e2 + A) (g + 1), ← Nat.mul_assoc] at hkey
    have h2 : n * 2 ^ A * 2 ^ (g + 1) = M * (d * 2 ^ b) := by
      have hp : 0 < 2 ^ (e2 + A) := pow_pos (by norm_num) _
      have : n * 2 ^ A * 2 ^ (g + 1) * 2 ^ (e2 + A) = M * (d * 2 ^ b) * 2 ^ (e2 + A) := by
        rw [← hkey]; ring
      exact Nat.eq_of_mul_eq_mul_right hp this
    have h3 : 2 ≤ 2 ^ (g + 1) := by
      calc 2 = 2 ^ 1 := by norm_num
        _ ≤ 2 ^ (g + 1) := Nat.pow_le_pow_right (by norm_num) (by omega)
    have h4 : n * 2 ^ A * 2 ≤ M * (d * 2 ^ b) := by
      rw [← h2]; exact Nat.mul_le_mul_left _ h3
    have h5 : M * (d * 2 ^ b) < 2 ^ 53 * (d * 2 ^ b) := Nat.mul_lt_mul_of_pos_right hM hDpos
    have h6 : 2 ^ 53 * (d * 2 ^ b) ≤ n * 2 ^ A * 2 := by
      calc 2 ^ 53 * (d * 2 ^ b) = 2 ^ 52 * (d * 2 ^ b) * 2 := by ring
        _ ≤ n * 2 ^ A * 2 := Nat.mul_le_mul_right _ hD1
    omega
  obtain ⟨g, hg⟩ := Nat.exists_eq_add_of_le hle
  have hN : n * 2 ^ A = (d * 2 ^ b) * (M * 2 ^ g) := by
    rw [hg, pow_add (2 : Nat) (e1 + b) g] at hkey
    have hp : 0 < 2 ^ (e1 + b) := pow_pos (by norm_num) _
    have : n * 2 ^ A * 2 ^ (e1 + b) = (d * 2 ^ b) * (M * 2 ^ g) * 2 ^ (e1 + b) := by
      rw [hkey]; ring
    exact Nat.eq_of_mul_eq_mul_right hp this
  have hq : n * 2 ^ A / (d * 2 ^ b) = M * 2 ^ g := by
    rw [hN]; exact Nat.mul_div_cancel_left _ hDpos
  have hr : n * 2 ^ A % (d * 2 ^ b) = 0 := by
    rw [hN]; exact Nat.mul_mod_right _ _
  rw [hround]
  simp only [hq, hr, Nat.mul_zero, hDpos, if_true]
  by_cases hab : A ≤ b
  · simp only [hab, if_true, Nat.mul_one]
    refine ⟨?_, by norm_num⟩
    obtain ⟨z, hz⟩ := Nat.exists_eq_add_of_le hab
    have hp : 0 < 2 ^ A := pow_pos (by norm_num) _
    have e : b - A = z := by omega
    rw [e]
    have : M * 2 ^ g * 2 ^ z * d * 2 ^ A = n * 2 ^ A := by
      rw [hN, hz, pow_add]; ring
    exact Nat.eq_of_mul_eq_mul_right hp this
  · simp only [hab, if_false]
    refine ⟨?_, pow_pos (by norm_num) _⟩
    obtain ⟨z, hz⟩ := Nat.exists_eq_add_of_le (Nat.le_of_lt (Nat.lt_of_not_le hab))
    have hp : 0 < 2 ^ b := pow_pos (by norm_num) _
    have e : A - b = z := by omega
    rw [e]
    have : M * 2 ^ g * d * 2 ^ b = n * 2 ^ z * 2 ^ b := by
      have h1 : n * 2 ^ z * 2 ^ b = n * 2 ^ A := by rw [hz, pow_add]; ring
      rw [h1, hN]; ring
    exact Nat.eq_of_mul_eq_mul_right hp this

/-- Up to `2^53` the number of fragments is `ceil(size / 64)`. -/
theorem chunkCount_exact (size : Nat) (h : size < 2 ^ 53) : chunkCount size = (size + 63) / 64 := by
  unfold chunkCount F64.ofU64 F64.divInt F64.ceil
  obtain ⟨a1, a2⟩ := roundToDouble_exact size 1 size 0 0 (Nat.le_refl _) h (by ring)
  generalize roundToDouble size 1 = x at a1 a2
  have hx : x.num = size * x.den := by simpa using a1
  obtain ⟨b1, b2⟩ := roundToDouble_exact x.num (x.den * 64) size 6 0 (by omega) h
    (by rw [hx]; ring)
  generalize roundToDouble x.num (x.den * 64) = y at b1 b2
  have hy : y.num * 64 = size * y.den := by
    have : y.num * 64 * x.den = size * y.den * x.den := by
      calc y.num * 64 * x.den = y.num * (x.den * 64) := by ring
        _ = x.num * y.den := b1
        _ = size * y.den * x.den := by rw [hx]; ring
    exact Nat.eq_of_mul_eq_mul_right a2 this
  -- ceil of the fraction y.num / y.den = size / 64
  generalize hc : (size + 63) / 64 = c
  have c1 : 64 * c ≤ size + 63 := by omega
  have c2 : size ≤ 64 * c := by omega
  have f1 : 64 * (c * y.den) ≤ 64 * y.num + 63 * y.den := by
    calc 64 * (c * y.den) = (64 * c) * y.den := by ring
      _ ≤ (size + 63) * y.den := Nat.mul_le_mul_right _ c1
      _ = 64 * y.num + 63 * y.den := by rw [Nat.add_mul, ← hy]; ring
  have f2 : 64 * y.num ≤ 64 * (c * y.den) := by
    calc 64 * y.num = size * y.den := by rw [← hy]; ring
      _ ≤ (64 * c) * y.den := Nat.mul_le_mul_right _ c2
      _ = 64 * (c * y.den) := by ring
  apply Nat.div_eq_of_lt_le
  · omega
  · rw [Nat.succ_mul]; omega

/-- The same up to `2^53` inclusive. -/
theorem chunkCount_le (size : Nat) (h : size ≤ 2 ^ 53) : chunkCount size = (size + 63) / 64 := by
  rcases Nat.lt_or_eq_of_le h with h | h
  · exact chunkCount_exact size h
  · subst h; decide


/-! ## Little-endian fields -/

theorem toLE_length (n x : Nat) : (toLE n x).length = n := by
  induction n generalizing x with
  | zero => rfl
  | succ n ih => simp [toLE, ih]

theorem fromLE_toLE (n x : Nat) : fromLE (toLE n x) = x % 256 ^ n := by
  induction n generalizing x with
  | zero => simp [toLE, fromLE, Nat.mod_one]
  | succ n ih =>
    simp only [toLE, fromLE, ih]
    rw [pow_succ, Nat.mul_comm (256 ^ n) 256, Nat.mod_mul, Nat.add_comm]
    

theorem fromLE_toLE_u64 (x : Nat) (h : x < 2 ^ 64) : fromLE (toLE 8 x) = x := by
  rw [fromLE_toLE]
  exact Nat.mod_eq_of_lt (by norm_num at h ⊢; exact h)

theorem fromLE_lt (bs : List Byte) : fromLE bs < 256 ^ bs.length := by
  induction bs with
  | nil => simp [fromLE]
  | cons b bs ih =>
    simp only [fromLE, List.length_cons, pow_succ]
    have := b.isLt
    omega

/-! ## Reads -/

theorem read_data (f : IfStream) (buf : List Byte) (n : Nat) : (f.read buf n).2.data = f.data := by
  unfold IfStream.read; split <;> rfl

theorem read_pos_le (f : IfStream) (buf : List Byte) (n : Nat) : f.pos ≤ (f.read buf n).2.pos := by
  unfold IfStream.read; split <;> simp

theorem read_pos_bound (f : IfStream) (buf : List Byte) (n : Nat) (h : f.pos ≤ f.data.length) :
    (f.read buf n).2.pos ≤ f.data.length := by
  unfold IfStream.read; split
  · simp only [List.length_take, List.length_drop]; omega
  · exact h

theorem read_length (f : IfStream) (buf : List Byte) (n : Nat) (h : buf.length = n) :
    (f.read buf n).1.length = n := by
  unfold IfStream.read; split
  · simp only [List.length_append, List.length_take, List.length_drop]; omega
  · exact h

theorem read_not_good (f : IfStream) (buf : List Byte) (n : Nat) (h : f.good = false) :
    f.read buf n = (buf, f) := by
  simp [IfStream.read, h]

theorem read_full (f : IfStream) (buf bs rest : List Byte) (n : Nat) (hg : f.good = true)
    (hd : f.data.drop f.pos = bs ++ rest) (hb : bs.length = n) (hbuf : buf.length = n) :
    f.read buf n = (bs, { f with pos := f.pos + n }) := by
  simp [IfStream.read, hg, hd, ← hb, hbuf]

theorem drop_add_of_drop_eq {α : Type} (l bs rest : List α) (p : Nat)
    (h : l.drop p = bs ++ rest) : l.drop (p + bs.length) = rest := by
  rw [← List.drop_drop, h, List.drop_left]

theorem readU64_data (f : IfStream) (old : Nat) : (readU64 f old).2.data = f.data :=
  read_data _ _ _

theorem readU64_pos_le (f : IfStream) (old : Nat) : f.pos ≤ (readU64 f old).2.pos :=
  read_pos_le _ _ _

theorem readU64_pos_bound (f : IfStream) (old : Nat) (h : f.pos ≤ f.data.length) :
    (readU64 f old).2.pos ≤ f.data.length :=
  read_pos_bound _ _ _ h

theorem readU64_lt (f : IfStream) (old : Nat) : (readU64 f old).1 < 2 ^ 64 := by
  have h := fromLE_lt (f.read (toLE 8 old) 8).1
  rw [read_length _ _ _ (toLE_length 8 old)] at h
  exact h

theorem readU64_pos_lt (f : IfStream) (old : Nat) (hg : f.good = true)
    (h : f.pos < f.data.length) : f.pos < (readU64 f old).2.pos := by
  simp only [readU64, IfStream.read, hg, if_true, List.length_take, List.length_drop]
  omega

theorem readU64_full (f : IfStream) (old x : Nat) (rest : List Byte) (hg : f.good = true)
    (hd : f.data.drop f.pos = toLE 8 x ++ rest) (hx : x < 2 ^ 64) :
    readU64 f old = (x, { f with pos := f.pos + 8 }) := by
  simp only [readU64, read_full f _ _ rest 8 hg hd (toLE_length 8 x) (toLE_length 8 old),
    fromLE_toLE_u64 x hx]

theorem readDeps_data (f : IfStream) (olds : List Nat) : (readDeps f olds).2.data = f.data := by
  induction olds generalizing f with
  | nil => rfl
  | cons d ds ih => simp only [readDeps, ih, readU64_data]

theorem readDeps_pos_le (f : IfStream) (olds : List Nat) : f.pos ≤ (readDeps f olds).2.pos := by
  induction olds generalizing f with
  | nil => exact Nat.le_refl _
  | cons d ds ih => exact Nat.le_trans (readU64_pos_le f d) (ih _)

theorem readDeps_pos_bound (f : IfStream) (olds : List Nat) (h : f.pos ≤ f.data.length) :
    (readDeps f olds).2.pos ≤ f.data.length := by
  induction olds generalizing f with
  | nil => exact h
  | cons d ds ih =>
    have h1 := readU64_pos_bound f d h
    have h2 := ih (readU64 f d).2 (by rw [readU64_data]; exact h1)
    rw [readU64_data] at h2
    exact h2

theorem readDeps_full (f : IfStream) (olds ds : List Nat) (rest : List Byte)
    (hg : f.good = true) (hl : olds.length = ds.length)
    (hd : f.data.drop f.pos = (ds.map (toLE 8)).flatten ++ rest)
    (hx : ∀ d ∈ ds, d < 2 ^ 64) :
    readDeps f olds = (ds, { f with pos := f.pos + 8 * ds.length }) := by
  induction olds generalizing f ds with
  | nil =>
    cases ds with
    | nil => simp [readDeps]
    | cons _ _ => simp at hl
  | cons o os ih =>
    cases ds with
    | nil => simp at hl
    | cons d ds =>
      simp only [List.map_cons, List.flatten_cons, List.append_assoc] at hd
      have h1 := readU64_full f o d _ hg hd (hx d (List.mem_cons_self _ _))
      have hd2 := drop_add_of_drop_eq _ _ _ _ hd
      rw [toLE_length] at hd2
      have h2 := ih { f with pos := f.pos + 8 } ds hg (by simpa using hl) hd2
        (fun e he => hx e (List.mem_cons_of_mem _ he))
      simp only [readDeps, h1, h2, List.length_cons]
      congr 2
      omega


theorem resize_length (v : List Nat) (n : Nat) : (resize v n).length = n := by
  simp only [resize, List.length_append, List.length_take, List.length_replicate]; omega

theorem encodeRecord_length (r : TraceRecord) :
    (encodeRecord r).length = 48 + 8 * r.dependency_ids.length := by
  have h : ∀ ds : List Nat, ((ds.map (toLE 8)).flatten).length = 8 * ds.length := by
    intro ds
    induction ds with
    | nil => rfl
    | cons d ds ih => simp only [List.map_cons, List.flatten_cons, List.length_append, toLE_length, ih, List.length_cons]; omega
  simp only [encodeRecord, List.length_append, toLE_length, h]

/-! ## parseRecord -/

theorem parseRecord_expect (t : TraceInputStream) (record : MemReq) (dc : Nat) :
    (t.parseRecord record dc).reader.expectRecordId = t.expectRecordId := by
  by_cases hp : t.file.peekEOF.1 = true <;> simp [TraceInputStream.parseRecord, hp]

theorem peekEOF_data (f : IfStream) : f.peekEOF.2.data = f.data := by
  unfold IfStream.peekEOF; split
  · split <;> rfl
  · rfl

theorem peekEOF_pos (f : IfStream) : f.peekEOF.2.pos = f.pos := by
  unfold IfStream.peekEOF; split
  · split <;> rfl
  · rfl

theorem peekEOF_false (f : IfStream) (h : f.peekEOF.1 = false) :
    f.peekEOF.2 = f ∧ f.good = true ∧ f.pos < f.data.length := by
  unfold IfStream.peekEOF at h ⊢
  by_cases hg : f.good = true
  · by_cases hp : f.pos < f.data.length
    · simp [hg, hp]
    · simp [hg, hp] at h
  · simp [hg] at h

theorem peekEOF_true (f : IfStream) (h : f.peekEOF.1 = true) : f.peekEOF.2.good = false := by
  unfold IfStream.peekEOF at h ⊢
  by_cases hg : f.good = true
  · by_cases hp : f.pos < f.data.length
    · simp [hg, hp] at h
    · simp [hg, hp]
  · simp [hg]

theorem parseRecord_data (t : TraceInputStream) (record : MemReq) (dc : Nat) :
    (t.parseRecord record dc).reader.file.data = t.file.data := by
  by_cases hp : t.file.peekEOF.1 = true
  · simp only [TraceInputStream.parseRecord, hp, if_true]
    exact peekEOF_data _
  · simp only [TraceInputStream.parseRecord, hp, Bool.false_eq_true, if_false, readDeps_data,
      readU64_data, peekEOF_data]

theorem parseRecord_pos_le (t : TraceInputStream) (record : MemReq) (dc : Nat) :
    t.file.pos ≤ (t.parseRecord record dc).reader.file.pos := by
  by_cases hp : t.file.peekEOF.1 = true
  · simp only [TraceInputStream.parseRecord, hp, if_true]
    rw [peekEOF_pos]
  · simp only [TraceInputStream.parseRecord, hp, Bool.false_eq_true, if_false]
    refine Nat.le_trans ?_ (readDeps_pos_le _ _)
    refine Nat.le_trans ?_ (readU64_pos_le _ _)
    refine Nat.le_trans ?_ (readU64_pos_le _ _)
    refine Nat.le_trans ?_ (readU64_pos_le _ _)
    refine Nat.le_trans ?_ (readU64_pos_le _ _)
    refine Nat.le_trans ?_ (readU64_pos_le _ _)
    refine Nat.le_trans ?_ (readU64_pos_le _ _)
    rw [peekEOF_pos]

theorem parseRecord_pos_bound (t : TraceInputStream) (record : MemReq) (dc : Nat)
    (h : t.file.pos ≤ t.file.data.length) :
    (t.parseRecord record dc).reader.file.pos ≤ t.file.data.length := by
  by_cases hp : t.file.peekEOF.1 = true
  · simp only [TraceInputStream.parseRecord, hp, if_true]
    rw [peekEOF_pos]; exact h
  · simp only [TraceInputStream.parseRecord, hp, Bool.false_eq_true, if_false]
    have h0 : t.file.peekEOF.2.pos ≤ t.file.peekEOF.2.data.length := by
      rw [peekEOF_pos, peekEOF_data]; exact h
    have step : ∀ (f : IfStream) (o : Nat), f.pos ≤ f.data.length →
        (readU64 f o).2.pos ≤ (readU64 f o).2.data.length := by
      intro f o hf; rw [readU64_data]; exact readU64_pos_bound f o hf
    have h1 := step _ record.id h0
    have h2 := step _ record.addr h1
    have h3 := step _ record.type h2
    have h4 := step _ record.delay h3
    have h5 := step _ record.size h4
    have h6 := step _ dc h5
    have h7 := readDeps_pos_bound _ (resize record.deps (readU64 (readU64 (readU64 (readU64 (readU64 (readU64 t.file.peekEOF.2 record.id).2 record.addr).2 record.type).2 record.delay).2 record.size).2 dc).1) h6
    simp only [readU64_data, peekEOF_data] at h7
    exact h7

/-- A call that returns false reports end of file, leaves the record alone and
leaves a stream that is not good. -/
theorem parseRecord_not_good (t : TraceInputStream) (record : MemReq) (dc : Nat)
    (h : (t.parseRecord record dc).good = false) :
    (t.parseRecord record dc).eof = true ∧ (t.parseRecord record dc).record = record ∧
    (t.parseRecord record dc).reader.file.good = false := by
  unfold TraceInputStream.parseRecord at h ⊢
  by_cases hp : t.file.peekEOF.1 = true
  · simp only [hp, if_true, true_and]
    exact peekEOF_true _ hp
  · simp [hp] at h

/-- A call that returns true has consumed at least one byte, derived the
offsets from the size it stored, and reports no end of file. -/
theorem parseRecord_good (t : TraceInputStream) (record : MemReq) (dc : Nat)
    (h : (t.parseRecord record dc).good = true) :
    (t.parseRecord record dc).eof = false ∧
    t.file.pos < (t.parseRecord record dc).reader.file.pos ∧
    (t.parseRecord record dc).record.ids =
      List.range (chunkCount (t.parseRecord record dc).record.size) ∧
    (t.parseRecord record dc).record.id < 2 ^ 64 ∧
    t.file.good = true ∧ t.file.pos < t.file.data.length := by
  unfold TraceInputStream.parseRecord at h ⊢
  by_cases hp : t.file.peekEOF.1 = true
  · simp [hp] at h
  · have hp' : t.file.peekEOF.1 = false := by simpa using hp
    obtain ⟨h1, h2, h3⟩ := peekEOF_false _ hp'
    simp only [hp', h1, Bool.false_eq_true, if_false, true_and]
    refine ⟨?_, readU64_lt _ _, h2, h3⟩
    refine Nat.lt_of_lt_of_le (readU64_pos_lt t.file record.id h2 h3) ?_
    refine Nat.le_trans ?_ (readDeps_pos_le _ _)
    refine Nat.le_trans ?_ (readU64_pos_le _ _)
    refine Nat.le_trans ?_ (readU64_pos_le _ _)
    refine Nat.le_trans ?_ (readU64_pos_le _ _)
    refine Nat.le_trans ?_ (readU64_pos_le _ _)
    exact readU64_pos_le _ _

/-- On a stream that is not good, `parseRecord` returns false. -/
theorem parseRecord_of_not_good (t : TraceInputStream) (record : MemReq) (dc : Nat)
    (h : t.file.good = false) :
    t.parseRecord record dc = ⟨false, record, true, t⟩ := by
  simp [TraceInputStream.parseRecord, IfStream.peekEOF, h]

/-- On a good stream positioned at the image of a record, `parseRecord` reads
the record back. -/
theorem parseRecord_full (t : TraceInputStream) (record : MemReq) (dc : Nat)
    (r : TraceRecord) (rest : List Byte) (hg : t.file.good = true)
    (hd : t.file.data.drop t.file.pos = encodeRecord r ++ rest) (hr : r.WF) :
    t.parseRecord record dc =
      ⟨true,
       { id := r.id, addr := r.address, type := r.op_type, delay := r.delay, size := r.size,
         deps := r.dependency_ids, ids := List.range (chunkCount r.size),
         min_issue_cycle := record.min_issue_cycle },
       false,
       { t with file := { t.file with pos := t.file.pos + (encodeRecord r).length } }⟩ := by
  obtain ⟨h1, h2, h3, h4, h5, h6, h7⟩ := hr
  have hlen : t.file.pos < t.file.data.length := by
    have := congrArg List.length hd
    simp only [List.length_drop, List.length_append, encodeRecord_length] at this
    omega
  have hpeek : t.file.peekEOF = (false, t.file) := by
    simp [IfStream.peekEOF, hg, hlen]
  simp only [encodeRecord, List.append_assoc] at hd
  have e1 := readU64_full t.file record.id r.id _ hg hd h1
  have d1 := drop_add_of_drop_eq _ _ _ _ hd
  rw [toLE_length] at d1
  have e2 := readU64_full { t.file with pos := t.file.pos + 8 } record.addr r.address _ hg d1 h2
  have d2 := drop_add_of_drop_eq _ _ _ _ d1
  rw [toLE_length] at d2
  have e3 := readU64_full { t.file with pos := t.file.pos + 8 + 8 } record.type r.op_type _ hg d2 h3
  have d3 := drop_add_of_drop_eq _ _ _ _ d2
  rw [toLE_length] at d3
  have e4 := readU64_full { t.file with pos := t.file.pos + 8 + 8 + 8 } record.delay r.delay _ hg d3 h4
  have d4 := drop_add_of_drop_eq _ _ _ _ d3
  rw [toLE_length] at d4
  have e5 := readU64_full { t.file with pos := t.file.pos + 8 + 8 + 8 + 8 } record.size r.size _ hg d4 h5
  have d5 := drop_add_of_drop_eq _ _ _ _ d4
  rw [toLE_length] at d5
  have e6 := readU64_full { t.file with pos := t.file.pos + 8 + 8 + 8 + 8 + 8 } dc
    r.dependency_ids.length _ hg d5 h6
  have d6 := drop_add_of_drop_eq _ _ _ _ d5
  rw [toLE_length] at d6
  have e7 := readDeps_full { t.file with pos := t.file.pos + 8 + 8 + 8 + 8 + 8 + 8 }
    (resize record.deps r.dependency_ids.length) r.dependency_ids rest hg (resize_length _ _) d6 h7
  simp only [TraceInputStream.parseRecord, hpeek, Bool.false_eq_true, if_false, e1, e2, e3, e4,
    e5, e6, e7, encodeRecord_length]
  congr 3
  omega


/-! ## next -/

theorem next_of_not_good (t : TraceInputStream) (record : MemReq) (dc : Nat)
    (h : t.file.good = false) : t.next record dc = .ok ⟨false, record, true, t⟩ := by
  simp [TraceInputStream.next, parseRecord_of_not_good t record dc h]

theorem next_error (t : TraceInputStream) (record : MemReq) (dc : Nat) (e : Fatal)
    (h : t.next record dc = .error e) :
    e = Fatal.idNotContinuous ∧ (t.parseRecord record dc).good = true ∧
      (t.parseRecord record dc).record.id ≠ t.expectRecordId := by
  unfold TraceInputStream.next at h
  by_cases hg : (t.parseRecord record dc).good = true
  · by_cases hi : (t.parseRecord record dc).record.id = t.expectRecordId
    · simp [hg, hi] at h
    · simp [hg, hi] at h
      exact ⟨h.symm, hg, hi⟩
  · simp [hg] at h

theorem next_ok_good (t : TraceInputStream) (record : MemReq) (dc : Nat) (r : ParseResult)
    (h : t.next record dc = .ok r) (hg : r.good = true) :
    r.record.id = t.expectRecordId ∧
    r.reader.expectRecordId = (t.expectRecordId + 1) % 2 ^ 64 ∧
    r.eof = false ∧
    r.reader.file.data = t.file.data ∧
    t.file.pos < r.reader.file.pos ∧
    (t.file.pos ≤ t.file.data.length → r.reader.file.pos ≤ t.file.data.length) ∧
    r.record.ids = List.range (chunkCount r.record.size) ∧
    r.record = (t.parseRecord record dc).record := by
  unfold TraceInputStream.next at h
  by_cases hp : (t.parseRecord record dc).good = true
  · by_cases hi : (t.parseRecord record dc).record.id = t.expectRecordId
    · simp only [hp, hi, if_true, ne_eq, not_true_eq_false, if_false, Except.ok.injEq] at h
      obtain ⟨h1, h2, h3, h4, _, _⟩ := parseRecord_good t record dc hp
      subst h
      refine ⟨hi, ?_, h1, ?_, h2, ?_, h3, rfl⟩
      · simp only [parseRecord_expect]
      · exact parseRecord_data t record dc
      · exact parseRecord_pos_bound t record dc
    · simp [hp, hi] at h
  · simp only [hp, Bool.false_eq_true, if_false, Except.ok.injEq] at h
    subst h
    exact absurd hg hp

theorem next_ok_not_good (t : TraceInputStream) (record : MemReq) (dc : Nat) (r : ParseResult)
    (h : t.next record dc = .ok r) (hg : r.good = false) :
    r.eof = true ∧ r.record = record ∧ r.reader.file.good = false ∧
    r.reader.expectRecordId = t.expectRecordId ∧
    r.reader.file.data = t.file.data ∧
    t.file.pos ≤ r.reader.file.pos ∧
    (t.file.pos ≤ t.file.data.length → r.reader.file.pos ≤ t.file.data.length) := by
  unfold TraceInputStream.next at h
  by_cases hp : (t.parseRecord record dc).good = true
  · by_cases hi : (t.parseRecord record dc).record.id = t.expectRecordId
    · simp only [hp, hi, if_true, ne_eq, not_true_eq_false, if_false, Except.ok.injEq] at h
      subst h
      simp [hp] at hg
    · simp [hp, hi] at h
  · simp only [hp, Bool.false_eq_true, if_false, Except.ok.injEq] at h
    subst h
    obtain ⟨h1, h2, h3⟩ := parseRecord_not_good t record dc hg
    exact ⟨h1, h2, h3, parseRecord_expect t record dc, parseRecord_data t record dc,
      parseRecord_pos_le t record dc, parseRecord_pos_bound t record dc⟩

/-- On a good stream positioned at the image of a record that carries the
expected id, `next` returns the record and moves behind it. -/
theorem next_full (t : TraceInputStream) (record : MemReq) (dc : Nat)
    (r : TraceRecord) (rest : List Byte) (hg : t.file.good = true)
    (hd : t.file.data.drop t.file.pos = encodeRecord r ++ rest) (hr : r.WF)
    (hid : r.id = t.expectRecordId) :
    t.next record dc = .ok
      ⟨true,
       { id := r.id, addr := r.address, type := r.op_type, delay := r.delay, size := r.size,
         deps := r.dependency_ids, ids := List.range (chunkCount r.size),
         min_issue_cycle := record.min_issue_cycle },
       false,
       { file := { t.file with pos := t.file.pos + (encodeRecord r).length },
         expectRecordId := (t.expectRecordId + 1) % 2 ^ 64 }⟩ := by
  simp [TraceInputStream.next, parseRecord_full t record dc r rest hg hd hr, hid]

theorem next_full_bad_id (t : TraceInputStream) (record : MemReq) (dc : Nat)
    (r : TraceRecord) (rest : List Byte) (hg : t.file.good = true)
    (hd : t.file.data.drop t.file.pos = encodeRecord r ++ rest) (hr : r.WF)
    (hid : r.id ≠ t.expectRecordId) :
    t.next record dc = .error Fatal.idNotContinuous := by
  simp [TraceInputStream.next, parseRecord_full t record dc r rest hg hd hr, hid]

/-- At the end of a good stream `next` returns false with `eof` set. -/
theorem next_at_end (t : TraceInputStream) (record : MemReq) (dc : Nat)
    (hd : t.file.data.drop t.file.pos = []) :
    ∃ r, t.next record dc = .ok r ∧ r.good = false ∧ r.eof = true := by
  have hlen : ¬ t.file.pos < t.file.data.length := by
    have := congrArg List.length hd
    simp only [List.length_drop, List.length_nil] at this
    omega
  by_cases hg : t.file.good = true
  · refine ⟨⟨false, record, true, { t with file := { t.file with good := false } }⟩, ?_, rfl, rfl⟩
    simp [TraceInputStream.next, TraceInputStream.parseRecord, IfStream.peekEOF, hg, hlen]
  · exact ⟨_, next_of_not_good t record dc (by simpa using hg), rfl, rfl⟩

/-! ## Opening a trace -/

theorem new_of_magic (rest : List Byte) (magic0 : Nat) :
    TraceInputStream.new (BINFILE ++ rest) magic0 = .ok ⟨⟨BINFILE ++ rest, 8, true⟩, 0⟩ := by
  have h := read_full ⟨BINFILE ++ rest, 0, true⟩ (toLE 8 magic0) BINFILE rest 8 rfl rfl rfl
    (toLE_length 8 magic0)
  simp [TraceInputStream.new, TraceInputStream.reset, TraceInputStream.checkMagic, h]

/-- What a reader that was opened looks like: the position is behind what the
magic read consumed and the expected id is 0. -/
theorem new_ok (bytes : List Byte) (magic0 : Nat) (t : TraceInputStream)
    (h : TraceInputStream.new bytes magic0 = .ok t) :
    t.expectRecordId = 0 ∧ t.file.data = bytes ∧ t.file.pos ≤ bytes.length ∧
    (8 ≤ bytes.length → bytes.take 8 = BINFILE ∧ t.file.pos = 8 ∧ t.file.good = true) := by
  simp only [TraceInputStream.new, TraceInputStream.reset, TraceInputStream.checkMagic] at h
  split at h
  · rename_i hm
    simp only [Except.ok.injEq] at h
    subst h
    refine ⟨rfl, ?_, ?_, ?_⟩
    · exact read_data _ _ _
    · exact read_pos_bound ⟨bytes, 0, true⟩ (toLE 8 magic0) 8 (Nat.zero_le _)
    · intro h8
      simp only [IfStream.read, if_true, List.drop_zero, decide_eq_true_eq, Nat.zero_add,
        List.length_take] at hm ⊢
      have hl : min 8 bytes.length = 8 := Nat.min_eq_left h8
      have hd : List.drop 8 (toLE 8 magic0) = [] :=
        List.drop_of_length_le (by rw [toLE_length])
      rw [hl, hd, List.append_nil] at hm
      exact ⟨hm, hl, hl⟩
  · simp at h


/-! ## Sequences of calls of next -/

theorem nextMany_inv (record : MemReq) (dc : Nat) (n : Nat) (t : TraceInputStream)
    (h1 : t.expectRecordId ≤ t.file.pos) (h2 : t.file.pos ≤ t.file.data.length)
    (h3 : t.file.data.length < 2 ^ 64) :
    (∀ k r, (nextMany record dc n t).1[k]? = some r → r.id = t.expectRecordId + k) ∧
    (∀ t1, (nextMany record dc n t).2 = some t1 →
      t1.expectRecordId = t.expectRecordId + (nextMany record dc n t).1.length) := by
  induction n generalizing t with
  | zero =>
    refine ⟨fun k r h => ?_, fun t1 h => ?_⟩
    · simp [nextMany] at h
    · simp only [nextMany, Option.some.injEq] at h
      subst h; rfl
  | succ n ih =>
    cases hn : t.next record dc with
    | error e => simp [nextMany, hn]
    | ok res =>
      by_cases hg : res.good = true
      · obtain ⟨e1, e2, _, e4, e5, e6, _, _⟩ := next_ok_good t record dc res hn hg
        have hb := e6 h2
        have hmod : (t.expectRecordId + 1) % 2 ^ 64 = t.expectRecordId + 1 :=
          Nat.mod_eq_of_lt (by omega)
        rw [hmod] at e2
        obtain ⟨i1, i2⟩ := ih res.reader (by omega) (by rw [e4]; exact hb) (by rw [e4]; exact h3)
        simp only [nextMany, hn, hg, if_true]
        refine ⟨fun k r h => ?_, fun t1 h => ?_⟩
        · cases k with
          | zero =>
            simp only [List.getElem?_cons_zero, Option.some.injEq] at h
            subst h; simpa using e1
          | succ k =>
            simp only [List.getElem?_cons_succ] at h
            rw [i1 k r h, e2]; omega
        · rw [i2 t1 h, e2, List.length_cons]; omega
      · have hg' : res.good = false := by simpa using hg
        obtain ⟨_, _, _, e4, e5, e6, e7⟩ := next_ok_not_good t record dc res hn hg'
        obtain ⟨i1, i2⟩ := ih res.reader (by omega) (by rw [e5]; exact e7 h2) (by rw [e5]; exact h3)
        simp only [nextMany, hn, hg', Bool.false_eq_true, if_false]
        rw [e4] at i1 i2
        exact ⟨i1, i2⟩

/-- Reading back the images of records whose ids continue the expected id. -/
theorem nextMany_full (record : MemReq) (dc : Nat) (rs : List TraceRecord) (rest : List Byte)
    (t : TraceInputStream) (e : Nat) (hg : t.file.good = true)
    (hd : t.file.data.drop t.file.pos = (rs.map encodeRecord).flatten ++ rest)
    (he : t.expectRecordId = e % 2 ^ 64)
    (hid : rs.map TraceRecord.id = List.range' e rs.length) (hwf : ∀ r ∈ rs, r.WF) :
    ∃ out tn, nextMany record dc rs.length t = (out, some tn) ∧
      out.map MemReq.toTraceRecord = rs ∧
      tn.file.good = true ∧ tn.file.data = t.file.data ∧
      tn.file.data.drop tn.file.pos = rest ∧
      tn.expectRecordId = (e + rs.length) % 2 ^ 64 := by
  induction rs generalizing t e with
  | nil =>
    refine ⟨[], t, rfl, rfl, hg, rfl, ?_, ?_⟩
    · simpa using hd
    · simpa using he
  | cons r rs ih =>
    simp only [List.map_cons, List.flatten_cons, List.append_assoc] at hd
    simp only [List.map_cons, List.length_cons, List.range'_succ, List.cons.injEq] at hid
    have hr := hwf r (List.mem_cons_self _ _)
    have hre : r.id = t.expectRecordId := by
      rw [he, hid.1]; exact (Nat.mod_eq_of_lt (by rw [← hid.1]; exact hr.1)).symm
    have hn := next_full t record dc r _ hg hd hr hre
    have hd2 := drop_add_of_drop_eq _ _ _ _ hd
    obtain ⟨out, tn, i1, i2, i3, i4, i5, i6⟩ := ih
      { file := { t.file with pos := t.file.pos + (encodeRecord r).length },
        expectRecordId := (t.expectRecordId + 1) % 2 ^ 64 } (e + 1) hg hd2
      (by simp only [he]; omega) hid.2 (fun x hx => hwf x (List.mem_cons_of_mem _ hx))
    refine ⟨MemReq.mk r.id r.address r.op_type r.delay r.size r.dependency_ids
      (List.range (chunkCount r.size)) record.min_issue_cycle :: out, tn, ?_, ?_, i3, i4, i5, ?_⟩
    · simp only [nextMany, hn, i1, if_true, List.length_cons]
    · simp only [List.map_cons, i2, MemReq.toTraceRecord]
    · rw [i6, List.length_cons]; congr 1; omega


theorem nextMany_add (record : MemReq) (dc : Nat) (m n : Nat) (t : TraceInputStream) :
    nextMany record dc (m + n) t =
      match (nextMany record dc m t).2 with
      | none => ((nextMany record dc m t).1, none)
      | some tm => ((nextMany record dc m t).1 ++ (nextMany record dc n tm).1,
          (nextMany record dc n tm).2) := by
  induction m generalizing t with
  | zero => simp [nextMany]
  | succ m ih =>
    rw [Nat.add_right_comm]
    cases hn : t.next record dc with
    | error e => simp [nextMany, hn]
    | ok res =>
      simp only [nextMany, hn, ih res.reader]
      cases h : (nextMany record dc m res.reader).2 <;>
        by_cases hg : res.good = true <;> simp [hg, h]

/-! ## Claims about the binary trace reader -/

/-- C1, id continuity of `next`. For a trace file of fewer than `2^64` bytes
that was opened: in any number of successive calls the `k`-th call that
returns a record returns one whose id is `k`, and the expected id always is
the number of records returned so far. For any reader, a call that returns a
record returns the expected id and increments it (in 64-bit arithmetic), and
a call whose parsed record carries another id terminates the program. A trace
with the ids 0, 1, 3 yields records 0 and 1 and is rejected at the third
call. -/
theorem next_id_continuity (bytes : List Byte) (magic0 : Nat) (record : MemReq)
    (depCount0 : Nat) (t0 : TraceInputStream) (hlen : bytes.length < 2 ^ 64)
    (hopen : TraceInputStream.new bytes magic0 = .ok t0) :
    (∀ (n k : Nat) (r : MemReq), (nextMany record depCount0 n t0).1[k]? = some r → r.id = k) ∧
    (∀ n t, (nextMany record depCount0 n t0).2 = some t →
      t.expectRecordId = (nextMany record depCount0 n t0).1.length) ∧
    (∀ (t : TraceInputStream) (res : ParseResult),
      t.next record depCount0 = .ok res → res.good = true →
      res.record.id = t.expectRecordId ∧
      res.reader.expectRecordId = (t.expectRecordId + 1) % 2 ^ 64) ∧
    (∀ t : TraceInputStream, (t.parseRecord record depCount0).good = true →
      (t.parseRecord record depCount0).record.id ≠ t.expectRecordId →
      t.next record depCount0 = .error Fatal.idNotContinuous) ∧
    (∀ a b c : TraceRecord, a.WF → b.WF → c.WF → a.id = 0 → b.id = 1 → c.id = 3 →
      ∀ n, ∃ t1 ra rb, TraceInputStream.new (encodeTrace [a, b, c]) magic0 = .ok t1 ∧
        nextMany record depCount0 (n + 3) t1 = ([ra, rb], none) ∧
        ra.toTraceRecord = a ∧ rb.toTraceRecord = b) := by
  obtain ⟨o1, o2, o3, _⟩ := new_ok bytes magic0 t0 hopen
  refine ⟨?_, ?_, ?_, ?_, ?_⟩
  · intro n k r h
    have := (nextMany_inv record depCount0 n t0 (by omega) (by rw [o2]; exact o3)
      (by rw [o2]; exact hlen)).1 k r h
    omega
  · intro n t h
    have := (nextMany_inv record depCount0 n t0 (by omega) (by rw [o2]; exact o3)
      (by rw [o2]; exact hlen)).2 t h
    omega
  · intro t res h hg
    obtain ⟨e1, e2, _⟩ := next_ok_good t record depCount0 res h hg
    exact ⟨e1, e2⟩
  · intro t hg hne
    simp [TraceInputStream.next, hg, hne]
  · intro a b c ha hb hc ia ib ic n
    have hopen2 := new_of_magic ((List.map encodeRecord [a, b, c]).flatten) magic0
    obtain ⟨out, tn, i1, i2, i3, i4, i5, i6⟩ := nextMany_full record depCount0 [a, b]
      (encodeRecord c ++ []) ⟨⟨BINFILE ++ (List.map encodeRecord [a, b, c]).flatten, 8, true⟩, 0⟩ 0 rfl
      (by simp [BINFILE]) rfl (by simp [ia, ib, List.range'])
      (by intro r hr; simp at hr; rcases hr with rfl | rfl <;> assumption)
    have hbad := next_full_bad_id tn record depCount0 c [] i3 i5 hc
      (by rw [i6, ic]; simp)
    match out, i2 with
    | [ra, rb], i2 =>
      simp only [List.map_cons, List.map_nil, List.cons.injEq, and_true] at i2
      refine ⟨_, ra, rb, hopen2, ?_, i2.1, i2.2⟩
      have hsplit := nextMany_add record depCount0 2 (n + 1)
        ⟨⟨BINFILE ++ (List.map encodeRecord [a, b, c]).flatten, 8, true⟩, 0⟩
      have e : 2 + (n + 1) = n + 3 := by omega
      rw [e] at hsplit
      have i1b : nextMany record depCount0 2
          ⟨⟨BINFILE ++ (List.map encodeRecord [a, b, c]).flatten, 8, true⟩, 0⟩ =
          ([ra, rb], some tn) := i1
      show nextMany record depCount0 (n + 3)
          ⟨⟨BINFILE ++ (List.map encodeRecord [a, b, c]).flatten, 8, true⟩, 0⟩ = _
      rw [hsplit, i1b]
      simp only [nextMany, hbad, List.append_nil]


/-- The hypotheses of C1 hold on the sample trace; its second record has id 1. -/
theorem next_id_continuity_witness :
    (encodeTrace sampleTrace).length < 2 ^ 64 ∧
    TraceInputStream.new (encodeTrace sampleTrace) 0 =
      .ok ⟨⟨encodeTrace sampleTrace, 8, true⟩, 0⟩ ∧
    ∃ r : MemReq, (nextMany zeroReq 0 3 ⟨⟨encodeTrace sampleTrace, 8, true⟩, 0⟩).1[1]? = some r ∧
      r.id = 1 :=
  ⟨by decide, by decide, ⟨1, 8192, 1, 0, 130, [0], [0, 1, 2], 0⟩, by decide,
    (next_id_continuity (encodeTrace sampleTrace) 0 zeroReq 0
      ⟨⟨encodeTrace sampleTrace, 8, true⟩, 0⟩ (by decide) (by decide)).1 3 1 _ (by decide)⟩

/-- C2, magic validation. The 7-byte file `BINFILE`, read into a `magic`
array whose last byte happens to be zero, is accepted although the file does
not hold the 8-byte magic: the short read is not detected and `strcmp` sees
the stale zero. For files of at least 8 bytes the reader is opened exactly
when the first 8 bytes are `BINFILE` and a zero byte. -/
theorem checkMagic_short_file :
    TraceInputStream.new [66, 73, 78, 70, 73, 76, 69] 0 =
      .ok ⟨⟨[66, 73, 78, 70, 73, 76, 69], 7, false⟩, 0⟩ ∧
    ∀ (bytes : List Byte) (magic0 : Nat), 8 ≤ bytes.length →
      ((∃ t, TraceInputStream.new bytes magic0 = .ok t) ↔ bytes.take 8 = BINFILE) := by
  refine ⟨by decide, fun bytes magic0 h8 => ⟨?_, ?_⟩⟩
  · rintro ⟨t, ht⟩
    exact ((new_ok bytes magic0 t ht).2.2.2 h8).1
  · intro hm
    have hb : bytes = BINFILE ++ bytes.drop 8 := by
      rw [← hm, List.take_append_drop]
    rw [hb]
    exact ⟨_, new_of_magic _ _⟩

/-! ## The refill loop -/

/-- Induction principle for the refill loop: a property of the reader, the
pending vector and `all_trace_read` that survives the two ways an iteration
can go on or leave the loop holds for the result. -/
theorem refillLoop_induction (u : Uninit) (clk cpu mr : Nat)
    (Q : TraceInputStream → List MemReq → Bool → Prop)
    (hpush : ∀ t pend atr (r : ParseResult), Q t pend atr → pend.length < maxPendEntry →
      t.next u.record u.depCount = .ok r → r.good = true →
      Q r.reader
        (pend ++ [if depSolved pend r.record then
            { r.record with min_issue_cycle := issueCycle clk r.record.delay cpu mr }
          else { r.record with min_issue_cycle := -1 }]) atr)
    (heof : ∀ t pend atr (r : ParseResult), Q t pend atr → pend.length < maxPendEntry →
      t.next u.record u.depCount = .ok r → r.good = false → Q r.reader pend true)
    (fuel : Nat) (t : TraceInputStream) (pend : List MemReq) (atr : Bool)
    (t1 : TraceInputStream) (pend1 : List MemReq) (atr1 : Bool)
    (h : refillLoop u clk cpu mr fuel t pend atr = .ok (t1, pend1, atr1)) (hq : Q t pend atr) :
    Q t1 pend1 atr1 := by
  induction fuel generalizing t pend atr with
  | zero =>
    simp only [refillLoop, Except.ok.injEq, Prod.mk.injEq] at h
    obtain ⟨rfl, rfl, rfl⟩ := h
    exact hq
  | succ fuel ih =>
    unfold refillLoop at h
    by_cases hl : pend.length < maxPendEntry
    · simp only [hl, if_true] at h
      cases hn : t.next u.record u.depCount with
      | error e => simp [hn] at h
      | ok r =>
        simp only [hn] at h
        by_cases hg : r.good = true
        · simp only [hg, if_true] at h
          exact ih _ _ _ h (hpush t pend atr r hq hl hn hg)
        · have hg' : r.good = false := by simpa using hg
          have he := (next_ok_not_good t _ _ r hn hg').1
          simp only [hg', he, Bool.false_eq_true, if_false, Bool.not_true, Except.ok.injEq,
            Prod.mk.injEq] at h
          obtain ⟨rfl, rfl, rfl⟩ := h
          exact heof t pend atr r hq hl hn hg'
    · simp only [hl, if_false, Except.ok.injEq, Prod.mk.injEq] at h
      obtain ⟨rfl, rfl, rfl⟩ := h
      exact hq

/-- The refill loop never leaves through the exit "has not ended properly":
`next` returns false only together with `eof`. -/
theorem refillLoop_error (u : Uninit) (clk cpu mr : Nat) (fuel : Nat) (t : TraceInputStream)
    (pend : List MemReq) (atr : Bool) (e : Fatal)
    (h : refillLoop u clk cpu mr fuel t pend atr = .error e) : e = Fatal.idNotContinuous := by
  induction fuel generalizing t pend atr with
  | zero => simp [refillLoop] at h
  | succ fuel ih =>
    unfold refillLoop at h
    by_cases hl : pend.length < maxPendEntry
    · simp only [hl, if_true] at h
      cases hn : t.next u.record u.depCount with
      | error e1 =>
        simp only [hn, Except.error.injEq] at h
        rw [← h]; exact (next_error t _ _ e1 hn).1
      | ok r =>
        simp only [hn] at h
        by_cases hg : r.good = true
        · simp only [hg, if_true] at h
          exact ih _ _ _ h
        · have hg' : r.good = false := by simpa using hg
          have he := (next_ok_not_good t _ _ r hn hg').1
          simp [hg', he] at h
    · simp [hl] at h

theorem ClockTick_error (mem : Admission) (u : Uninit) (s : RamSimCPU) (e : Fatal)
    (h : s.ClockTick mem u = .error e) : e = Fatal.idNotContinuous := by
  unfold RamSimCPU.ClockTick at h
  cases hr : refillLoop u s.clk_ s.cpu_clock_ratio_ s.mem_clock_ratio_ maxPendEntry
      s.trace_file_ s.pendReq s.all_trace_read with
  | error e1 =>
    simp only [hr, Except.error.injEq] at h
    rw [← h]; exact refillLoop_error _ _ _ _ _ _ _ _ _ hr
  | ok v => simp [hr] at h

/-- C5, truncated records. On the trace that ends after the
`dependency_count` field of its only record, `next` returns that record (with
a zero in place of the missing dependency id) and leaves a stream that is not
good; the driver enqueues the request in its first tick, takes the end of the
stream for a clean one and sets `all_trace_read`. No tick of the driver, on
any trace, ever leaves through the exit "has not ended properly". -/
theorem truncated_record_accepted :
    TraceInputStream.next ⟨⟨truncatedTrace, 8, true⟩, 0⟩ zeroReq 0 =
      .ok ⟨true, ⟨0, 4096, 0, 0, 64, [0], [0], 0⟩, false, ⟨⟨truncatedTrace, 56, false⟩, 1⟩⟩ ∧
    (∃ s0 s1, RamSimCPU.new truncatedTrace 0 1 1 = .ok s0 ∧
      s0.ClockTick refuseAll ⟨zeroReq, 0⟩ = .ok s1 ∧
      s1.pendReq = [⟨0, 4096, 0, 0, 64, [0], [0], 0⟩] ∧ s1.all_trace_read = true) ∧
    ∀ (mem : Admission) (u : Uninit) (s : RamSimCPU),
      s.ClockTick mem u ≠ .error Fatal.notEndedProperly := by
  refine ⟨by decide, ⟨⟨[], 0, ⟨⟨truncatedTrace, 8, true⟩, 0⟩, 1, 1, [], false, false, []⟩, _,
    by decide, rfl, by decide, by decide⟩, ?_⟩
  intro mem u s h
  have := ClockTick_error mem u s _ h
  exact absurd this (by decide)

/-! ## Dependencies and the rescan -/

theorem depSolved_iff (pend : List MemReq) (r : MemReq) :
    depSolved pend r = true ↔ ∀ d ∈ r.deps, ∀ q ∈ pend, q.id ≠ d := by
  simp [depSolved]

theorem depSolved_of_ids (pend pend1 : List MemReq) (r : MemReq)
    (h : ∀ q ∈ pend1, ∃ p ∈ pend, p.id = q.id) (hs : depSolved pend r = true) :
    depSolved pend1 r = true := by
  rw [depSolved_iff] at hs ⊢
  intro d hd q hq
  obtain ⟨p, hp, he⟩ := h q hq
  rw [← he]; exact hs d hd p hp

theorem toInt64_ne_neg_one (x : F64) : x.toInt64 ≠ -1 := by
  unfold F64.toInt64
  split
  · omega
  · decide

theorem issueCycle_ne_neg_one (clk delay cpu mr : Nat) : issueCycle clk delay cpu mr ≠ -1 := by
  unfold issueCycle
  split
  · decide
  · exact toInt64_ne_neg_one _

@[simp] theorem resolve_id (clk cpu mr : Nat) (pend : List MemReq) (r : MemReq) :
    (resolve clk cpu mr pend r).id = r.id := by
  unfold resolve; split <;> [split; skip] <;> rfl

@[simp] theorem resolve_ids (clk cpu mr : Nat) (pend : List MemReq) (r : MemReq) :
    (resolve clk cpu mr pend r).ids = r.ids := by
  unfold resolve; split <;> [split; skip] <;> rfl

@[simp] theorem resolve_addr (clk cpu mr : Nat) (pend : List MemReq) (r : MemReq) :
    (resolve clk cpu mr pend r).addr = r.addr := by
  unfold resolve; split <;> [split; skip] <;> rfl

@[simp] theorem resolve_type (clk cpu mr : Nat) (pend : List MemReq) (r : MemReq) :
    (resolve clk cpu mr pend r).type = r.type := by
  unfold resolve; split <;> [split; skip] <;> rfl

@[simp] theorem resolve_size (clk cpu mr : Nat) (pend : List MemReq) (r : MemReq) :
    (resolve clk cpu mr pend r).size = r.size := by
  unfold resolve; split <;> [split; skip] <;> rfl

@[simp] theorem resolve_deps (clk cpu mr : Nat) (pend : List MemReq) (r : MemReq) :
    (resolve clk cpu mr pend r).deps = r.deps := by
  unfold resolve; split <;> [split; skip] <;> rfl

@[simp] theorem resolve_delay (clk cpu mr : Nat) (pend : List MemReq) (r : MemReq) :
    (resolve clk cpu mr pend r).delay = r.delay := by
  unfold resolve; split <;> [split; skip] <;> rfl

/-- A request that is already resolved is not touched by the rescan. -/
theorem resolve_of_resolved (clk cpu mr : Nat) (pend : List MemReq) (r : MemReq)
    (h : r.min_issue_cycle ≠ -1) : resolve clk cpu mr pend r = r := by
  simp [resolve, h]

/-- After the rescan a request is unresolved or was found solved or had been
resolved before. -/
theorem resolve_min (clk cpu mr : Nat) (pend : List MemReq) (r : MemReq) :
    (resolve clk cpu mr pend r = r ∧ (r.min_issue_cycle = -1 → depSolved pend r = false)) ∨
    (r.min_issue_cycle = -1 ∧ depSolved pend r = true ∧
      (resolve clk cpu mr pend r).min_issue_cycle = issueCycle clk r.delay cpu mr) := by
  unfold resolve
  by_cases h1 : r.min_issue_cycle = -1
  · by_cases h2 : depSolved pend r = true
    · right; simp [h1, h2]
    · left; simp [h1, h2]
  · left; simp [h1]

theorem map_resolve_ids (clk cpu mr : Nat) (pend l : List MemReq) :
    (l.map (resolve clk cpu mr pend)).map MemReq.id = l.map MemReq.id := by
  simp [List.map_map, Function.comp_def]

/-! ## The offer loop -/

/-- The offer loop accepts a first part of the offsets: it erases these,
makes the calls of `fragmentCalls` and records the submissions. -/
theorem offerLoop_spec (mem : Admission) (r : MemReq) (ids : List Nat) (log : List Event)
    (sub : List (Nat × Nat × Bool)) :
    ∃ k, k ≤ ids.length ∧
      offerLoop mem r ids log sub =
        (ids.drop k,
         log ++ fragmentCalls { r with ids := ids } k,
         sub ++ (ids.take k).map fun o => (r.id, fragAddr r o, isWrite r)) := by
  induction ids generalizing log sub with
  | nil => exact ⟨0, Nat.le_refl _, by simp [offerLoop, fragmentCalls]⟩
  | cons o rest ih =>
    by_cases ha : mem log (fragAddr r o) (isWrite r) = true
    · obtain ⟨k, hk, he⟩ := ih
        (log ++ [Event.WillAcceptTransaction (fragAddr r o) (isWrite r) true] ++
          [Event.AddTransaction (fragAddr r o) (isWrite r)])
        (sub ++ [(r.id, fragAddr r o, isWrite r)])
      refine ⟨k + 1, by simpa using hk, ?_⟩
      simp only [offerLoop, ha, if_true, he]
      simp [fragmentCalls, fragAddr, isWrite]
    · refine ⟨0, Nat.zero_le _, ?_⟩
      have ha' : mem log (fragAddr r o) (isWrite r) = false := by simpa using ha
      simp only [offerLoop, ha', Bool.false_eq_true, if_false]
      simp [fragmentCalls]
      exact ⟨rfl, rfl⟩

/-! ## The scan loop -/

/-- Induction principle for the scan loop: a property of the two parts of
the vector, the call history and the ghost list that survives an erase with
its rescan, an offer (whatever number `k` of offsets is accepted) and a skip
holds at the end, with nothing left to visit. -/
theorem scanLoop_induction (mem : Admission) (clk cpu mr : Nat)
    (R : List MemReq → List MemReq → List Event → List (Nat × Nat × Bool) → Prop)
    (herase : ∀ done x rest log sub, R done (x :: rest) log sub → x.ids = [] →
      R (done.map (resolve clk cpu mr (done ++ rest)))
        (rest.map (resolve clk cpu mr (done ++ rest))) log sub)
    (hoffer : ∀ done x rest log sub k, R done (x :: rest) log sub → x.ids ≠ [] →
      0 ≤ x.min_issue_cycle → x.min_issue_cycle ≤ (clk : Int) → k ≤ x.ids.length →
      R (done ++ [x.dropIds k]) rest (log ++ fragmentCalls x k)
        (sub ++ (x.ids.take k).map fun o => (x.id, fragAddr x o, isWrite x)))
    (hskip : ∀ done x rest log sub, R done (x :: rest) log sub → x.ids ≠ [] →
      ¬ (0 ≤ x.min_issue_cycle ∧ x.min_issue_cycle ≤ (clk : Int)) →
      R (done ++ [x]) rest log sub)
    (fuel : Nat) (done todo : List MemReq) (log : List Event) (sub : List (Nat × Nat × Bool))
    (hf : todo.length ≤ fuel) (h : R done todo log sub) :
    R (scanLoop mem clk cpu mr fuel done todo log sub).1 []
      (scanLoop mem clk cpu mr fuel done todo log sub).2.1
      (scanLoop mem clk cpu mr fuel done todo log sub).2.2 := by
  induction fuel generalizing done todo log sub with
  | zero =>
    have : todo = [] := List.length_eq_zero.mp (Nat.le_zero.mp hf)
    subst this
    simpa [scanLoop] using h
  | succ fuel ih =>
    cases todo with
    | nil => simpa [scanLoop] using h
    | cons x rest =>
      have hf' : rest.length ≤ fuel := by simpa using hf
      unfold scanLoop
      by_cases he : x.ids.isEmpty = true
      · have he' : x.ids = [] := List.isEmpty_iff.mp he
        simp only [he, if_true]
        exact ih _ _ _ _ (by simpa using hf') (herase done x rest log sub h he')
      · have he' : x.ids ≠ [] := fun hx => he (List.isEmpty_iff.mpr hx)
        simp only [he, Bool.false_eq_true, if_false]
        by_cases h0 : 0 ≤ x.min_issue_cycle
        · by_cases h1 : x.min_issue_cycle ≤ (clk : Int)
          · simp only [h0, h1, if_true]
            obtain ⟨k, hk, hspec⟩ := offerLoop_spec mem x x.ids log sub
            rw [hspec]
            exact ih _ _ _ _ hf' (hoffer done x rest log sub k h he' h0 h1 hk)
          · simp only [h0, h1, if_true, if_false]
            exact ih _ _ _ _ hf' (hskip done x rest log sub h he' (fun hh => h1 hh.2))
        · simp only [h0, if_false]
          exact ih _ _ _ _ hf' (hskip done x rest log sub h he' (fun hh => h0 hh.1))

/-- The same for a property of the whole vector. -/
theorem scanLoop_pend_induction (mem : Admission) (clk cpu mr : Nat)
    (P : List MemReq → List Event → List (Nat × Nat × Bool) → Prop)
    (herase : ∀ done x rest log sub, P (done ++ x :: rest) log sub → x.ids = [] →
      P ((done ++ rest).map (resolve clk cpu mr (done ++ rest))) log sub)
    (hoffer : ∀ done x rest log sub k, P (done ++ x :: rest) log sub → x.ids ≠ [] →
      0 ≤ x.min_issue_cycle → x.min_issue_cycle ≤ (clk : Int) → k ≤ x.ids.length →
      P (done ++ x.dropIds k :: rest) (log ++ fragmentCalls x k)
        (sub ++ (x.ids.take k).map fun o => (x.id, fragAddr x o, isWrite x)))
    (pend : List MemReq) (log : List Event) (sub : List (Nat × Nat × Bool))
    (h : P pend log sub) :
    P (scanLoop mem clk cpu mr pend.length [] pend log sub).1
      (scanLoop mem clk cpu mr pend.length [] pend log sub).2.1
      (scanLoop mem clk cpu mr pend.length [] pend log sub).2.2 := by
  have := scanLoop_induction mem clk cpu mr (fun done todo log sub => P (done ++ todo) log sub)
    (fun done x rest log sub hR hx => by
      simpa [List.map_append] using herase done x rest log sub hR hx)
    (fun done x rest log sub k hR hx h0 h1 hk => by
      simpa using hoffer done x rest log sub k hR hx h0 h1 hk)
    (fun done x rest log sub hR _ _ => by simpa using hR)
    pend.length [] pend log sub (Nat.le_refl _) (by simpa using h)
  simpa using this

/-! ## Ticks -/

/-- A tick that returns is a refill followed by a scan. -/
theorem ClockTick_ok (mem : Admission) (u : Uninit) (s s1 : RamSimCPU)
    (h : s.ClockTick mem u = .ok s1) :
    ∃ t pend atr,
      refillLoop u s.clk_ s.cpu_clock_ratio_ s.mem_clock_ratio_ maxPendEntry
        s.trace_file_ s.pendReq s.all_trace_read = .ok (t, pend, atr) ∧
      s1 = { s with
        memory_system_ := (scanLoop mem s.clk_ s.cpu_clock_ratio_ s.mem_clock_ratio_ pend.length []
          pend (s.memory_system_ ++ [Event.ClockTick]) s.submitted).2.1,
        clk_ := (s.clk_ + 1) % 2 ^ 64, trace_file_ := t,
        pendReq := (scanLoop mem s.clk_ s.cpu_clock_ratio_ s.mem_clock_ratio_ pend.length []
          pend (s.memory_system_ ++ [Event.ClockTick]) s.submitted).1,
        all_trace_read := atr,
        finish := s.finish || (atr && (scanLoop mem s.clk_ s.cpu_clock_ratio_ s.mem_clock_ratio_
          pend.length [] pend (s.memory_system_ ++ [Event.ClockTick]) s.submitted).1.isEmpty),
        submitted := (scanLoop mem s.clk_ s.cpu_clock_ratio_ s.mem_clock_ratio_ pend.length []
          pend (s.memory_system_ ++ [Event.ClockTick]) s.submitted).2.2 } := by
  unfold RamSimCPU.ClockTick at h
  cases hr : refillLoop u s.clk_ s.cpu_clock_ratio_ s.mem_clock_ratio_ maxPendEntry
      s.trace_file_ s.pendReq s.all_trace_read with
  | error e => simp [hr] at h
  | ok v =>
    obtain ⟨t, pend, atr⟩ := v
    simp only [hr, Except.ok.injEq] at h
    exact ⟨t, pend, atr, rfl, h.symm⟩

/-- Induction over the ticks of a run. -/
theorem run_induction (mem : Admission) (u : Uninit) (P : RamSimCPU → Prop)
    (hstep : ∀ s s1, P s → s.ClockTick mem u = .ok s1 → P s1)
    (n : Nat) (s0 s : RamSimCPU) (h0 : P s0) (h : RamSimCPU.run mem u n s0 = .ok s) : P s := by
  induction n generalizing s with
  | zero =>
    simp only [RamSimCPU.run, Except.ok.injEq] at h
    subst h; exact h0
  | succ n ih =>
    simp only [RamSimCPU.run] at h
    cases hr : RamSimCPU.run mem u n s0 with
    | error e => simp [hr] at h
    | ok s1 =>
      simp only [hr] at h
      exact hstep s1 s (ih s1 hr) h

/-! ## Backpressure and termination -/

theorem scanLoop_nil (mem : Admission) (clk cpu mr fuel : Nat) (log : List Event)
    (sub : List (Nat × Nat × Bool)) :
    scanLoop mem clk cpu mr fuel [] [] log sub = ([], log, sub) := by
  cases fuel <;> rfl

/-- The scan never lengthens the pending vector. -/
theorem scanLoop_length (mem : Admission) (clk cpu mr : Nat) (pend : List MemReq)
    (log : List Event) (sub : List (Nat × Nat × Bool)) :
    (scanLoop mem clk cpu mr pend.length [] pend log sub).1.length ≤ pend.length := by
  refine scanLoop_pend_induction mem clk cpu mr (fun p _ _ => p.length ≤ pend.length)
    ?_ ?_ pend log sub (Nat.le_refl _)
  · intro done x rest log sub h _
    simp only [List.length_map, List.length_append, List.length_cons] at h ⊢
    omega
  · intro done x rest log sub k h _ _ _ _
    simpa using h

/-- What the refill loop does to the reader and the pending vector: it only
appends, never beyond `maxPendEntry`, it counts one expected id per appended
request, and it touches nothing when the vector is full. -/
theorem refillLoop_bound (u : Uninit) (clk cpu mr fuel : Nat) (t : TraceInputStream)
    (pend : List MemReq) (atr : Bool) (t1 : TraceInputStream) (pend1 : List MemReq)
    (atr1 : Bool) (h : refillLoop u clk cpu mr fuel t pend atr = .ok (t1, pend1, atr1))
    (h1 : t.expectRecordId ≤ t.file.pos) (h2 : t.file.pos ≤ t.file.data.length)
    (h3 : t.file.data.length < 2 ^ 64) :
    (pend.length ≤ maxPendEntry → pend1.length ≤ maxPendEntry) ∧
    pend.length ≤ pend1.length ∧
    t1.expectRecordId + pend.length = t.expectRecordId + pend1.length ∧
    (maxPendEntry ≤ pend.length → t1 = t ∧ pend1 = pend ∧ atr1 = atr) ∧
    t1.expectRecordId ≤ t1.file.pos ∧ t1.file.pos ≤ t1.file.data.length ∧
    t1.file.data = t.file.data := by
  have key := refillLoop_induction u clk cpu mr
    (fun t1 pend1 atr1 =>
      ((pend.length ≤ maxPendEntry → pend1.length ≤ maxPendEntry) ∧
      pend.length ≤ pend1.length ∧
      t1.expectRecordId + pend.length = t.expectRecordId + pend1.length ∧
      (maxPendEntry ≤ pend.length → t1 = t ∧ pend1 = pend ∧ atr1 = atr) ∧
      t1.expectRecordId ≤ t1.file.pos ∧ t1.file.pos ≤ t1.file.data.length ∧
      t1.file.data = t.file.data))
    ?_ ?_ fuel t pend atr t1 pend1 atr1 h
    ⟨fun h => h, Nat.le_refl _, rfl, fun _ => ⟨rfl, rfl, rfl⟩, h1, h2, rfl⟩
  · exact key
  · intro ta penda atra r ⟨q1, q2, q3, q4, q5, q6, q7⟩ hl hn hg
    obtain ⟨e1, e2, _, e4, e5, e6, _, _⟩ := next_ok_good ta _ _ r hn hg
    have hb := e6 q6
    have hlen : ta.file.data.length = t.file.data.length := by rw [q7]
    have hmod : (ta.expectRecordId + 1) % 2 ^ 64 = ta.expectRecordId + 1 :=
      Nat.mod_eq_of_lt (by omega)
    rw [hmod] at e2
    refine ⟨fun _ => ?_, ?_, ?_, fun hfull => ?_, ?_, ?_, ?_⟩
    · simp only [List.length_append, List.length_singleton]; omega
    · simp only [List.length_append, List.length_singleton]; omega
    · simp only [List.length_append, List.length_singleton]; omega
    · omega
    · omega
    · rw [e4]; exact hb
    · rw [e4]; exact q7
  · intro ta penda atra r ⟨q1, q2, q3, q4, q5, q6, q7⟩ hl hn hg
    obtain ⟨_, _, _, e4, e5, e6, e7⟩ := next_ok_not_good ta _ _ r hn hg
    refine ⟨q1, q2, ?_, fun hfull => ?_, ?_, ?_, ?_⟩
    · rw [e4]; exact q3
    · omega
    · omega
    · rw [e5]; exact e7 q6
    · rw [e5]; exact q7

theorem new_driver_ok (bytes : List Byte) (magic0 cpu mr : Nat) (s0 : RamSimCPU)
    (h : RamSimCPU.new bytes magic0 cpu mr = .ok s0) :
    ∃ t, TraceInputStream.new bytes magic0 = .ok t ∧
      s0 = { memory_system_ := [], clk_ := 0, trace_file_ := t, cpu_clock_ratio_ := cpu,
             mem_clock_ratio_ := mr, pendReq := [], all_trace_read := false, finish := false,
             submitted := [] } := by
  unfold RamSimCPU.new at h
  cases ht : TraceInputStream.new bytes magic0 with
  | error e => simp [ht] at h
  | ok t =>
    simp only [ht, Except.ok.injEq] at h
    exact ⟨t, rfl, h.symm⟩

theorem run_add (mem : Admission) (u : Uninit) (n m : Nat) (s0 : RamSimCPU) :
    RamSimCPU.run mem u (n + m) s0 =
      match RamSimCPU.run mem u n s0 with
      | .error e => .error e
      | .ok s => RamSimCPU.run mem u m s := by
  induction m with
  | zero => cases h : RamSimCPU.run mem u n s0 <;> simp [RamSimCPU.run, h]
  | succ m ih =>
    rw [← Nat.add_assoc]
    simp only [RamSimCPU.run, ih]
    cases h : RamSimCPU.run mem u n s0 <;> simp

/-- On a stream that is not good the refill loop reads nothing; it sets
`all_trace_read` if the vector has room. -/
theorem refillLoop_not_good (u : Uninit) (clk cpu mr fuel : Nat) (t : TraceInputStream)
    (pend : List MemReq) (atr : Bool) (h : t.file.good = false) :
    refillLoop u clk cpu mr (fuel + 1) t pend atr =
      .ok (t, pend, if pend.length < maxPendEntry then true else atr) := by
  unfold refillLoop
  by_cases hl : pend.length < maxPendEntry
  · simp [hl, next_of_not_good t _ _ h]
  · simp [hl]

theorem refillLoop_flags (u : Uninit) (clk cpu mr fuel : Nat) (t : TraceInputStream)
    (pend : List MemReq) (atr : Bool) (t1 : TraceInputStream) (pend1 : List MemReq)
    (atr1 : Bool) (h : refillLoop u clk cpu mr fuel t pend atr = .ok (t1, pend1, atr1))
    (ha : atr = true → t.file.good = false) :
    (atr1 = true → t1.file.good = false) ∧
    (t.file.good = false → t1.file.good = false ∧ pend1 = pend) ∧
    (atr = true → atr1 = true) := by
  refine refillLoop_induction u clk cpu mr
    (fun t1 pend1 atr1 => (atr1 = true → t1.file.good = false) ∧
      (t.file.good = false → t1.file.good = false ∧ pend1 = pend) ∧
      (atr = true → atr1 = true))
    ?_ ?_ fuel t pend atr t1 pend1 atr1 h ⟨ha, fun hg => ⟨hg, rfl⟩, fun h => h⟩
  · intro ta penda atra r ⟨q1, q2, q3⟩ _ hn hg
    have hgood : ta.file.good = true := by
      have hp : (ta.parseRecord u.record u.depCount).good = true := by
        unfold TraceInputStream.next at hn
        by_cases hp : (ta.parseRecord u.record u.depCount).good = true
        · exact hp
        · simp only [hp, Bool.false_eq_true, if_false, Except.ok.injEq] at hn
          rw [← hn] at hg; exact absurd hg hp
      exact (parseRecord_good ta _ _ hp).2.2.2.2.1
    refine ⟨fun ha1 => ?_, fun hbad => ?_, q3⟩
    · have := q1 ha1; rw [hgood] at this; exact absurd this (by decide)
    · have := (q2 hbad).1; rw [hgood] at this; exact absurd this (by decide)
  · intro ta penda atra r ⟨q1, q2, q3⟩ _ hn hg
    obtain ⟨_, _, e3, _⟩ := next_ok_not_good ta _ _ r hn hg
    exact ⟨fun _ => e3, fun hbad => ⟨e3, (q2 hbad).2⟩, fun _ => rfl⟩

/-- In every state reached from the constructor, `finish` implies that the
trace is read and nothing is pending, and `all_trace_read` implies that the
stream is not good. -/
theorem reachable_flags (bytes : List Byte) (magic0 cpu mr : Nat) (mem : Admission) (u : Uninit)
    (n : Nat) (s0 s : RamSimCPU) (h0 : RamSimCPU.new bytes magic0 cpu mr = .ok s0)
    (hrun : RamSimCPU.run mem u n s0 = .ok s) :
    (s.finish = true → s.all_trace_read = true ∧ s.pendReq = []) ∧
    (s.all_trace_read = true → s.trace_file_.file.good = false) := by
  obtain ⟨t, _, hs0⟩ := new_driver_ok bytes magic0 cpu mr s0 h0
  refine run_induction mem u
    (fun s => (s.finish = true → s.all_trace_read = true ∧ s.pendReq = []) ∧
      (s.all_trace_read = true → s.trace_file_.file.good = false))
    ?_ n s0 s (by subst hs0; simp) hrun
  intro s s1 ⟨p1, p2⟩ htick
  obtain ⟨t, pend, atr, hre, hs1⟩ := ClockTick_ok mem u s s1 htick
  obtain ⟨f1, f2, f3⟩ := refillLoop_flags u _ _ _ _ _ _ _ _ _ _ hre p2
  subst hs1
  refine ⟨fun hfin => ?_, f1⟩
  simp only [Bool.or_eq_true, Bool.and_eq_true, List.isEmpty_iff] at hfin ⊢
  rcases hfin with hfin | hfin
  · obtain ⟨a1, a2⟩ := p1 hfin
    have hp : pend = [] := by rw [(f2 (p2 a1)).2, a2]
    subst hp
    exact ⟨f3 a1, by simp [scanLoop_nil]⟩
  · exact hfin

/-- C9, termination. `finished()` is false before the first tick; after every
tick it is true exactly when `all_trace_read` is set and the pending vector is
empty; once it is true every later tick returns and leaves it true. -/
theorem finished_iff (bytes : List Byte) (magic0 cpu mr : Nat) (mem : Admission) (u : Uninit)
    (s0 : RamSimCPU) (h0 : RamSimCPU.new bytes magic0 cpu mr = .ok s0) :
    s0.finished = false ∧
    (∀ n s, RamSimCPU.run mem u (n + 1) s0 = .ok s →
      (s.finished = true ↔ (s.all_trace_read = true ∧ s.pendReq = []))) ∧
    (∀ n s, RamSimCPU.run mem u n s0 = .ok s → s.finished = true →
      ∀ m, ∃ s1, RamSimCPU.run mem u (n + m) s0 = .ok s1 ∧ s1.finished = true) := by
  refine ⟨?_, ?_, ?_⟩
  · obtain ⟨t, _, hs0⟩ := new_driver_ok bytes magic0 cpu mr s0 h0
    subst hs0; rfl
  · intro n s hrun
    simp only [RamSimCPU.run] at hrun
    cases hr : RamSimCPU.run mem u n s0 with
    | error e => simp [hr] at hrun
    | ok sp =>
      simp only [hr] at hrun
      obtain ⟨p1, p2⟩ := reachable_flags bytes magic0 cpu mr mem u n s0 sp h0 hr
      obtain ⟨q1, _⟩ := reachable_flags bytes magic0 cpu mr mem u (n + 1) s0 s h0
        (by simp only [RamSimCPU.run, hr]; exact hrun)
      refine ⟨q1, fun ⟨a1, a2⟩ => ?_⟩
      obtain ⟨t, pend, atr, hre, hs1⟩ := ClockTick_ok mem u sp s hrun
      subst hs1
      simp only [RamSimCPU.finished, Bool.or_eq_true, Bool.and_eq_true, List.isEmpty_iff] at a1 a2 ⊢
      exact Or.inr ⟨a1, a2⟩
  · intro n s hrun hfin m
    induction m with
    | zero => exact ⟨s, hrun, hfin⟩
    | succ m ih =>
      obtain ⟨s1, hr1, hf1⟩ := ih
      obtain ⟨p1, p2⟩ := reachable_flags bytes magic0 cpu mr mem u (n + m) s0 s1 h0 hr1
      obtain ⟨a1, a2⟩ := p1 hf1
      have hbad := p2 a1
      have hre := refillLoop_not_good u s1.clk_ s1.cpu_clock_ratio_ s1.mem_clock_ratio_ 255
        s1.trace_file_ s1.pendReq s1.all_trace_read hbad
      have hf1b : s1.finish = true := hf1
      have htick : ∃ s2, s1.ClockTick mem u = .ok s2 ∧ s2.finish = true := by
        unfold RamSimCPU.ClockTick
        have h256 : refillLoop u s1.clk_ s1.cpu_clock_ratio_ s1.mem_clock_ratio_ maxPendEntry
            s1.trace_file_ s1.pendReq s1.all_trace_read = _ := hre
        rw [h256]
        exact ⟨_, rfl, by simp [hf1b]⟩
      obtain ⟨s2, ht, hf2⟩ := htick
      refine ⟨s2, ?_, hf2⟩
      rw [← Nat.add_assoc]
      simp only [RamSimCPU.run, hr1]
      exact ht

/-- The hypothesis of C9 holds for the driver on the sample trace. -/
theorem finished_iff_witness :
    RamSimCPU.new (encodeTrace sampleTrace) 0 1 1 = .ok sampleStart ∧
    sampleStart.finished = false :=
  ⟨by decide,
    (finished_iff (encodeTrace sampleTrace) 0 1 1 acceptAll ⟨zeroReq, 0⟩ sampleStart
      (by decide)).1⟩

/-- In every state reached from the constructor on a file of fewer than
`2^64` bytes, the reader has counted no more ids than it has consumed bytes,
and at most `maxPendEntry` requests are pending. -/
theorem reachable_base (bytes : List Byte) (magic0 cpu mr : Nat) (mem : Admission) (u : Uninit)
    (n : Nat) (s0 s : RamSimCPU) (hlen : bytes.length < 2 ^ 64)
    (h0 : RamSimCPU.new bytes magic0 cpu mr = .ok s0)
    (hrun : RamSimCPU.run mem u n s0 = .ok s) :
    s.trace_file_.expectRecordId ≤ s.trace_file_.file.pos ∧
    s.trace_file_.file.pos ≤ s.trace_file_.file.data.length ∧
    s.trace_file_.file.data = bytes ∧
    s.pendReq.length ≤ maxPendEntry := by
  obtain ⟨t, ht, hs0⟩ := new_driver_ok bytes magic0 cpu mr s0 h0
  obtain ⟨o1, o2, o3, _⟩ := new_ok bytes magic0 t ht
  refine run_induction mem u
    (fun s => s.trace_file_.expectRecordId ≤ s.trace_file_.file.pos ∧
      s.trace_file_.file.pos ≤ s.trace_file_.file.data.length ∧
      s.trace_file_.file.data = bytes ∧ s.pendReq.length ≤ maxPendEntry)
    ?_ n s0 s (by subst hs0; simp [o1, o2, o3]) hrun
  intro s s1 ⟨p1, p2, p3, p4⟩ htick
  obtain ⟨t, pend, atr, hre, hs1⟩ := ClockTick_ok mem u s s1 htick
  obtain ⟨b1, _, _, _, b5, b6, b7⟩ := refillLoop_bound u _ _ _ _ _ _ _ _ _ _ hre p1 p2
    (by rw [p3]; exact hlen)
  subst hs1
  refine ⟨b5, b6, by rw [b7, p3], ?_⟩
  exact Nat.le_trans (scanLoop_length _ _ _ _ _ _ _) (b1 p4)

/-- C10, backpressure bound. In every state reached from the constructor (on
a file of fewer than `2^64` bytes) at most `maxPendEntry = 256` requests are
pending. A tick reads at most as many records as the pending vector had free
places when the tick began (the expected id counts the records read), and it
leaves the reader untouched if the vector was full. -/
theorem pending_bound (bytes : List Byte) (magic0 cpu mr : Nat) (mem : Admission) (u : Uninit)
    (n : Nat) (s0 s : RamSimCPU) (hlen : bytes.length < 2 ^ 64)
    (h0 : RamSimCPU.new bytes magic0 cpu mr = .ok s0)
    (hrun : RamSimCPU.run mem u n s0 = .ok s) :
    s.pendReq.length ≤ 256 ∧
    ∀ s1, s.ClockTick mem u = .ok s1 →
      s1.trace_file_.expectRecordId + s.pendReq.length ≤ s.trace_file_.expectRecordId + 256 ∧
      s.trace_file_.expectRecordId ≤ s1.trace_file_.expectRecordId ∧
      (s.pendReq.length = 256 → s1.trace_file_ = s.trace_file_) := by
  obtain ⟨p1, p2, p3, p4⟩ := reachable_base bytes magic0 cpu mr mem u n s0 s hlen h0 hrun
  refine ⟨p4, fun s1 htick => ?_⟩
  obtain ⟨t, pend, atr, hre, hs1⟩ := ClockTick_ok mem u s s1 htick
  obtain ⟨b1, b2, b3, b4, _⟩ := refillLoop_bound u _ _ _ _ _ _ _ _ _ _ hre p1 p2
    (by rw [p3]; exact hlen)
  subst hs1
  have hb := b1 p4
  have hm : maxPendEntry = 256 := rfl
  refine ⟨?_, ?_, fun hfull => ?_⟩
  · show t.expectRecordId + s.pendReq.length ≤ s.trace_file_.expectRecordId + 256
    omega
  · show s.trace_file_.expectRecordId ≤ t.expectRecordId
    omega
  · exact (b4 (by omega)).1

/-- The hypotheses of C10 hold for the sample trace after one tick. -/
theorem pending_bound_witness :
    (encodeTrace sampleTrace).length < 2 ^ 64 ∧
    RamSimCPU.new (encodeTrace sampleTrace) 0 1 1 = .ok sampleStart ∧
    RamSimCPU.run refuseAll ⟨zeroReq, 0⟩ 1 sampleStart = .ok sampleAfterTick ∧
    sampleAfterTick.pendReq.length ≤ 256 :=
  ⟨by decide, by decide, by decide,
    (pending_bound (encodeTrace sampleTrace) 0 1 1 refuseAll ⟨zeroReq, 0⟩ 1 sampleStart
      sampleAfterTick (by decide) (by decide) (by decide)).1⟩

/-! ## Shape of the pending vector -/

@[simp] theorem stamped_id (clk cpu mr : Nat) (pend : List MemReq) (r : MemReq) :
    (stamped clk cpu mr pend r).id = r.id := by
  unfold stamped; split <;> rfl

@[simp] theorem stamped_ids (clk cpu mr : Nat) (pend : List MemReq) (r : MemReq) :
    (stamped clk cpu mr pend r).ids = r.ids := by
  unfold stamped; split <;> rfl

@[simp] theorem stamped_deps (clk cpu mr : Nat) (pend : List MemReq) (r : MemReq) :
    (stamped clk cpu mr pend r).deps = r.deps := by
  unfold stamped; split <;> rfl

@[simp] theorem stamped_size (clk cpu mr : Nat) (pend : List MemReq) (r : MemReq) :
    (stamped clk cpu mr pend r).size = r.size := by
  unfold stamped; split <;> rfl

@[simp] theorem stamped_addr (clk cpu mr : Nat) (pend : List MemReq) (r : MemReq) :
    (stamped clk cpu mr pend r).addr = r.addr := by
  unfold stamped; split <;> rfl

@[simp] theorem stamped_type (clk cpu mr : Nat) (pend : List MemReq) (r : MemReq) :
    (stamped clk cpu mr pend r).type = r.type := by
  unfold stamped; split <;> rfl

/-- A request is appended resolved only if none of its dependencies is
pending. -/
theorem stamped_min (clk cpu mr : Nat) (pend : List MemReq) (r : MemReq)
    (h : (stamped clk cpu mr pend r).min_issue_cycle ≠ -1) : depSolved pend r = true := by
  unfold stamped at h
  by_cases hd : depSolved pend r = true
  · exact hd
  · simp [hd] at h

theorem stamped_min_solved (clk cpu mr : Nat) (pend : List MemReq) (r : MemReq)
    (h : depSolved pend r = true) :
    (stamped clk cpu mr pend r).min_issue_cycle = issueCycle clk r.delay cpu mr := by
  simp [stamped, h]

@[simp] theorem dropIds_id (r : MemReq) (k : Nat) : (r.dropIds k).id = r.id := rfl
@[simp] theorem dropIds_deps (r : MemReq) (k : Nat) : (r.dropIds k).deps = r.deps := rfl
@[simp] theorem dropIds_min (r : MemReq) (k : Nat) :
    (r.dropIds k).min_issue_cycle = r.min_issue_cycle := rfl
@[simp] theorem dropIds_ids (r : MemReq) (k : Nat) : (r.dropIds k).ids = r.ids.drop k := rfl
@[simp] theorem dropIds_size (r : MemReq) (k : Nat) : (r.dropIds k).size = r.size := rfl
@[simp] theorem dropIds_addr (r : MemReq) (k : Nat) : (r.dropIds k).addr = r.addr := rfl
@[simp] theorem dropIds_type (r : MemReq) (k : Nat) : (r.dropIds k).type = r.type := rfl

theorem PendingOk.eq_of_id {e : Nat} {pend : List MemReq} (h : PendingOk e pend)
    {q r : MemReq} (hq : q ∈ pend) (hr : r ∈ pend) (hid : q.id = r.id) : q = r := by
  have hn : (pend.map MemReq.id).Nodup := h.1.imp (fun hlt => Nat.ne_of_lt hlt)
  exact List.inj_on_of_nodup_map hn hq hr hid

theorem PendingOk.erase {e : Nat} {done rest : List MemReq} {x : MemReq}
    (clk cpu mr : Nat) (p : List MemReq) (h : PendingOk e (done ++ x :: rest)) :
    PendingOk e ((done ++ rest).map (resolve clk cpu mr p)) := by
  obtain ⟨h1, h2⟩ := h
  refine ⟨?_, ?_⟩
  · rw [map_resolve_ids]
    refine h1.sublist ?_
    simp only [List.map_append, List.map_cons]
    exact List.Sublist.append (List.Sublist.refl _) (List.sublist_cons_self _ _)
  · intro r hr
    obtain ⟨q, hq, rfl⟩ := List.mem_map.mp hr
    rw [resolve_id]
    refine h2 q ?_
    rcases List.mem_append.mp hq with hq | hq
    · exact List.mem_append_left _ hq
    · exact List.mem_append_right _ (List.mem_cons_of_mem _ hq)

theorem PendingOk.replace {e : Nat} {done rest : List MemReq} {x y : MemReq}
    (h : PendingOk e (done ++ x :: rest)) (hid : y.id = x.id) :
    PendingOk e (done ++ y :: rest) := by
  obtain ⟨h1, h2⟩ := h
  refine ⟨?_, ?_⟩
  · simpa [hid] using h1
  · intro r hr
    rcases List.mem_append.mp hr with hr | hr
    · exact h2 r (List.mem_append_left _ hr)
    · rcases List.mem_cons.mp hr with hr | hr
      · rw [hr, hid]; exact h2 x (by simp)
      · exact h2 r (List.mem_append_right _ (List.mem_cons_of_mem _ hr))

theorem PendingOk.push {e : Nat} {pend : List MemReq} {x : MemReq}
    (h : PendingOk e pend) (hid : x.id = e) : PendingOk (e + 1) (pend ++ [x]) := by
  obtain ⟨h1, h2⟩ := h
  refine ⟨?_, ?_⟩
  · simp only [List.map_append, List.map_cons, List.map_nil]
    rw [List.pairwise_append]
    refine ⟨h1, List.pairwise_singleton _ _, ?_⟩
    intro a ha b hb
    obtain ⟨q, hq, rfl⟩ := List.mem_map.mp ha
    simp only [List.mem_singleton] at hb
    rw [hb, hid]; exact h2 q hq
  · intro r hr
    rcases List.mem_append.mp hr with hr | hr
    · exact Nat.lt_succ_of_lt (h2 r hr)
    · simp only [List.mem_singleton] at hr
      rw [hr, hid]; exact Nat.lt_succ_self _

/-! ## Induction principles that carry the shape along -/

theorem readerYields_next (P : MemReq → Prop) (u : Uninit) (t : TraceInputStream)
    (r : ParseResult) (h : ReaderYields P u t) (hn : t.next u.record u.depCount = .ok r) :
    ReaderYields P u r.reader ∧ (r.good = true → P r.record) := by
  refine ⟨fun n x hx => ?_, fun hg => ?_⟩
  · refine h (n + 1) x ?_
    simp only [nextMany, hn]
    by_cases hg : r.good = true
    · simp only [hg, if_true]; exact List.mem_cons_of_mem _ hx
    · simp only [hg, Bool.false_eq_true, if_false]; exact hx
  · refine h 1 r.record ?_
    simp [nextMany, hn, hg]

/-- The refill loop, with the shape of reader and pending vector carried
along: a property that survives an append and the end of the stream, given
what is known about the reader and the vector there, holds at the end. -/
theorem refillLoop_induction_ok (u : Uninit) (clk cpu mr : Nat)
    (Q : TraceInputStream → List MemReq → Bool → Prop)
    (hpush : ∀ t pend atr (r : ParseResult), Q t pend atr → ReaderOk t →
      PendingOk t.expectRecordId pend → t.next u.record u.depCount = .ok r → r.good = true →
      r.record.id = t.expectRecordId → r.reader.expectRecordId = t.expectRecordId + 1 →
      r.record.ids = List.range (chunkCount r.record.size) →
      Q r.reader (pend ++ [stamped clk cpu mr pend r.record]) atr)
    (heof : ∀ t pend atr (r : ParseResult), Q t pend atr →
      t.next u.record u.depCount = .ok r → r.good = false →
      r.reader.expectRecordId = t.expectRecordId → Q r.reader pend true)
    (fuel : Nat) (t : TraceInputStream) (pend : List MemReq) (atr : Bool)
    (t1 : TraceInputStream) (pend1 : List MemReq) (atr1 : Bool)
    (h : refillLoop u clk cpu mr fuel t pend atr = .ok (t1, pend1, atr1))
    (hr : ReaderOk t) (hp : PendingOk t.expectRecordId pend) (hq : Q t pend atr) :
    Q t1 pend1 atr1 ∧ ReaderOk t1 ∧ PendingOk t1.expectRecordId pend1 := by
  refine refillLoop_induction u clk cpu mr
    (fun t1 pend1 atr1 => Q t1 pend1 atr1 ∧ ReaderOk t1 ∧ PendingOk t1.expectRecordId pend1)
    ?_ ?_ fuel t pend atr t1 pend1 atr1 h ⟨hq, hr, hp⟩
  · intro ta penda atra r ⟨q1, q2, q3⟩ _ hn hg
    obtain ⟨e1, e2, _, e4, e5, e6, e7, _⟩ := next_ok_good ta _ _ r hn hg
    obtain ⟨r1, r2, r3⟩ := q2
    have hb := e6 r2
    have hmod : (ta.expectRecordId + 1) % 2 ^ 64 = ta.expectRecordId + 1 :=
      Nat.mod_eq_of_lt (by omega)
    rw [hmod] at e2
    refine ⟨hpush ta penda atra r q1 ⟨r1, r2, r3⟩ q3 hn hg e1 e2 e7, ?_, ?_⟩
    · refine ⟨by omega, by rw [e4]; exact hb, by rw [e4]; exact r3⟩
    · rw [e2]
      exact q3.push (x := stamped clk cpu mr penda r.record) (by rw [stamped_id]; exact e1)
  · intro ta penda atra r ⟨q1, q2, q3⟩ _ hn hg
    obtain ⟨_, _, _, e4, e5, e6, e7⟩ := next_ok_not_good ta _ _ r hn hg
    obtain ⟨r1, r2, r3⟩ := q2
    refine ⟨heof ta penda atra r q1 hn hg e4, ?_, ?_⟩
    · exact ⟨by omega, by rw [e5]; exact e7 r2, by rw [e5]; exact r3⟩
    · rw [e4]; exact q3

/-- The scan loop, with the shape of the pending vector carried along. -/
theorem scanLoop_induction_ok (mem : Admission) (clk cpu mr e : Nat)
    (P : List MemReq → List Event → List (Nat × Nat × Bool) → Prop)
    (herase : ∀ done x rest log sub, P (done ++ x :: rest) log sub →
      PendingOk e (done ++ x :: rest) → x.ids = [] →
      P ((done ++ rest).map (resolve clk cpu mr (done ++ rest))) log sub)
    (hoffer : ∀ done x rest log sub k, P (done ++ x :: rest) log sub →
      PendingOk e (done ++ x :: rest) → x.ids ≠ [] →
      0 ≤ x.min_issue_cycle → x.min_issue_cycle ≤ (clk : Int) → k ≤ x.ids.length →
      P (done ++ x.dropIds k :: rest) (log ++ fragmentCalls x k)
        (sub ++ (x.ids.take k).map fun o => (x.id, fragAddr x o, isWrite x)))
    (pend : List MemReq) (log : List Event) (sub : List (Nat × Nat × Bool))
    (hp : PendingOk e pend) (h : P pend log sub) :
    P (scanLoop mem clk cpu mr pend.length [] pend log sub).1
      (scanLoop mem clk cpu mr pend.length [] pend log sub).2.1
      (scanLoop mem clk cpu mr pend.length [] pend log sub).2.2 ∧
    PendingOk e (scanLoop mem clk cpu mr pend.length [] pend log sub).1 := by
  refine scanLoop_pend_induction mem clk cpu mr
    (fun p l s => P p l s ∧ PendingOk e p) ?_ ?_ pend log sub ⟨h, hp⟩
  · intro done x rest log sub ⟨h1, h2⟩ hx
    exact ⟨herase done x rest log sub h1 h2 hx, h2.erase clk cpu mr _⟩
  · intro done x rest log sub k ⟨h1, h2⟩ hx h0 hc hk
    exact ⟨hoffer done x rest log sub k h1 h2 hx h0 hc hk, h2.replace rfl⟩

/-- In every state reached from the constructor on a file of fewer than
`2^64` bytes, the pending requests carry distinct ascending ids below the
expected id. -/
theorem reachable_pendingOk (bytes : List Byte) (magic0 cpu mr : Nat) (mem : Admission)
    (u : Uninit) (n : Nat) (s0 s : RamSimCPU) (hlen : bytes.length < 2 ^ 64)
    (h0 : RamSimCPU.new bytes magic0 cpu mr = .ok s0)
    (hrun : RamSimCPU.run mem u n s0 = .ok s) :
    ReaderOk s.trace_file_ ∧ PendingOk s.trace_file_.expectRecordId s.pendReq := by
  obtain ⟨t, ht, hs0⟩ := new_driver_ok bytes magic0 cpu mr s0 h0
  obtain ⟨o1, o2, o3, _⟩ := new_ok bytes magic0 t ht
  refine run_induction mem u
    (fun s => ReaderOk s.trace_file_ ∧ PendingOk s.trace_file_.expectRecordId s.pendReq)
    ?_ n s0 s ?_ hrun
  · intro s s1 ⟨p1, p2⟩ htick
    obtain ⟨t, pend, atr, hre, hs1⟩ := ClockTick_ok mem u s s1 htick
    obtain ⟨_, q2, q3⟩ := refillLoop_induction_ok u _ _ _ (fun _ _ _ => True)
      (fun _ _ _ _ _ _ _ _ _ _ _ _ => trivial) (fun _ _ _ _ _ _ _ _ => trivial)
      _ _ _ _ _ _ _ hre p1 p2 trivial
    obtain ⟨_, q4⟩ := scanLoop_induction_ok mem s.clk_ s.cpu_clock_ratio_ s.mem_clock_ratio_
      t.expectRecordId (fun _ _ _ => True) (fun _ _ _ _ _ _ _ _ => trivial)
      (fun _ _ _ _ _ _ _ _ _ _ _ _ => trivial) pend (s.memory_system_ ++ [Event.ClockTick])
      s.submitted q3 trivial
    subst hs1
    exact ⟨q2, q4⟩
  · subst hs0
    refine ⟨⟨by simp [o1], by rw [o2]; exact o3, by rw [o2]; exact hlen⟩, ?_⟩
    exact ⟨List.Pairwise.nil, fun r hr => by simp at hr⟩

/-! ## Dependency gating -/

theorem depSolved_deps (pend : List MemReq) (r r1 : MemReq) (h : r1.deps = r.deps) :
    depSolved pend r1 = depSolved pend r := by
  simp [depSolved, h]

/-- The gating invariant: every pending request only depends on smaller ids,
and if it is resolved none of its dependencies is pending. -/
theorem gated_push (clk cpu mr e : Nat) (pend : List MemReq) (r : MemReq)
    (hp : PendingOk e pend) (hid : r.id = e) (hb : r.Backward)
    (hg : ∀ q ∈ pend, q.Backward ∧ (q.min_issue_cycle ≠ -1 → depSolved pend q = true)) :
    ∀ q ∈ pend ++ [stamped clk cpu mr pend r],
      q.Backward ∧
      (q.min_issue_cycle ≠ -1 → depSolved (pend ++ [stamped clk cpu mr pend r]) q = true) := by
  intro q hq
  rcases List.mem_append.mp hq with hq | hq
  · obtain ⟨g1, g2⟩ := hg q hq
    refine ⟨g1, fun hm => ?_⟩
    have hs := g2 hm
    rw [depSolved_iff] at hs ⊢
    intro d hd p hpm
    rcases List.mem_append.mp hpm with hpm | hpm
    · exact hs d hd p hpm
    · simp only [List.mem_singleton] at hpm
      rw [hpm, stamped_id, hid]
      have h1 := g1 d hd
      have h2 := hp.2 q hq
      omega
  · simp only [List.mem_singleton] at hq
    subst hq
    have hb1 : (stamped clk cpu mr pend r).Backward := by
      intro d hd
      rw [stamped_deps] at hd
      rw [stamped_id]; exact hb d hd
    refine ⟨hb1, fun hm => ?_⟩
    have hs := stamped_min clk cpu mr pend r hm
    rw [depSolved_iff] at hs ⊢
    intro d hd p hpm
    rw [stamped_deps] at hd
    rcases List.mem_append.mp hpm with hpm | hpm
    · exact hs d hd p hpm
    · simp only [List.mem_singleton] at hpm
      rw [hpm, stamped_id]
      have := hb d hd
      omega

theorem gated_erase (clk cpu mr : Nat) (done rest : List MemReq) (x : MemReq)
    (hg : ∀ q ∈ done ++ x :: rest,
      q.Backward ∧ (q.min_issue_cycle ≠ -1 → depSolved (done ++ x :: rest) q = true)) :
    ∀ q ∈ (done ++ rest).map (resolve clk cpu mr (done ++ rest)),
      q.Backward ∧ (q.min_issue_cycle ≠ -1 →
        depSolved ((done ++ rest).map (resolve clk cpu mr (done ++ rest))) q = true) := by
  intro q hq
  obtain ⟨p, hp, rfl⟩ := List.mem_map.mp hq
  have hp1 : p ∈ done ++ x :: rest := by
    rcases List.mem_append.mp hp with h | h
    · exact List.mem_append_left _ h
    · exact List.mem_append_right _ (List.mem_cons_of_mem _ h)
  obtain ⟨g1, g2⟩ := hg p hp1
  have hsub : ∀ a ∈ (done ++ rest).map (resolve clk cpu mr (done ++ rest)),
      ∃ b ∈ done ++ rest, b.id = a.id := by
    intro a ha
    obtain ⟨b, hb, rfl⟩ := List.mem_map.mp ha
    exact ⟨b, hb, (resolve_id _ _ _ _ _).symm⟩
  have hsub2 : ∀ a ∈ done ++ rest, ∃ b ∈ done ++ x :: rest, b.id = a.id := by
    intro a ha
    refine ⟨a, ?_, rfl⟩
    rcases List.mem_append.mp ha with h | h
    · exact List.mem_append_left _ h
    · exact List.mem_append_right _ (List.mem_cons_of_mem _ h)
  refine ⟨?_, fun hm => ?_⟩
  · intro d hd
    rw [resolve_deps] at hd
    rw [resolve_id]; exact g1 d hd
  · rw [depSolved_deps _ p _ (resolve_deps _ _ _ _ _)]
    refine depSolved_of_ids _ _ _ hsub ?_
    rcases resolve_min clk cpu mr (done ++ rest) p with ⟨h1, _⟩ | ⟨_, h2, _⟩
    · rw [h1] at hm
      exact depSolved_of_ids _ _ _ hsub2 (g2 hm)
    · exact h2

theorem gated_replace (done rest : List MemReq) (x y : MemReq)
    (hid : y.id = x.id) (hdeps : y.deps = x.deps) (hmin : y.min_issue_cycle = x.min_issue_cycle)
    (hg : ∀ q ∈ done ++ x :: rest,
      q.Backward ∧ (q.min_issue_cycle ≠ -1 → depSolved (done ++ x :: rest) q = true)) :
    ∀ q ∈ done ++ y :: rest,
      q.Backward ∧ (q.min_issue_cycle ≠ -1 → depSolved (done ++ y :: rest) q = true) := by
  have hsub : ∀ a ∈ done ++ y :: rest, ∃ b ∈ done ++ x :: rest, b.id = a.id := by
    intro a ha
    rcases List.mem_append.mp ha with h | h
    · exact ⟨a, List.mem_append_left _ h, rfl⟩
    · rcases List.mem_cons.mp h with h | h
      · exact ⟨x, by simp, by rw [h, hid]⟩
      · exact ⟨a, List.mem_append_right _ (List.mem_cons_of_mem _ h), rfl⟩
  intro q hq
  rcases List.mem_append.mp hq with h | h
  · obtain ⟨g1, g2⟩ := hg q (List.mem_append_left _ h)
    exact ⟨g1, fun hm => depSolved_of_ids _ _ _ hsub (g2 hm)⟩
  · rcases List.mem_cons.mp h with h | h
    · obtain ⟨g1, g2⟩ := hg x (by simp)
      subst h
      refine ⟨?_, fun hm => ?_⟩
      · intro d hd
        rw [hdeps] at hd
        rw [hid]; exact g1 d hd
      · rw [depSolved_deps _ x _ hdeps]
        exact depSolved_of_ids _ _ _ hsub (g2 (by rw [← hmin]; exact hm))
    · obtain ⟨g1, g2⟩ := hg q (List.mem_append_right _ (List.mem_cons_of_mem _ h))
      exact ⟨g1, fun hm => depSolved_of_ids _ _ _ hsub (g2 hm)⟩

/-- If the reader only returns records that depend on smaller ids, then in
every reachable state a resolved pending request has no pending dependency. -/
theorem reachable_gated (bytes : List Byte) (magic0 cpu mr : Nat) (mem : Admission)
    (u : Uninit) (n : Nat) (s0 s : RamSimCPU) (hlen : bytes.length < 2 ^ 64)
    (h0 : RamSimCPU.new bytes magic0 cpu mr = .ok s0)
    (hy : ReaderYields MemReq.Backward u s0.trace_file_)
    (hrun : RamSimCPU.run mem u n s0 = .ok s) :
    ReaderYields MemReq.Backward u s.trace_file_ ∧
    ∀ q ∈ s.pendReq, q.Backward ∧ (q.min_issue_cycle ≠ -1 → depSolved s.pendReq q = true) := by
  have hreach : ∀ m sm, RamSimCPU.run mem u m s0 = .ok sm →
      ReaderOk sm.trace_file_ ∧ PendingOk sm.trace_file_.expectRecordId sm.pendReq :=
    fun m sm hm => reachable_pendingOk bytes magic0 cpu mr mem u m s0 sm hlen h0 hm
  obtain ⟨t, ht, hs0⟩ := new_driver_ok bytes magic0 cpu mr s0 h0
  induction n generalizing s with
  | zero =>
    simp only [RamSimCPU.run, Except.ok.injEq] at hrun
    subst hrun
    refine ⟨hy, ?_⟩
    subst hs0
    intro q hq
    simp at hq
  | succ n ih =>
    simp only [RamSimCPU.run] at hrun
    cases hr : RamSimCPU.run mem u n s0 with
    | error e => simp [hr] at hrun
    | ok sp =>
      simp only [hr] at hrun
      obtain ⟨i1, i2⟩ := ih sp hr
      obtain ⟨p1, p2⟩ := hreach n sp hr
      obtain ⟨t1, pend, atr, hre, hs1⟩ := ClockTick_ok mem u sp s hrun
      obtain ⟨⟨q1, q2⟩, _, q4⟩ := refillLoop_induction_ok u sp.clk_ sp.cpu_clock_ratio_
        sp.mem_clock_ratio_
        (fun t pend _ => ReaderYields MemReq.Backward u t ∧
          ∀ q ∈ pend, q.Backward ∧ (q.min_issue_cycle ≠ -1 → depSolved pend q = true))
        (fun t pend atr r ⟨a1, a2⟩ _ hp hn hg hid _ _ => by
          obtain ⟨y1, y2⟩ := readerYields_next _ u t r a1 hn
          exact ⟨y1, gated_push _ _ _ _ pend r.record hp hid (y2 hg) a2⟩)
        (fun t pend atr r ⟨a1, a2⟩ hn _ _ => ⟨(readerYields_next _ u t r a1 hn).1, a2⟩)
        _ _ _ _ _ _ _ hre p1 p2 ⟨i1, i2⟩
      have hscan := scanLoop_pend_induction mem sp.clk_ sp.cpu_clock_ratio_ sp.mem_clock_ratio_
        (fun pend _ _ =>
          ∀ q ∈ pend, q.Backward ∧ (q.min_issue_cycle ≠ -1 → depSolved pend q = true))
        (fun done x rest _ _ hg _ => gated_erase _ _ _ done rest x hg)
        (fun done x rest _ _ k hg _ _ _ _ => gated_replace done rest x (x.dropIds k) rfl rfl rfl hg)
        pend (sp.memory_system_ ++ [Event.ClockTick]) sp.submitted q2
      subst hs1
      exact ⟨q1, hscan⟩

/-! ## Well-formed traces -/

theorem nextMany_at_end (record : MemReq) (dc : Nat) (m : Nat) (t : TraceInputStream)
    (hd : t.file.data.drop t.file.pos = []) : (nextMany record dc m t).1 = [] := by
  induction m generalizing t with
  | zero => rfl
  | succ m ih =>
    obtain ⟨r, hn, hg, _⟩ := next_at_end t record dc hd
    obtain ⟨_, _, _, _, e5, e6, _⟩ := next_ok_not_good t record dc r hn hg
    have hd2 : r.reader.file.data.drop r.reader.file.pos = [] := by
      rw [e5]
      have hl : t.file.data.length ≤ t.file.pos := by
        have := congrArg List.length hd
        simp only [List.length_drop, List.length_nil] at this
        omega
      exact List.drop_of_length_le (by omega)
    simp only [nextMany, hn, hg, Bool.false_eq_true, if_false]
    exact ih r.reader hd2

theorem nextMany_mem_of_le (record : MemReq) (dc : Nat) (a b : Nat) (t : TraceInputStream)
    (hab : a ≤ b) (x : MemReq) (hx : x ∈ (nextMany record dc a t).1) :
    x ∈ (nextMany record dc b t).1 := by
  obtain ⟨c, rfl⟩ := Nat.exists_eq_add_of_le hab
  rw [nextMany_add]
  cases h : (nextMany record dc a t).2 with
  | none => simpa using hx
  | some tm => simp only [List.mem_append]; exact Or.inl hx

/-- On an encoded trace the reader returns nothing but the records of the
trace. -/
theorem readerYields_encodeTrace (rs : List TraceRecord) (u : Uninit) (P : MemReq → Prop)
    (hid : rs.map TraceRecord.id = List.range rs.length) (hwf : ∀ r ∈ rs, r.WF)
    (hP : ∀ m : MemReq, m.toTraceRecord ∈ rs → P m) :
    ReaderYields P u ⟨⟨encodeTrace rs, 8, true⟩, 0⟩ := by
  obtain ⟨out, tn, i1, i2, i3, i4, i5, i6⟩ := nextMany_full u.record u.depCount rs []
    ⟨⟨BINFILE ++ (rs.map encodeRecord).flatten, 8, true⟩, 0⟩ 0 rfl
    (by simp [BINFILE]) rfl (by rw [hid, List.range_eq_range']) hwf
  have hout : ∀ x ∈ out, P x := by
    intro x hx
    refine hP x ?_
    rw [← i2]
    exact List.mem_map_of_mem _ hx
  intro n x hx
  have hx : x ∈ (nextMany u.record u.depCount n
      ⟨⟨BINFILE ++ (rs.map encodeRecord).flatten, 8, true⟩, 0⟩).1 := hx
  by_cases hn : n ≤ rs.length
  · have := nextMany_mem_of_le _ _ n rs.length _ hn x hx
    rw [i1] at this
    exact hout x this
  · obtain ⟨c, hc⟩ := Nat.exists_eq_add_of_le (Nat.le_of_lt (Nat.lt_of_not_le hn))
    rw [hc, nextMany_add, i1] at hx
    simp only [nextMany_at_end _ _ c tn i5, List.append_nil] at hx
    exact hout x hx

/-- C6, dependency gating, for traces whose records depend on smaller ids
only. On an encoded trace of fewer than `2^64` bytes with ids `0, 1, ...` in
which every dependency id is smaller than the id of its record: in every state
reached by any number of ticks under any admission answers, a pending request
with a dependency id that is the id of a pending request has
`min_issue_cycle = -1`. -/
theorem dependency_gating_backward (rs : List TraceRecord) (magic0 cpu mr : Nat)
    (mem : Admission) (u : Uninit) (n : Nat) (s0 s : RamSimCPU)
    (hid : rs.map TraceRecord.id = List.range rs.length) (hwf : ∀ r ∈ rs, r.WF)
    (hback : ∀ r ∈ rs, ∀ d ∈ r.dependency_ids, d < r.id)
    (hlen : (encodeTrace rs).length < 2 ^ 64)
    (h0 : RamSimCPU.new (encodeTrace rs) magic0 cpu mr = .ok s0)
    (hrun : RamSimCPU.run mem u n s0 = .ok s) :
    ∀ r ∈ s.pendReq, ∀ d ∈ r.deps, (∃ q ∈ s.pendReq, q.id = d) → r.min_issue_cycle = -1 := by
  obtain ⟨t, ht, hs0⟩ := new_driver_ok (encodeTrace rs) magic0 cpu mr s0 h0
  have ht2 : TraceInputStream.new (encodeTrace rs) magic0 =
      .ok ⟨⟨encodeTrace rs, 8, true⟩, 0⟩ := new_of_magic _ magic0
  have hy : ReaderYields MemReq.Backward u s0.trace_file_ := by
    rw [ht2] at ht
    simp only [Except.ok.injEq] at ht
    subst hs0
    rw [← ht]
    exact readerYields_encodeTrace rs u _ hid hwf (fun m hm => hback _ hm)
  obtain ⟨_, hg⟩ := reachable_gated (encodeTrace rs) magic0 cpu mr mem u n s0 s hlen h0 hy hrun
  intro r hr d hd ⟨q, hq, hqd⟩
  by_contra hm
  have hs := (hg r hr).2 hm
  rw [depSolved_iff] at hs
  exact hs d hd q hq hqd

/-- The hypotheses of the amended C6 hold for the sample trace after one tick: request 1 waits for request 0. -/
theorem dependency_gating_backward_witness :
    sampleTrace.map TraceRecord.id = List.range sampleTrace.length ∧
    (∀ r ∈ sampleTrace, r.WF) ∧
    (∀ r ∈ sampleTrace, ∀ d ∈ r.dependency_ids, d < r.id) ∧
    (encodeTrace sampleTrace).length < 2 ^ 64 ∧
    RamSimCPU.new (encodeTrace sampleTrace) 0 1 1 = .ok sampleStart ∧
    RamSimCPU.run refuseAll ⟨zeroReq, 0⟩ 1 sampleStart = .ok sampleAfterTick ∧
    (⟨1, 8192, 1, 0, 130, [0], [0, 1, 2], -1⟩ : MemReq).min_issue_cycle = -1 :=
  ⟨by decide, by simp [sampleTrace, TraceRecord.WF], by decide, by decide, by decide, by decide,
    dependency_gating_backward sampleTrace 0 1 1 refuseAll ⟨zeroReq, 0⟩ 1 sampleStart
      sampleAfterTick (by decide) (by simp [sampleTrace, TraceRecord.WF]) (by decide)
      (by decide) (by decide) (by decide) ⟨1, 8192, 1, 0, 130, [0], [0, 1, 2], -1⟩
      (by decide) 0 (by decide) ⟨⟨0, 4096, 0, 0, 64, [], [0], 0⟩, by decide, rfl⟩⟩

/-- C6 as stated fails when a record depends on a later one: on the trace
whose record 0 depends on record 1, after the first tick both requests are
pending and request 0 is resolved (`min_issue_cycle = 0`) although its
dependency 1 is pending. -/
theorem dependency_gating_forward_counterexample :
    ∃ s0 s, RamSimCPU.new (encodeTrace forwardTrace) 0 1 1 = .ok s0 ∧
      RamSimCPU.run refuseAll ⟨zeroReq, 0⟩ 1 s0 = .ok s ∧
      ∃ r ∈ s.pendReq, ∃ d ∈ r.deps, (∃ q ∈ s.pendReq, q.id = d) ∧ r.min_issue_cycle ≠ -1 :=
  ⟨⟨[], 0, ⟨⟨encodeTrace forwardTrace, 8, true⟩, 0⟩, 1, 1, [], false, false, []⟩,
    ⟨[Event.ClockTick, Event.WillAcceptTransaction 4096 false false,
        Event.WillAcceptTransaction 8192 true false], 1,
      ⟨⟨encodeTrace forwardTrace, 112, false⟩, 2⟩, 1, 1,
      [⟨0, 4096, 0, 0, 64, [1], [0], 0⟩, ⟨1, 8192, 1, 0, 130, [], [0, 1, 2], 0⟩],
      true, false, []⟩,
    by decide, by decide,
    ⟨0, 4096, 0, 0, 64, [1], [0], 0⟩, by decide, 1, by decide,
    ⟨⟨1, 8192, 1, 0, 130, [], [0, 1, 2], 0⟩, by decide, rfl⟩, by decide⟩

/-! ## Submitted fragments -/

theorem submittedFor_append (a b : List (Nat × Nat × Bool)) (id : Nat) :
    submittedFor (a ++ b) id = submittedFor a id ++ submittedFor b id := by
  simp [submittedFor]

theorem submittedFor_tags_same (x : MemReq) (l : List Nat) :
    submittedFor (l.map fun o => (x.id, fragAddr x o, isWrite x)) x.id =
      l.map fun o => (fragAddr x o, isWrite x) := by
  induction l with
  | nil => rfl
  | cons o l ih =>
    simp only [submittedFor, List.map_cons, List.filter_cons, decide_True, if_true] at ih ⊢
    rw [ih]

theorem submittedFor_tags_other (x : MemReq) (l : List Nat) (id : Nat) (h : x.id ≠ id) :
    submittedFor (l.map fun o => (x.id, fragAddr x o, isWrite x)) id = [] := by
  induction l with
  | nil => rfl
  | cons o l ih =>
    simp only [submittedFor, List.map_cons, List.filter_cons, h, decide_False,
      Bool.false_eq_true, if_false] at ih ⊢
    exact ih

theorem submittedFor_nil_of_lt (sub : List (Nat × Nat × Bool)) (b id : Nat)
    (h : ∀ e ∈ sub, e.1 < b) (hb : b ≤ id) : submittedFor sub id = [] := by
  simp only [submittedFor, List.map_eq_nil_iff, List.filter_eq_nil_iff, decide_eq_true_eq]
  intro e he heq
  have := h e he
  omega

theorem fragments_congr (m q : MemReq) (k : Nat) (ha : q.addr = m.addr) (ht : q.type = m.type) :
    fragments q k = fragments m k := by
  simp [fragments, fragAddr, isWrite, ha, ht]

theorem fragments_add (m : MemReq) (k j : Nat) :
    fragments m (k + j) = fragments m k ++ (List.range' k j).map fun i => (fragAddr m i, isWrite m) := by
  simp only [fragments, List.range_eq_range']
  rw [← List.map_append]
  congr 1
  have := List.range'_append_1 0 k j
  rw [Nat.zero_add, Nat.add_comm j k] at this
  exact this.symm

theorem range'_split (k n j : Nat) (h : j ≤ n) :
    List.range' k n = List.range' k j ++ List.range' (k + j) (n - j) := by
  rw [List.range'_append_1]
  congr 1
  omega

theorem take_range' (k n j : Nat) (h : j ≤ n) : (List.range' k n).take j = List.range' k j := by
  rw [range'_split k n j h]
  exact List.take_left' (List.length_range' _ _ _)

theorem drop_range' (k n j : Nat) : (List.range' k n).drop j = List.range' (k + j) (n - j) := by
  by_cases h : j ≤ n
  · rw [range'_split k n j h]
    have hl : (List.range' k j).length = j := List.length_range' _ _ _
    rw [List.drop_left' hl]
  · have h0 : n - j = 0 := by omega
    rw [h0, List.range'_zero]
    exact List.drop_of_length_le (by rw [List.length_range']; omega)

theorem addsOf_append (a b : List Event) : addsOf (a ++ b) = addsOf a ++ addsOf b := by
  induction a with
  | nil => rfl
  | cons e a ih => cases e <;> simp [addsOf, ih]

theorem addsOf_fragmentCalls (x : MemReq) (k : Nat) :
    addsOf (fragmentCalls x k) = (x.ids.take k).map fun o => (fragAddr x o, isWrite x) := by
  unfold fragmentCalls
  rw [addsOf_append]
  have h1 : ∀ l : List Nat, addsOf ((l.map fun o =>
      [Event.WillAcceptTransaction (fragAddr x o) (isWrite x) true,
       Event.AddTransaction (fragAddr x o) (isWrite x)]).flatten) =
      l.map fun o => (fragAddr x o, isWrite x) := by
    intro l
    induction l with
    | nil => rfl
    | cons o l ih => simp [addsOf, ih]
  rw [h1]
  cases x.ids.drop k <;> simp [addsOf]

/-! ## Progress of a request through the loops -/

theorem fragments_zero (m : MemReq) : fragments m 0 = [] := rfl

theorem progress_push_old (pend : List MemReq) (sub : List (Nat × Nat × Bool)) (m x : MemReq)
    (h : Progress pend sub m) (hne : x.id ≠ m.id) : Progress (pend ++ [x]) sub m := by
  obtain ⟨k, h1, h2, h3, h4⟩ := h
  refine ⟨k, h1, h2, ?_, ?_⟩
  · intro q hq hid
    rcases List.mem_append.mp hq with hq | hq
    · exact h3 q hq hid
    · simp only [List.mem_singleton] at hq
      rw [hq] at hid; exact absurd hid hne
  · intro hall
    exact h4 (fun q hq => hall q (List.mem_append_left _ hq))

theorem progress_push_new (clk cpu mr e : Nat) (pend : List MemReq)
    (sub : List (Nat × Nat × Bool)) (r : MemReq) (hp : PendingOk e pend)
    (hsub : ∀ a ∈ sub, a.1 < e) (hid : r.id = e)
    (hids : r.ids = List.range (chunkCount r.size)) :
    Progress (pend ++ [stamped clk cpu mr pend r]) sub r := by
  refine ⟨0, Nat.zero_le _, ?_, ?_, ?_⟩
  · rw [fragments_zero]
    exact submittedFor_nil_of_lt sub e r.id hsub (by omega)
  · intro q hq hqid
    rcases List.mem_append.mp hq with hq | hq
    · have := hp.2 q hq
      omega
    · simp only [List.mem_singleton] at hq
      subst hq
      simp [hids, List.range_eq_range']
  · intro hall
    exact absurd (stamped_id clk cpu mr pend r) (hall _ (by simp))

theorem progress_erase (clk cpu mr : Nat) (p done rest : List MemReq) (x : MemReq)
    (sub : List (Nat × Nat × Bool)) (m : MemReq) (hx : x.ids = [])
    (h : Progress (done ++ x :: rest) sub m) :
    Progress ((done ++ rest).map (resolve clk cpu mr p)) sub m := by
  obtain ⟨k, h1, h2, h3, h4⟩ := h
  have hmem : ∀ q ∈ done ++ rest, q ∈ done ++ x :: rest := by
    intro q hq
    rcases List.mem_append.mp hq with h | h
    · exact List.mem_append_left _ h
    · exact List.mem_append_right _ (List.mem_cons_of_mem _ h)
  refine ⟨k, h1, h2, ?_, ?_⟩
  · intro q hq hid
    obtain ⟨q0, hq0, rfl⟩ := List.mem_map.mp hq
    rw [resolve_id] at hid
    have := h3 q0 (hmem q0 hq0) hid
    simpa using this
  · intro hall
    by_cases hxm : x.id = m.id
    · obtain ⟨g1, _⟩ := h3 x (by simp) hxm
      rw [hx] at g1
      have := congrArg List.length g1
      simp only [List.length_nil, List.length_range'] at this
      omega
    · refine h4 (fun q hq => ?_)
      rcases List.mem_append.mp hq with h | h
      · have := hall (resolve clk cpu mr p q) (List.mem_map_of_mem _ (List.mem_append_left _ h))
        simpa using this
      · rcases List.mem_cons.mp h with h | h
        · rw [h]; exact hxm
        · have := hall (resolve clk cpu mr p q)
            (List.mem_map_of_mem _ (List.mem_append_right _ h))
          simpa using this

theorem progress_offer (e : Nat) (done rest : List MemReq) (x : MemReq)
    (sub : List (Nat × Nat × Bool)) (m : MemReq) (j : Nat) (hj : j ≤ x.ids.length)
    (hp : PendingOk e (done ++ x :: rest)) (h : Progress (done ++ x :: rest) sub m) :
    Progress (done ++ x.dropIds j :: rest)
      (sub ++ (x.ids.take j).map fun o => (x.id, fragAddr x o, isWrite x)) m := by
  obtain ⟨k, h1, h2, h3, h4⟩ := h
  have hp2 : PendingOk e (done ++ x.dropIds j :: rest) := hp.replace rfl
  by_cases hxm : x.id = m.id
  · obtain ⟨g1, g2, g3, g4⟩ := h3 x (by simp) hxm
    have hlen : x.ids.length = chunkCount m.size - k := by rw [g1, List.length_range']
    refine ⟨k + j, by omega, ?_, ?_, ?_⟩
    · rw [submittedFor_append, h2, ← hxm, submittedFor_tags_same, fragments_add, g1,
        take_range' _ _ _ (by omega)]
      congr 1
      simp [fragAddr, isWrite, g2, g3]
    · intro q hq hid
      have hq2 : q = x.dropIds j :=
        hp2.eq_of_id hq (by simp) (by rw [hid, dropIds_id, hxm])
      subst hq2
      refine ⟨?_, g2, g3, g4⟩
      rw [dropIds_ids, g1, drop_range']
      congr 1
      omega
    · intro hall
      exact absurd (by rw [dropIds_id, hxm]) (hall (x.dropIds j) (by simp))
  · have hmem : ∀ q ∈ done ++ x.dropIds j :: rest, q.id = m.id → q ∈ done ++ x :: rest := by
      intro q hq hid
      rcases List.mem_append.mp hq with h | h
      · exact List.mem_append_left _ h
      · rcases List.mem_cons.mp h with h | h
        · rw [h, dropIds_id] at hid; exact absurd hid hxm
        · exact List.mem_append_right _ (List.mem_cons_of_mem _ h)
    refine ⟨k, h1, ?_, ?_, ?_⟩
    · rw [submittedFor_append, submittedFor_tags_other x _ m.id hxm, List.append_nil, h2]
    · intro q hq hid
      exact h3 q (hmem q hq hid) hid
    · intro hall
      refine h4 (fun q hq => ?_)
      rcases List.mem_append.mp hq with h | h
      · exact hall q (List.mem_append_left _ h)
      · rcases List.mem_cons.mp h with h | h
        · rw [h]; exact hxm
        · exact hall q (List.mem_append_right _ (List.mem_cons_of_mem _ h))

theorem nextMany_step (record : MemReq) (dc c : Nat) (t0 t : TraceInputStream)
    (hist : List MemReq) (r : ParseResult)
    (h : nextMany record dc c t0 = (hist, some t)) (hn : t.next record dc = .ok r) :
    nextMany record dc (c + 1) t0 =
      (if r.good then hist ++ [r.record] else hist, some r.reader) := by
  rw [nextMany_add, h]
  by_cases hg : r.good = true <;> simp [nextMany, hn, hg]

/-- The records returned by a sequence of calls of `next` do not depend on
how many further calls follow. -/
theorem nextMany_getElem (record : MemReq) (dc c N j : Nat) (t0 t : TraceInputStream)
    (hist : List MemReq) (m : MemReq) (h : nextMany record dc c t0 = (hist, some t))
    (hm : (nextMany record dc N t0).1[j]? = some m) (hj : j < hist.length) :
    hist[j]? = some m := by
  by_cases hN : N ≤ c
  · obtain ⟨d, rfl⟩ := Nat.exists_eq_add_of_le hN
    rw [nextMany_add] at h
    cases h2 : (nextMany record dc N t0).2 with
    | none => simp [h2] at h
    | some tm =>
      simp only [h2, Prod.mk.injEq] at h
      rw [← h.1]
      have hlt : j < (nextMany record dc N t0).1.length := by
        by_contra hge
        rw [List.getElem?_eq_none (by omega)] at hm
        exact absurd hm (by simp)
      rw [List.getElem?_append_left hlt]
      exact hm
  · obtain ⟨d, hd⟩ := Nat.exists_eq_add_of_le (Nat.le_of_lt (Nat.lt_of_not_le hN))
    rw [hd, nextMany_add, h] at hm
    simp only at hm
    rw [List.getElem?_append_left hj] at hm
    exact hm

/-- The invariant behind C8: the reader state is the one after some number
of calls of `next`, every record returned so far has made the progress
described by `Progress`, nothing was submitted for a record not yet read, and
the ghost list agrees with the call history. -/
theorem reachable_progress (bytes : List Byte) (magic0 cpu mr : Nat) (mem : Admission)
    (u : Uninit) (n : Nat) (s0 s : RamSimCPU) (hlen : bytes.length < 2 ^ 64)
    (h0 : RamSimCPU.new bytes magic0 cpu mr = .ok s0)
    (hrun : RamSimCPU.run mem u n s0 = .ok s) :
    ∃ c hist, nextMany u.record u.depCount c s0.trace_file_ = (hist, some s.trace_file_) ∧
      (∀ m ∈ hist, m.id < s.trace_file_.expectRecordId ∧ Progress s.pendReq s.submitted m) ∧
      (∀ a ∈ s.submitted, a.1 < s.trace_file_.expectRecordId) ∧
      addsOf s.memory_system_ = s.submitted.map (fun a => a.2) := by
  have hreach : ∀ m sm, RamSimCPU.run mem u m s0 = .ok sm →
      ReaderOk sm.trace_file_ ∧ PendingOk sm.trace_file_.expectRecordId sm.pendReq :=
    fun m sm hm => reachable_pendingOk bytes magic0 cpu mr mem u m s0 sm hlen h0 hm
  obtain ⟨t, ht, hs0⟩ := new_driver_ok bytes magic0 cpu mr s0 h0
  induction n generalizing s with
  | zero =>
    simp only [RamSimCPU.run, Except.ok.injEq] at hrun
    subst hrun
    refine ⟨0, [], rfl, ?_, ?_, ?_⟩
    · intro m hm; simp at hm
    · subst hs0; intro a ha; simp at ha
    · subst hs0; rfl
  | succ n ih =>
    simp only [RamSimCPU.run] at hrun
    cases hr : RamSimCPU.run mem u n s0 with
    | error e => simp [hr] at hrun
    | ok sp =>
      simp only [hr] at hrun
      obtain ⟨c, hist, i1, i2, i3, i4⟩ := ih sp hr
      obtain ⟨p1, p2⟩ := hreach n sp hr
      obtain ⟨t1, pend, atr, hre, hs1⟩ := ClockTick_ok mem u sp s hrun
      obtain ⟨⟨c1, hist1, q1, q2, q3⟩, _, q5⟩ := refillLoop_induction_ok u sp.clk_
        sp.cpu_clock_ratio_ sp.mem_clock_ratio_
        (fun t pend _ => ∃ c hist,
          nextMany u.record u.depCount c s0.trace_file_ = (hist, some t) ∧
          (∀ m ∈ hist, m.id < t.expectRecordId ∧ Progress pend sp.submitted m) ∧
          (∀ a ∈ sp.submitted, a.1 < t.expectRecordId))
        (fun t pend atr r ⟨c, hist, a1, a2, a3⟩ _ hp hn hg hid hex hids => by
          refine ⟨c + 1, hist ++ [r.record], ?_, ?_, ?_⟩
          · rw [nextMany_step _ _ c _ t hist r a1 hn, hg]; rfl
          · intro m hm
            rcases List.mem_append.mp hm with hm | hm
            · obtain ⟨b1, b2⟩ := a2 m hm
              refine ⟨by omega, progress_push_old _ _ _ _ b2 ?_⟩
              rw [stamped_id]; omega
            · simp only [List.mem_singleton] at hm
              subst hm
              exact ⟨by omega, progress_push_new _ _ _ _ _ _ _ hp a3 hid hids⟩
          · intro a ha
            have := a3 a ha
            omega)
        (fun t pend atr r ⟨c, hist, a1, a2, a3⟩ hn hg hex => by
          refine ⟨c + 1, hist, ?_, ?_, ?_⟩
          · rw [nextMany_step _ _ c _ t hist r a1 hn, hg]; rfl
          · rw [hex]; exact a2
          · rw [hex]; exact a3)
        _ _ _ _ _ _ _ hre p1 p2 ⟨c, hist, i1, i2, i3⟩
      have hscan := scanLoop_induction_ok mem sp.clk_ sp.cpu_clock_ratio_ sp.mem_clock_ratio_
        t1.expectRecordId
        (fun pend log sub =>
          (∀ m ∈ hist1, m.id < t1.expectRecordId ∧ Progress pend sub m) ∧
          (∀ a ∈ sub, a.1 < t1.expectRecordId) ∧ addsOf log = sub.map (fun a => a.2))
        (fun done x rest log sub ⟨a1, a2, a3⟩ _ hx =>
          ⟨fun m hm => ⟨(a1 m hm).1, progress_erase _ _ _ _ done rest x sub m hx (a1 m hm).2⟩,
            a2, a3⟩)
        (fun done x rest log sub k ⟨a1, a2, a3⟩ hp _ _ _ hk => by
          refine ⟨fun m hm => ⟨(a1 m hm).1,
            progress_offer _ done rest x sub m k hk hp (a1 m hm).2⟩, ?_, ?_⟩
          · intro a ha
            rcases List.mem_append.mp ha with ha | ha
            · exact a2 a ha
            · obtain ⟨o, _, rfl⟩ := List.mem_map.mp ha
              exact hp.2 x (by simp)
          · rw [addsOf_append, addsOf_fragmentCalls, a3]
            simp [List.map_append, List.map_map, Function.comp_def])
        pend (sp.memory_system_ ++ [Event.ClockTick]) sp.submitted q5
        ⟨q2, q3, by rw [addsOf_append, i4]; simp [addsOf]⟩
      subst hs1
      exact ⟨c1, hist1, q1, hscan.1.1, hscan.1.2.1, hscan.1.2.2⟩

/-- The records read so far, as a list: its length is the expected id, the
record at index `j` has the id `j`, and each has made the progress described
by `Progress`. -/
theorem reachable_hist (bytes : List Byte) (magic0 cpu mr : Nat) (mem : Admission)
    (u : Uninit) (n : Nat) (s0 s : RamSimCPU) (hlen : bytes.length < 2 ^ 64)
    (h0 : RamSimCPU.new bytes magic0 cpu mr = .ok s0)
    (hrun : RamSimCPU.run mem u n s0 = .ok s) :
    ∃ c hist, nextMany u.record u.depCount c s0.trace_file_ = (hist, some s.trace_file_) ∧
      s.trace_file_.expectRecordId = hist.length ∧
      (∀ (N j : Nat) (m : MemReq),
        (nextMany u.record u.depCount N s0.trace_file_).1[j]? = some m → m.id = j) ∧
      (∀ m ∈ hist, Progress s.pendReq s.submitted m) ∧
      (∀ a ∈ s.submitted, a.1 < s.trace_file_.expectRecordId) ∧
      addsOf s.memory_system_ = s.submitted.map (fun a => a.2) := by
  obtain ⟨t, ht, hs0⟩ := new_driver_ok bytes magic0 cpu mr s0 h0
  obtain ⟨o1, o2, o3, _⟩ := new_ok bytes magic0 t ht
  have ht0 : s0.trace_file_ = t := by subst hs0; rfl
  have hinv := fun c => nextMany_inv u.record u.depCount c s0.trace_file_
    (by rw [ht0, o1]; exact Nat.zero_le _) (by rw [ht0, o2]; exact o3)
    (by rw [ht0, o2]; exact hlen)
  obtain ⟨c, hist, i1, i2, i3, i4⟩ :=
    reachable_progress bytes magic0 cpu mr mem u n s0 s hlen h0 hrun
  refine ⟨c, hist, i1, ?_, ?_, fun m hm => (i2 m hm).2, i3, i4⟩
  · have := (hinv c).2 s.trace_file_ (by rw [i1])
    rw [i1, ht0, o1] at this
    simp only at this
    omega
  · intro N j m hm
    have := (hinv N).1 j m hm
    rw [ht0, o1] at this
    omega

/-- In every reachable state the offsets left in a pending request are
consecutive and ascending. -/
theorem reachable_ascending (bytes : List Byte) (magic0 cpu mr : Nat) (mem : Admission)
    (u : Uninit) (n : Nat) (s0 s : RamSimCPU) (hlen : bytes.length < 2 ^ 64)
    (h0 : RamSimCPU.new bytes magic0 cpu mr = .ok s0)
    (hrun : RamSimCPU.run mem u n s0 = .ok s) :
    ∀ q ∈ s.pendReq, ∃ j c, q.ids = List.range' j c := by
  intro q hq
  obtain ⟨c, hist, i1, i2, i3, i4, _, _⟩ :=
    reachable_hist bytes magic0 cpu mr mem u n s0 s hlen h0 hrun
  obtain ⟨_, p2⟩ := reachable_pendingOk bytes magic0 cpu mr mem u n s0 s hlen h0 hrun
  have hq1 := p2.2 q hq
  have hq2 : q.id < hist.length := by omega
  have hget : hist[q.id]? = some hist[q.id] := List.getElem?_eq_getElem hq2
  have hid : (hist[q.id]).id = q.id := i3 c q.id _ (by rw [i1]; exact hget)
  obtain ⟨k, _, _, e3, _⟩ := i4 _ (List.getElem?_mem hget)
  exact ⟨k, _, (e3 q hq hid.symm).1⟩

/-- C8, no fragment is lost, duplicated or reordered. Let `m` be the `j`-th
record the reader returns on the trace file (fewer than `2^64` bytes), and `s`
a state reached by any number of ticks under any admission answers. Then `m`
has the id `j`. If the driver has read it (`j` below the expected id), the
transactions submitted for it so far are exactly its first `k` fragments
`addr + 0*64, ..., addr + (k-1)*64` (64-bit arithmetic) in this order with
write flag `type != 0`, for some `k` up to its number `chunkCount m.size` of
fragments; a pending request with this id has exactly the offsets
`k, k+1, ...` left; and if no such request is pending, `k` is the number of
fragments. If the driver has not read it, nothing was submitted for it and it
is not pending. Every pending request is such a record, and the submissions
recorded are exactly the `AddTransaction` calls made, in order. The number of
fragments is `ceil(size / 64)` for every size up to `2^53`. -/
theorem fragments_in_order (bytes : List Byte) (magic0 cpu mr : Nat) (mem : Admission)
    (u : Uninit) (n : Nat) (s0 s : RamSimCPU) (N j : Nat) (m : MemReq)
    (hlen : bytes.length < 2 ^ 64)
    (h0 : RamSimCPU.new bytes magic0 cpu mr = .ok s0)
    (hrun : RamSimCPU.run mem u n s0 = .ok s)
    (hm : (nextMany u.record u.depCount N s0.trace_file_).1[j]? = some m) :
    m.id = j ∧
    (j < s.trace_file_.expectRecordId → Progress s.pendReq s.submitted m) ∧
    (s.trace_file_.expectRecordId ≤ j →
      submittedFor s.submitted j = [] ∧ ∀ q ∈ s.pendReq, q.id ≠ j) ∧
    (∀ q ∈ s.pendReq, ∃ N1 m1,
      (nextMany u.record u.depCount N1 s0.trace_file_).1[q.id]? = some m1 ∧
      q.id < s.trace_file_.expectRecordId) ∧
    addsOf s.memory_system_ = s.submitted.map (fun a => a.2) ∧
    (m.size ≤ 2 ^ 53 → chunkCount m.size = (m.size + 63) / 64) := by
  obtain ⟨c, hist, i1, i2, i3, i4, i5, i6⟩ :=
    reachable_hist bytes magic0 cpu mr mem u n s0 s hlen h0 hrun
  obtain ⟨_, p2⟩ := reachable_pendingOk bytes magic0 cpu mr mem u n s0 s hlen h0 hrun
  refine ⟨i3 N j m hm, ?_, ?_, ?_, i6, chunkCount_le m.size⟩
  · intro hj
    have hget := nextMany_getElem _ _ c N j _ _ hist m i1 hm (by omega)
    exact i4 m (List.getElem?_mem hget)
  · intro hj
    refine ⟨submittedFor_nil_of_lt _ _ _ i5 hj, fun q hq => ?_⟩
    have := p2.2 q hq
    omega
  · intro q hq
    have hq1 := p2.2 q hq
    have hq2 : q.id < hist.length := by omega
    refine ⟨c, hist[q.id], ?_, hq1⟩
    rw [i1]
    exact List.getElem?_eq_getElem hq2

/-- The hypotheses of C8 hold for the second record of the sample trace after one tick. -/
theorem fragments_in_order_witness :
    (encodeTrace sampleTrace).length < 2 ^ 64 ∧
    RamSimCPU.new (encodeTrace sampleTrace) 0 1 1 = .ok sampleStart ∧
    RamSimCPU.run refuseAll ⟨zeroReq, 0⟩ 1 sampleStart = .ok sampleAfterTick ∧
    (nextMany zeroReq 0 2 sampleStart.trace_file_).1[1]? =
      some ⟨1, 8192, 1, 0, 130, [0], [0, 1, 2], 0⟩ ∧
    (⟨1, 8192, 1, 0, 130, [0], [0, 1, 2], 0⟩ : MemReq).id = 1 :=
  ⟨by decide, by decide, by decide, by decide,
    (fragments_in_order (encodeTrace sampleTrace) 0 1 1 refuseAll ⟨zeroReq, 0⟩ 1 sampleStart
      sampleAfterTick 2 1 ⟨1, 8192, 1, 0, 130, [0], [0, 1, 2], 0⟩ (by decide) (by decide)
      (by decide) (by decide)).1⟩

/-! ## Fragment ordering within a tick -/

/-- The refill loop keeps what was pending, and what it appends has the
offsets `0, 1, ...`. -/
theorem refillLoop_keeps (u : Uninit) (clk cpu mr fuel : Nat) (t : TraceInputStream)
    (pend : List MemReq) (atr : Bool) (t1 : TraceInputStream) (pend1 : List MemReq)
    (atr1 : Bool) (h : refillLoop u clk cpu mr fuel t pend atr = .ok (t1, pend1, atr1))
    (hr : ReaderOk t) (hp : PendingOk t.expectRecordId pend)
    (hasc : ∀ q ∈ pend, ∃ j c, q.ids = List.range' j c) :
    (∀ q ∈ pend, q ∈ pend1) ∧ (∀ q ∈ pend1, ∃ j c, q.ids = List.range' j c) ∧
    PendingOk t1.expectRecordId pend1 := by
  obtain ⟨⟨q1, q2⟩, _, q3⟩ := refillLoop_induction_ok u clk cpu mr
    (fun _ p _ => (∀ q ∈ pend, q ∈ p) ∧ (∀ q ∈ p, ∃ j c, q.ids = List.range' j c))
    (fun t p atr r ⟨a1, a2⟩ _ _ _ _ _ _ hids => by
      refine ⟨fun q hq => List.mem_append_left _ (a1 q hq), fun q hq => ?_⟩
      rcases List.mem_append.mp hq with hq | hq
      · exact a2 q hq
      · simp only [List.mem_singleton] at hq
        subst hq
        exact ⟨0, _, by rw [stamped_ids, hids, List.range_eq_range']⟩)
    (fun _ _ _ _ a _ _ _ => a)
    fuel t pend atr t1 pend1 atr1 h hr hp ⟨fun q hq => hq, hasc⟩
  exact ⟨q1, q2, q3⟩

/-- The calls of a scan: one block of `fragmentCalls` per request that is
offered, in the order of the vector; every request that is due at the start
and has offsets left gets its block. -/
theorem scanLoop_blocks (mem : Admission) (clk cpu mr : Nat) (pend : List MemReq)
    (log : List Event) (sub : List (Nat × Nat × Bool))
    (hasc : ∀ q ∈ pend, ∃ j c, q.ids = List.range' j c) :
    ∃ blocks : List (MemReq × Nat),
      (scanLoop mem clk cpu mr pend.length [] pend log sub).2.1 =
        log ++ (blocks.map fun b => fragmentCalls b.1 b.2).flatten ∧
      (∀ b ∈ blocks, b.1.ids ≠ [] ∧ 0 ≤ b.1.min_issue_cycle ∧
        b.1.min_issue_cycle ≤ (clk : Int) ∧ b.2 ≤ b.1.ids.length ∧
        ∃ j c, b.1.ids = List.range' j c) ∧
      (blocks.map fun b => b.1.dropIds b.2).Sublist
        (scanLoop mem clk cpu mr pend.length [] pend log sub).1 ∧
      (∀ r ∈ pend, r.ids ≠ [] → 0 ≤ r.min_issue_cycle → r.min_issue_cycle ≤ (clk : Int) →
        ∃ b ∈ blocks, b.1 = r) := by
  have key := scanLoop_induction mem clk cpu mr
    (fun done todo lg _ => ∃ blocks : List (MemReq × Nat),
      lg = log ++ (blocks.map fun b => fragmentCalls b.1 b.2).flatten ∧
      (∀ b ∈ blocks, b.1.ids ≠ [] ∧ 0 ≤ b.1.min_issue_cycle ∧
        b.1.min_issue_cycle ≤ (clk : Int) ∧ b.2 ≤ b.1.ids.length ∧
        ∃ j c, b.1.ids = List.range' j c) ∧
      (blocks.map fun b => b.1.dropIds b.2).Sublist done ∧
      (∀ r ∈ pend, r.ids ≠ [] → 0 ≤ r.min_issue_cycle → r.min_issue_cycle ≤ (clk : Int) →
        r ∈ todo ∨ ∃ b ∈ blocks, b.1 = r) ∧
      (∀ q ∈ todo, ∃ j c, q.ids = List.range' j c))
    ?_ ?_ ?_ pend.length [] pend log sub (Nat.le_refl _)
    ⟨[], by simp, by simp, by simp, fun r hr _ _ _ => Or.inl hr, hasc⟩
  · obtain ⟨blocks, k1, k2, k3, k4, _⟩ := key
    refine ⟨blocks, k1, k2, k3, fun r hr h1 h2 h3 => ?_⟩
    rcases k4 r hr h1 h2 h3 with h | h
    · simp at h
    · exact h
  · intro done x rest lg sb ⟨blocks, k1, k2, k3, k4, k5⟩ hx
    refine ⟨blocks, k1, k2, ?_, ?_, ?_⟩
    · have hfix : (blocks.map fun b => b.1.dropIds b.2).map
          (resolve clk cpu mr (done ++ rest)) = blocks.map fun b => b.1.dropIds b.2 := by
        rw [List.map_map]
        refine List.map_congr_left (fun b hb => ?_)
        simp only [Function.comp_apply]
        refine resolve_of_resolved _ _ _ _ _ ?_
        have := (k2 b hb).2.1
        rw [dropIds_min]; omega
      rw [← hfix]
      exact k3.map _
    · intro r hr h1 h2 h3
      rcases k4 r hr h1 h2 h3 with h | h
      · rcases List.mem_cons.mp h with h | h
        · rw [h] at h1; exact absurd hx h1
        · left
          refine List.mem_map.mpr ⟨r, h, resolve_of_resolved _ _ _ _ _ (by omega)⟩
      · exact Or.inr h
    · intro q hq
      obtain ⟨q0, hq0, rfl⟩ := List.mem_map.mp hq
      rw [resolve_ids]
      exact k5 q0 (List.mem_cons_of_mem _ hq0)
  · intro done x rest lg sb k ⟨blocks, k1, k2, k3, k4, k5⟩ hx h0 h1 hk
    refine ⟨blocks ++ [(x, k)], ?_, ?_, ?_, ?_, ?_⟩
    · rw [k1]; simp
    · intro b hb
      rcases List.mem_append.mp hb with hb | hb
      · exact k2 b hb
      · simp only [List.mem_singleton] at hb
        subst hb
        exact ⟨hx, h0, h1, hk, k5 x (by simp)⟩
    · simp only [List.map_append, List.map_cons, List.map_nil]
      exact List.Sublist.append k3 (List.Sublist.refl _)
    · intro r hr g1 g2 g3
      rcases k4 r hr g1 g2 g3 with h | h
      · rcases List.mem_cons.mp h with h | h
        · exact Or.inr ⟨(x, k), by simp, h.symm⟩
        · exact Or.inl h
      · obtain ⟨b, hb, hbr⟩ := h
        exact Or.inr ⟨b, List.mem_append_left _ hb, hbr⟩
    · intro q hq
      exact k5 q (List.mem_cons_of_mem _ hq)
  · intro done x rest lg sb ⟨blocks, k1, k2, k3, k4, k5⟩ hx hnot
    refine ⟨blocks, k1, k2, ?_, ?_, ?_⟩
    · exact k3.trans (List.sublist_append_left _ _)
    · intro r hr g1 g2 g3
      rcases k4 r hr g1 g2 g3 with h | h
      · rcases List.mem_cons.mp h with h | h
        · rw [h] at g2 g3; exact absurd ⟨g2, g3⟩ hnot
        · exact Or.inl h
      · exact Or.inr h
    · intro q hq
      exact k5 q (List.mem_cons_of_mem _ hq)

/-! ## The fuel of the loops is enough -/

/-- More fuel than the free places of the pending vector does not change the
result of the refill loop: it never stops for lack of fuel. -/
theorem refillLoop_fuel (u : Uninit) (clk cpu mr fuel : Nat) (t : TraceInputStream)
    (pend : List MemReq) (atr : Bool) (h : maxPendEntry - pend.length ≤ fuel) :
    refillLoop u clk cpu mr (fuel + 1) t pend atr = refillLoop u clk cpu mr fuel t pend atr := by
  induction fuel generalizing t pend atr with
  | zero =>
    have hl : ¬ pend.length < maxPendEntry := by omega
    simp [refillLoop, hl]
  | succ fuel ih =>
    rw [refillLoop, refillLoop]
    by_cases hl : pend.length < maxPendEntry
    · simp only [hl, if_true]
      cases hn : t.next u.record u.depCount with
      | error e => rfl
      | ok r =>
        simp only
        by_cases hg : r.good = true
        · simp only [hg, if_true]
          exact ih _ _ _ (by simp only [List.length_append, List.length_singleton]; omega)
        · simp only [hg, Bool.false_eq_true, if_false]
    · simp only [hl, if_false]

/-- More fuel than the part of the vector still to visit does not change the
result of the scan loop. -/
theorem scanLoop_fuel (mem : Admission) (clk cpu mr fuel : Nat) (done todo : List MemReq)
    (log : List Event) (sub : List (Nat × Nat × Bool)) (h : todo.length ≤ fuel) :
    scanLoop mem clk cpu mr (fuel + 1) done todo log sub =
      scanLoop mem clk cpu mr fuel done todo log sub := by
  induction fuel generalizing done todo log sub with
  | zero =>
    have : todo = [] := List.length_eq_zero.mp (Nat.le_zero.mp h)
    subst this
    simp [scanLoop]
  | succ fuel ih =>
    cases todo with
    | nil => simp [scanLoop]
    | cons x rest =>
      have hr : rest.length ≤ fuel := by simpa using h
      rw [scanLoop, scanLoop]
      by_cases he : x.ids.isEmpty = true
      · simp only [he, if_true]
        exact ih _ _ _ _ (by simpa using hr)
      · simp only [he, Bool.false_eq_true, if_false]
        by_cases h0 : 0 ≤ x.min_issue_cycle
        · by_cases h1 : x.min_issue_cycle ≤ (clk : Int)
          · simp only [h0, h1, if_true]
            exact ih _ _ _ _ hr
          · simp only [h0, h1, if_true, if_false]
            exact ih _ _ _ _ hr
        · simp only [h0, if_false]
          exact ih _ _ _ _ hr

/-! ## The conversion between the clock domains -/

/-- C16: the conversion is not the exact rational ceiling. With delay 25,
CPU ratio 3 and memory ratio 15 the quotient `25 / 3` is rounded up to a
double, its product with 15 lies above 125, and the issue cycle at cycle 0
is 126 where the exact ceiling of `25 * 15 / 3` is 125. With delay
`2^53 + 1` and both ratios 1 the conversion of the delay to a double loses
the last bit and the issue cycle is `2^53`, one below the exact value. With
delay `2^63` and both ratios 1 the sum does not fit the signed 64-bit
`min_issue_cycle`, and the conversion leaves `-2^63`. -/
theorem issueCycle_not_exact_ceiling :
    issueCycle 0 25 3 15 = 126 ∧ exactIssueCycle 0 25 3 15 = 125 ∧
    issueCycle 0 (2 ^ 53 + 1) 1 1 = 2 ^ 53 ∧ exactIssueCycle 0 (2 ^ 53 + 1) 1 1 = 2 ^ 53 + 1 ∧
    issueCycle 0 (2 ^ 63) 1 1 = -(2 ^ 63) ∧ exactIssueCycle 0 (2 ^ 63) 1 1 = 2 ^ 63 := by
  decide

/-! ## The calls of one tick -/

theorem followsProtocol_append (p : Option Event) (a b : List Event)
    (ha : followsProtocol p a = true) (hb : ∀ q, followsProtocol q b = true) :
    followsProtocol p (a ++ b) = true := by
  induction a generalizing p with
  | nil => simpa using hb p
  | cons e a ih =>
    simp only [List.cons_append, followsProtocol, Bool.and_eq_true] at ha ⊢
    exact ⟨ha.1, ih _ ha.2⟩

theorem OfferCalls.nil : OfferCalls [] := ⟨by simp, fun _ => rfl⟩

theorem OfferCalls.append {a b : List Event} (ha : OfferCalls a) (hb : OfferCalls b) :
    OfferCalls (a ++ b) :=
  ⟨by simpa using ⟨ha.1, hb.1⟩, fun p => followsProtocol_append p a b (ha.2 p) hb.2⟩

theorem OfferCalls.query (a : Nat) (w ans : Bool) :
    OfferCalls [Event.WillAcceptTransaction a w ans] :=
  ⟨by simp, fun _ => by simp [followsProtocol, admitted]⟩

theorem OfferCalls.submit (a : Nat) (w : Bool) :
    OfferCalls [Event.WillAcceptTransaction a w true, Event.AddTransaction a w] :=
  ⟨by simp, fun _ => by simp [followsProtocol, admitted]⟩

theorem OfferCalls.flatten {ls : List (List Event)} (h : ∀ l ∈ ls, OfferCalls l) :
    OfferCalls ls.flatten := by
  induction ls with
  | nil => exact OfferCalls.nil
  | cons l ls ih =>
    rw [List.flatten_cons]
    exact (h l (by simp)).append (ih fun m hm => h m (by simp [hm]))

/-- The calls made for one request keep the protocol. -/
theorem offerCalls_fragmentCalls (r : MemReq) (k : Nat) : OfferCalls (fragmentCalls r k) := by
  unfold fragmentCalls
  refine OfferCalls.append (OfferCalls.flatten ?_) ?_
  · intro l hl
    obtain ⟨o, -, rfl⟩ := List.mem_map.mp hl
    exact OfferCalls.submit _ _
  · cases r.ids.drop k with
    | nil => exact OfferCalls.nil
    | cons o _ => exact OfferCalls.query _ _ _

/-- With the `ClockTick` in front, the calls of a tick keep the protocol. -/
theorem offerCalls_protocol {calls : List Event} (h : OfferCalls calls) :
    followsProtocol none (Event.ClockTick :: calls) = true := by
  simp [followsProtocol, admitted, h.2]

/-- A tick of `RandomCPU`, in terms of its candidate and the answer. -/
theorem RandomCPU.random_tick_eq (mem : Admission) (rng : Mt19937_64) (s : RandomCPU) :
    s.ClockTick mem rng =
      { memory_system_ := s.memory_system_ ++ Event.ClockTick ::
          Event.WillAcceptTransaction (s.candidate rng).1 (s.candidate rng).2 (s.answer mem rng) ::
          (if s.answer mem rng then
            [Event.AddTransaction (s.candidate rng).1 (s.candidate rng).2] else []),
        clk_ := (s.clk_ + 1) % 2 ^ 64,
        last_addr_ := (s.candidate rng).1,
        last_write_ := (s.candidate rng).2,
        gen := if s.get_next_ then s.gen + 2 else s.gen,
        get_next_ := s.answer mem rng } := by
  unfold RandomCPU.ClockTick RandomCPU.answer RandomCPU.candidate
  cases hg : s.get_next_ <;> simp only [hg, if_true, Bool.false_eq_true, if_false] <;>
    split <;> simp

/-- The calls of a tick of `RandomCPU`. -/
theorem RandomCPU.random_tick_calls (mem : Admission) (rng : Mt19937_64) (s : RandomCPU) :
    ∃ calls, (s.ClockTick mem rng).memory_system_ = s.memory_system_ ++ Event.ClockTick :: calls ∧
      OfferCalls calls := by
  rw [RandomCPU.random_tick_eq]
  refine ⟨_, rfl, ?_⟩
  cases h : s.answer mem rng
  · exact OfferCalls.query _ _ _
  · exact OfferCalls.submit _ _

/-- The calls of the offer loop of `StreamCPU`. -/
theorem streamOfferLoop_calls (mem : Admission) (addrs : List Nat) (offset : Nat)
    (is : List Nat) (inserted : List Bool) (log : List Event) :
    ∃ calls, (streamOfferLoop mem addrs offset is inserted log).2 = log ++ calls ∧
      OfferCalls calls := by
  induction is generalizing inserted log with
  | nil => exact ⟨[], by simp [streamOfferLoop], OfferCalls.nil⟩
  | cons i rest ih =>
    unfold streamOfferLoop
    by_cases hi : inserted.getD i false = true
    · simp only [hi, if_true]
      exact ih _ _
    · simp only [hi, Bool.false_eq_true, if_false]
      split
      · obtain ⟨c, hc, hq⟩ := ih (inserted.set i true)
          (log ++ [Event.WillAcceptTransaction ((addrs.getD i 0 + offset) % 2 ^ 64)
              (decide (i % 3 = 2)) (mem log ((addrs.getD i 0 + offset) % 2 ^ 64)
              (decide (i % 3 = 2)))] ++
            [Event.AddTransaction ((addrs.getD i 0 + offset) % 2 ^ 64) (decide (i % 3 = 2))])
        rename_i hans
        refine ⟨_, ?_, (OfferCalls.submit ((addrs.getD i 0 + offset) % 2 ^ 64)
          (decide (i % 3 = 2))).append hq⟩
        rw [hc, hans]
        simp
      · obtain ⟨c, hc, hq⟩ := ih inserted
          (log ++ [Event.WillAcceptTransaction ((addrs.getD i 0 + offset) % 2 ^ 64)
              (decide (i % 3 = 2)) (mem log ((addrs.getD i 0 + offset) % 2 ^ 64)
              (decide (i % 3 = 2)))])
        refine ⟨_, ?_, (OfferCalls.query ((addrs.getD i 0 + offset) % 2 ^ 64)
          (decide (i % 3 = 2)) (mem log ((addrs.getD i 0 + offset) % 2 ^ 64)
              (decide (i % 3 = 2)))).append hq⟩
        rw [hc]
        simp

/-- The calls of a tick of `StreamCPU`. -/
theorem StreamCPU.stream_tick_calls (mem : Admission) (rng : Mt19937_64) (s : StreamCPU) :
    ∃ calls, (s.ClockTick mem rng).memory_system_ = s.memory_system_ ++ Event.ClockTick :: calls ∧
      OfferCalls calls := by
  simp only [StreamCPU.ClockTick]
  obtain ⟨c, hc, hq⟩ := streamOfferLoop_calls mem
    (if array_size_ ≤ s.offset_ ∨ s.clk_ = 0 then
      { s with
        addrs := (List.range num_stream).map fun i => draw rng (s.gen + i),
        gen := s.gen + num_stream,
        offset_ := 0 }
    else s).addrs
    (if array_size_ ≤ s.offset_ ∨ s.clk_ = 0 then
      { s with
        addrs := (List.range num_stream).map fun i => draw rng (s.gen + i),
        gen := s.gen + num_stream,
        offset_ := 0 }
    else s).offset_ (List.range num_stream)
    (if array_size_ ≤ s.offset_ ∨ s.clk_ = 0 then
      { s with
        addrs := (List.range num_stream).map fun i => draw rng (s.gen + i),
        gen := s.gen + num_stream,
        offset_ := 0 }
    else s).inserted (s.memory_system_ ++ [Event.ClockTick])
  exact ⟨c, by rw [hc]; simp, hq⟩

/-- The calls of the loop of `TraceBasedCPU`. -/
theorem traceLoop_calls (mem : Admission) (stale : Transaction → Transaction) (clk fuel : Nat)
    (f : TextStream) (trans_ : Transaction) (get_next : Bool) (log : List Event) :
    ∃ calls, (traceLoop mem stale clk fuel f trans_ get_next log).2.2.2 = log ++ calls ∧
      OfferCalls calls := by
  induction fuel generalizing f trans_ get_next log with
  | zero => exact ⟨[], by simp [traceLoop], OfferCalls.nil⟩
  | succ fuel ih =>
    unfold traceLoop
    by_cases he : f.eofbit = true
    · simp only [he, if_true]
      exact ⟨[], by simp, OfferCalls.nil⟩
    · simp only [he, Bool.false_eq_true, if_false]
      generalize (if get_next = true then f.extract stale trans_ else (f, trans_)) = r
      by_cases hd : r.2.added_cycle ≤ clk
      · simp only [hd, if_true]
        by_cases ha : mem log r.2.addr r.2.is_write = true
        · simp only [ha, if_true]
          obtain ⟨c, hc, hq⟩ := ih r.1 r.2 true
            (log ++ [Event.WillAcceptTransaction r.2.addr r.2.is_write true] ++
              [Event.AddTransaction r.2.addr r.2.is_write])
          refine ⟨_, ?_, (OfferCalls.submit r.2.addr r.2.is_write).append hq⟩
          rw [hc]
          simp
        · simp only [ha, Bool.false_eq_true, if_false]
          exact ⟨_, rfl, OfferCalls.query _ _ _⟩
      · simp only [hd, if_false]
        exact ⟨[], by simp, OfferCalls.nil⟩

/-- The calls of a tick of `TraceBasedCPU`. -/
theorem TraceBasedCPU.trace_tick_calls (mem : Admission) (stale : Transaction → Transaction)
    (s : TraceBasedCPU) :
    ∃ calls, (s.ClockTick mem stale).memory_system_ =
        s.memory_system_ ++ Event.ClockTick :: calls ∧ OfferCalls calls := by
  simp only [TraceBasedCPU.ClockTick]
  obtain ⟨c, hc, hq⟩ := traceLoop_calls mem stale s.clk_ (s.trace_file_.lines.length + 2)
    s.trace_file_ s.trans_ s.get_next_ (s.memory_system_ ++ [Event.ClockTick])
  exact ⟨c, by rw [hc]; simp, hq⟩

/-- The calls of a tick of `RamSimCPU` that returns. -/
theorem RamSimCPU.ramsim_tick_calls (mem : Admission) (u : Uninit) (s s1 : RamSimCPU)
    (h : s.ClockTick mem u = .ok s1) :
    ∃ calls, s1.memory_system_ = s.memory_system_ ++ Event.ClockTick :: calls ∧
      OfferCalls calls := by
  obtain ⟨t, pend, atr, -, rfl⟩ := ClockTick_ok mem u s s1 h
  have := scanLoop_induction mem s.clk_ s.cpu_clock_ratio_ s.mem_clock_ratio_
    (fun _ _ log _ => ∃ calls, log = s.memory_system_ ++ Event.ClockTick :: calls ∧
      OfferCalls calls)
    (fun _ _ _ _ _ hR _ => hR)
    (fun _ x _ _ _ k hR _ _ _ _ => by
      obtain ⟨c, rfl, hq⟩ := hR
      exact ⟨c ++ fragmentCalls x k, by simp, hq.append (offerCalls_fragmentCalls x k)⟩)
    (fun _ _ _ _ _ hR _ _ => hR)
    pend.length [] pend (s.memory_system_ ++ [Event.ClockTick]) s.submitted (Nat.le_refl _)
    ⟨[], by simp, OfferCalls.nil⟩
  exact this

/-! ## Claims about all four drivers -/

/-- C12: the admission protocol. In every tick of each of the four drivers,
from every state and for every memory system, the calls the tick adds to the
history keep the protocol: every `AddTransaction(a, w)` comes directly after
a `WillAcceptTransaction(a, w)` of the same tick that was answered true. -/
theorem admission_protocol (mem : Admission) :
    (∀ (rng : Mt19937_64) (s : RandomCPU), ∃ calls,
      (s.ClockTick mem rng).memory_system_ = s.memory_system_ ++ calls ∧
      followsProtocol none calls = true) ∧
    (∀ (rng : Mt19937_64) (s : StreamCPU), ∃ calls,
      (s.ClockTick mem rng).memory_system_ = s.memory_system_ ++ calls ∧
      followsProtocol none calls = true) ∧
    (∀ (stale : Transaction → Transaction) (s : TraceBasedCPU), ∃ calls,
      (s.ClockTick mem stale).memory_system_ = s.memory_system_ ++ calls ∧
      followsProtocol none calls = true) ∧
    (∀ (u : Uninit) (s s1 : RamSimCPU), s.ClockTick mem u = .ok s1 → ∃ calls,
      s1.memory_system_ = s.memory_system_ ++ calls ∧ followsProtocol none calls = true) := by
  refine ⟨fun rng s => ?_, fun rng s => ?_, fun stale s => ?_, fun u s s1 h => ?_⟩
  · obtain ⟨c, hc, hq⟩ := RandomCPU.random_tick_calls mem rng s
    exact ⟨_, hc, offerCalls_protocol hq⟩
  · obtain ⟨c, hc, hq⟩ := StreamCPU.stream_tick_calls mem rng s
    exact ⟨_, hc, offerCalls_protocol hq⟩
  · obtain ⟨c, hc, hq⟩ := TraceBasedCPU.trace_tick_calls mem stale s
    exact ⟨_, hc, offerCalls_protocol hq⟩
  · obtain ⟨c, hc, hq⟩ := RamSimCPU.ramsim_tick_calls mem u s s1 h
    exact ⟨_, hc, offerCalls_protocol hq⟩

/-- The admission protocol in the first tick of the binary trace driver on
the sample trace. -/
theorem admission_protocol_witness :
    sampleStart.ClockTick refuseAll ⟨zeroReq, 0⟩ = .ok sampleAfterTick ∧
    ∃ calls, sampleAfterTick.memory_system_ = sampleStart.memory_system_ ++ calls ∧
      followsProtocol none calls = true :=
  ⟨by decide, (admission_protocol refuseAll).2.2.2 ⟨zeroReq, 0⟩ sampleStart sampleAfterTick
    (by decide)⟩

theorem RandomCPU.random_run_clk (mem : Admission) (rng : Mt19937_64) (n : Nat) (s : RandomCPU) :
    (RandomCPU.run mem rng n s).clk_ % 2 ^ 64 = (s.clk_ + n) % 2 ^ 64 := by
  induction n with
  | zero => rfl
  | succ n ih =>
    simp only [RandomCPU.run, RandomCPU.random_tick_eq, Nat.mod_mod]
    omega

theorem StreamCPU.stream_tick_clk (mem : Admission) (rng : Mt19937_64) (s : StreamCPU) :
    (s.ClockTick mem rng).clk_ = (s.clk_ + 1) % 2 ^ 64 := rfl

theorem StreamCPU.stream_run_clk (mem : Admission) (rng : Mt19937_64) (n : Nat) (s : StreamCPU) :
    (StreamCPU.run mem rng n s).clk_ % 2 ^ 64 = (s.clk_ + n) % 2 ^ 64 := by
  induction n with
  | zero => rfl
  | succ n ih =>
    simp only [StreamCPU.run, StreamCPU.stream_tick_clk, Nat.mod_mod]
    omega

theorem TraceBasedCPU.trace_tick_clk (mem : Admission) (stale : Transaction → Transaction)
    (s : TraceBasedCPU) : (s.ClockTick mem stale).clk_ = (s.clk_ + 1) % 2 ^ 64 := rfl

theorem TraceBasedCPU.trace_run_clk (mem : Admission) (stale : Transaction → Transaction) (n : Nat)
    (s : TraceBasedCPU) :
    (TraceBasedCPU.run mem stale n s).clk_ % 2 ^ 64 = (s.clk_ + n) % 2 ^ 64 := by
  induction n with
  | zero => rfl
  | succ n ih =>
    simp only [TraceBasedCPU.run, TraceBasedCPU.trace_tick_clk, Nat.mod_mod]
    omega

theorem RamSimCPU.ramsim_tick_clk (mem : Admission) (u : Uninit) (s s1 : RamSimCPU)
    (h : s.ClockTick mem u = .ok s1) : s1.clk_ = (s.clk_ + 1) % 2 ^ 64 := by
  obtain ⟨t, pend, atr, -, rfl⟩ := ClockTick_ok mem u s s1 h
  rfl

theorem RamSimCPU.ramsim_run_clk (mem : Admission) (u : Uninit) (n : Nat) (s0 s : RamSimCPU)
    (h : RamSimCPU.run mem u n s0 = .ok s) : s.clk_ % 2 ^ 64 = (s0.clk_ + n) % 2 ^ 64 := by
  induction n generalizing s with
  | zero =>
    simp only [RamSimCPU.run, Except.ok.injEq] at h
    subst h; rfl
  | succ n ih =>
    simp only [RamSimCPU.run] at h
    cases hr : RamSimCPU.run mem u n s0 with
    | error e => simp [hr] at h
    | ok s1 =>
      simp only [hr] at h
      rw [RamSimCPU.ramsim_tick_clk mem u s1 s h, Nat.mod_mod]
      have := ih s1 hr
      omega

theorem RandomCPU.random_run_clk_new (mem : Admission) (rng : Mt19937_64) (a0 n : Nat) :
    (RandomCPU.run mem rng n (RandomCPU.new a0)).clk_ = n % 2 ^ 64 := by
  cases n with
  | zero => rfl
  | succ n =>
    have := RandomCPU.random_run_clk mem rng n (RandomCPU.new a0)
    simp only [RandomCPU.run, RandomCPU.random_tick_eq]
    rw [show (RandomCPU.new a0).clk_ = 0 from rfl] at this
    omega

theorem StreamCPU.stream_run_clk_new (mem : Admission) (rng : Mt19937_64) (a0 a1 a2 n : Nat) :
    (StreamCPU.run mem rng n (StreamCPU.new a0 a1 a2)).clk_ = n % 2 ^ 64 := by
  cases n with
  | zero => rfl
  | succ n =>
    have := StreamCPU.stream_run_clk mem rng n (StreamCPU.new a0 a1 a2)
    simp only [StreamCPU.run, StreamCPU.stream_tick_clk]
    rw [show (StreamCPU.new a0 a1 a2).clk_ = 0 from rfl] at this
    omega

theorem TraceBasedCPU.trace_run_clk_new (mem : Admission) (stale : Transaction → Transaction)
    (lines : List Transaction) (trailing : Bool) (trans0 : Transaction) (n : Nat) :
    (TraceBasedCPU.run mem stale n (TraceBasedCPU.new lines trailing trans0)).clk_ =
      n % 2 ^ 64 := by
  cases n with
  | zero => rfl
  | succ n =>
    have := TraceBasedCPU.trace_run_clk mem stale n (TraceBasedCPU.new lines trailing trans0)
    simp only [TraceBasedCPU.run, TraceBasedCPU.trace_tick_clk]
    rw [show (TraceBasedCPU.new lines trailing trans0).clk_ = 0 from rfl] at this
    omega

theorem RamSimCPU.ramsim_run_clk_new (mem : Admission) (u : Uninit) (bytes : List Byte)
    (magic0 cpu mr n : Nat) (s0 s : RamSimCPU) (h0 : RamSimCPU.new bytes magic0 cpu mr = .ok s0)
    (h : RamSimCPU.run mem u n s0 = .ok s) : s.clk_ = n % 2 ^ 64 := by
  have hc : s0.clk_ = 0 := by
    unfold RamSimCPU.new at h0
    cases hn : TraceInputStream.new bytes magic0 with
    | error e => simp [hn] at h0
    | ok t =>
      simp only [hn, Except.ok.injEq] at h0
      subst h0; rfl
  cases n with
  | zero =>
    simp only [RamSimCPU.run, Except.ok.injEq] at h
    subst h; simpa using hc
  | succ n =>
    simp only [RamSimCPU.run] at h
    cases hr : RamSimCPU.run mem u n s0 with
    | error e => simp [hr] at h
    | ok s1 =>
      simp only [hr] at h
      have := RamSimCPU.ramsim_run_clk mem u n s0 s1 hr
      rw [RamSimCPU.ramsim_tick_clk mem u s1 s h]
      omega

/-- C15: the shared tick contract, in 64-bit arithmetic. A tick of each of
the four drivers calls `ClockTick` of the memory system exactly once, before
every other call it makes to the memory system, and replaces `clk_` by
`clk_ + 1` modulo `2^64`; after `n` ticks from construction `clk_` is `n`
modulo `2^64`, which is `n` for every `n < 2^64`. -/
theorem tick_contract (mem : Admission) :
    (∀ (rng : Mt19937_64) (s : RandomCPU),
      (∃ calls, (s.ClockTick mem rng).memory_system_ =
          s.memory_system_ ++ Event.ClockTick :: calls ∧ Event.ClockTick ∉ calls) ∧
      (s.ClockTick mem rng).clk_ = (s.clk_ + 1) % 2 ^ 64) ∧
    (∀ (rng : Mt19937_64) (s : StreamCPU),
      (∃ calls, (s.ClockTick mem rng).memory_system_ =
          s.memory_system_ ++ Event.ClockTick :: calls ∧ Event.ClockTick ∉ calls) ∧
      (s.ClockTick mem rng).clk_ = (s.clk_ + 1) % 2 ^ 64) ∧
    (∀ (stale : Transaction → Transaction) (s : TraceBasedCPU),
      (∃ calls, (s.ClockTick mem stale).memory_system_ =
          s.memory_system_ ++ Event.ClockTick :: calls ∧ Event.ClockTick ∉ calls) ∧
      (s.ClockTick mem stale).clk_ = (s.clk_ + 1) % 2 ^ 64) ∧
    (∀ (u : Uninit) (s s1 : RamSimCPU), s.ClockTick mem u = .ok s1 →
      (∃ calls, s1.memory_system_ = s.memory_system_ ++ Event.ClockTick :: calls ∧
        Event.ClockTick ∉ calls) ∧
      s1.clk_ = (s.clk_ + 1) % 2 ^ 64) ∧
    (∀ (rng : Mt19937_64) (a0 n : Nat),
      (RandomCPU.run mem rng n (RandomCPU.new a0)).clk_ = n % 2 ^ 64) ∧
    (∀ (rng : Mt19937_64) (a0 a1 a2 n : Nat),
      (StreamCPU.run mem rng n (StreamCPU.new a0 a1 a2)).clk_ = n % 2 ^ 64) ∧
    (∀ (stale : Transaction → Transaction) (lines : List Transaction) (trailing : Bool)
      (trans0 : Transaction) (n : Nat),
      (TraceBasedCPU.run mem stale n (TraceBasedCPU.new lines trailing trans0)).clk_ =
        n % 2 ^ 64) ∧
    (∀ (u : Uninit) (bytes : List Byte) (magic0 cpu mr n : Nat) (s0 s : RamSimCPU),
      RamSimCPU.new bytes magic0 cpu mr = .ok s0 → RamSimCPU.run mem u n s0 = .ok s →
      s.clk_ = n % 2 ^ 64) := by
  refine ⟨fun rng s => ⟨?_, ?_⟩, fun rng s => ⟨?_, rfl⟩, fun stale s => ⟨?_, rfl⟩,
    fun u s s1 h => ⟨?_, RamSimCPU.ramsim_tick_clk mem u s s1 h⟩,
    RandomCPU.random_run_clk_new mem, StreamCPU.stream_run_clk_new mem, TraceBasedCPU.trace_run_clk_new mem,
    fun u bytes magic0 cpu mr n s0 s h0 h => RamSimCPU.ramsim_run_clk_new mem u bytes magic0 cpu mr n
      s0 s h0 h⟩
  · obtain ⟨c, hc, hq⟩ := RandomCPU.random_tick_calls mem rng s
    exact ⟨c, hc, hq.1⟩
  · rw [RandomCPU.random_tick_eq]
  · obtain ⟨c, hc, hq⟩ := StreamCPU.stream_tick_calls mem rng s
    exact ⟨c, hc, hq.1⟩
  · obtain ⟨c, hc, hq⟩ := TraceBasedCPU.trace_tick_calls mem stale s
    exact ⟨c, hc, hq.1⟩
  · obtain ⟨c, hc, hq⟩ := RamSimCPU.ramsim_tick_calls mem u s s1 h
    exact ⟨c, hc, hq.1⟩

/-- The tick contract in the first tick of the binary trace driver on the
sample trace. -/
theorem tick_contract_witness :
    sampleStart.ClockTick refuseAll ⟨zeroReq, 0⟩ = .ok sampleAfterTick ∧
    (∃ calls, sampleAfterTick.memory_system_ =
        sampleStart.memory_system_ ++ Event.ClockTick :: calls ∧ Event.ClockTick ∉ calls) ∧
    sampleAfterTick.clk_ = (sampleStart.clk_ + 1) % 2 ^ 64 :=
  ⟨by decide, (tick_contract refuseAll).2.2.2.1 ⟨zeroReq, 0⟩ sampleStart sampleAfterTick
    (by decide)⟩

/-- C15, as the claim words it: `clk_` does not always grow by 1. In a state
with `clk_ = 2^64 - 1` a tick of `RandomCPU` leaves `clk_ = 0`, and after
`2^64` ticks from construction `clk_` is 0, not `2^64`. -/
theorem tick_contract_wraps :
    (RandomCPU.ClockTick refuseAll (fun _ => 0)
      ⟨[], 2 ^ 64 - 1, 0, false, 0, false⟩).clk_ = 0 ∧
    (RandomCPU.run refuseAll (fun _ => 0) (2 ^ 64) (RandomCPU.new 0)).clk_ = 0 :=
  ⟨by decide, by rw [RandomCPU.random_run_clk_new]; decide⟩

/-! ## RandomCPU under backpressure -/

/-- After a refusal the driver holds the refused candidate and offers it in
the next tick. -/
theorem RandomCPU.candidate_tick (mem : Admission) (rng : Mt19937_64) (s : RandomCPU)
    (h : s.answer mem rng = false) :
    (s.ClockTick mem rng).candidate rng = s.candidate rng ∧
      (s.ClockTick mem rng).get_next_ = false := by
  rw [RandomCPU.random_tick_eq]
  simp [RandomCPU.candidate, h]

/-- The state after `n + 1` ticks in each of which the offer is refused. -/
theorem RandomCPU.run_rejected (mem : Admission) (rng : Mt19937_64) (s : RandomCPU) (n : Nat)
    (h : ∀ i < n + 1, (RandomCPU.run mem rng i s).answer mem rng = false) :
    (RandomCPU.run mem rng (n + 1) s).candidate rng = s.candidate rng ∧
    (RandomCPU.run mem rng (n + 1) s).get_next_ = false ∧
    (RandomCPU.run mem rng (n + 1) s).gen = (s.ClockTick mem rng).gen ∧
    (RandomCPU.run mem rng (n + 1) s).memory_system_ = s.memory_system_ ++
      (List.replicate (n + 1) [Event.ClockTick,
        Event.WillAcceptTransaction (s.candidate rng).1 (s.candidate rng).2 false]).flatten := by
  induction n with
  | zero =>
    have h0 : s.answer mem rng = false := h 0 (by omega)
    have hc := RandomCPU.candidate_tick mem rng s h0
    refine ⟨hc.1, hc.2, rfl, ?_⟩
    show (s.ClockTick mem rng).memory_system_ = _
    rw [RandomCPU.random_tick_eq]
    simp [h0]
  | succ n ih =>
    obtain ⟨h1, h2, h3, h4⟩ := ih fun i hi => h i (by omega)
    have hr : (RandomCPU.run mem rng (n + 1) s).answer mem rng = false := h (n + 1) (by omega)
    have hc := RandomCPU.candidate_tick mem rng _ hr
    have hrun : RandomCPU.run mem rng (n + 1 + 1) s =
        (RandomCPU.run mem rng (n + 1) s).ClockTick mem rng := rfl
    rw [hrun]
    refine ⟨hc.1.trans h1, hc.2, ?_, ?_⟩
    · rw [RandomCPU.random_tick_eq]
      simp only [h2, Bool.false_eq_true, if_false]
      exact h3
    · rw [RandomCPU.random_tick_eq]
      simp only [hr, h1, h4, Bool.false_eq_true, if_false]
      rw [List.replicate_succ' (n + 1), List.flatten_append]
      simp

/-- C13: no loss under backpressure. From every state, if the candidate of
`RandomCPU` is refused in `N ≥ 1` consecutive ticks, then after the first of
them no value is drawn from the generator up to and including the tick that
follows them; the pair offered in each of the `N` ticks and in the tick that
follows is the same; the `N` ticks make no call but the `ClockTick` and the
refused query; and the tick that follows makes the query for that pair and,
if it is accepted, submits that pair once. In general the generator is used
in a tick exactly if the tick before it ended with an acceptance, and a
refused candidate is kept. -/
theorem random_no_loss (mem : Admission) (rng : Mt19937_64) (s : RandomCPU) (N : Nat)
    (hN : 1 ≤ N) (hrej : ∀ i < N, (RandomCPU.run mem rng i s).answer mem rng = false) :
    (∀ i, 1 ≤ i → i ≤ N + 1 →
      (RandomCPU.run mem rng i s).gen = (RandomCPU.run mem rng 1 s).gen) ∧
    (∀ i ≤ N, (RandomCPU.run mem rng i s).candidate rng = s.candidate rng) ∧
    (RandomCPU.run mem rng N s).memory_system_ = s.memory_system_ ++
      (List.replicate N [Event.ClockTick,
        Event.WillAcceptTransaction (s.candidate rng).1 (s.candidate rng).2 false]).flatten ∧
    (RandomCPU.run mem rng (N + 1) s).memory_system_ =
      (RandomCPU.run mem rng N s).memory_system_ ++ Event.ClockTick ::
        Event.WillAcceptTransaction (s.candidate rng).1 (s.candidate rng).2
          ((RandomCPU.run mem rng N s).answer mem rng) ::
        (if (RandomCPU.run mem rng N s).answer mem rng then
          [Event.AddTransaction (s.candidate rng).1 (s.candidate rng).2] else []) ∧
    (∀ s1 : RandomCPU,
      ((s1.ClockTick mem rng).ClockTick mem rng).gen =
        (if s1.answer mem rng then (s1.ClockTick mem rng).gen + 2
          else (s1.ClockTick mem rng).gen) ∧
      (s1.answer mem rng = false →
        (s1.ClockTick mem rng).candidate rng = s1.candidate rng)) := by
  obtain ⟨n, rfl⟩ : ∃ n, N = n + 1 := ⟨N - 1, by omega⟩
  have hall : ∀ i, i < n + 1 →
      (RandomCPU.run mem rng (i + 1) s).candidate rng = s.candidate rng ∧
      (RandomCPU.run mem rng (i + 1) s).get_next_ = false ∧
      (RandomCPU.run mem rng (i + 1) s).gen = (s.ClockTick mem rng).gen :=
    fun i hi =>
      have := RandomCPU.run_rejected mem rng s i fun j hj => hrej j (by omega)
      ⟨this.1, this.2.1, this.2.2.1⟩
  have hlast := RandomCPU.run_rejected mem rng s n hrej
  have hnext : RandomCPU.run mem rng (n + 1 + 1) s =
      (RandomCPU.run mem rng (n + 1) s).ClockTick mem rng := rfl
  refine ⟨fun i h1 h2 => ?_, fun i hi => ?_, hlast.2.2.2, ?_, fun s1 => ⟨?_, fun h => ?_⟩⟩
  · by_cases hi : i ≤ n + 1
    · obtain ⟨j, rfl⟩ : ∃ j, i = j + 1 := ⟨i - 1, by omega⟩
      exact (hall j (by omega)).2.2
    · have : i = n + 1 + 1 := by omega
      subst this
      rw [hnext, RandomCPU.random_tick_eq]
      simp only [hlast.2.1, Bool.false_eq_true, if_false]
      exact hlast.2.2.1
  · cases i with
    | zero => rfl
    | succ j => exact (hall j (by omega)).1
  · rw [hnext, RandomCPU.random_tick_eq, hlast.1]
  · rw [RandomCPU.random_tick_eq mem rng (s1.ClockTick mem rng)]
    simp only [RandomCPU.random_tick_eq mem rng s1]
  · exact (RandomCPU.candidate_tick mem rng s1 h).1

/-- Two refusals of the first candidate of a driver whose memory system
refuses everything. -/
theorem random_no_loss_witness :
    (∀ i < 2, (RandomCPU.run refuseAll (fun n => n + 7) i (RandomCPU.new 0)).answer refuseAll
      (fun n => n + 7) = false) ∧
    (RandomCPU.run refuseAll (fun n => n + 7) 2 (RandomCPU.new 0)).memory_system_ =
      (RandomCPU.new 0).memory_system_ ++
      (List.replicate 2 [Event.ClockTick,
        Event.WillAcceptTransaction ((RandomCPU.new 0).candidate (fun n => n + 7)).1
          ((RandomCPU.new 0).candidate (fun n => n + 7)).2 false]).flatten :=
  ⟨by decide, (random_no_loss refuseAll (fun n => n + 7) (RandomCPU.new 0) 2 (by decide)
    (by decide)).2.2.1⟩

/-! ## StreamCPU -/

theorem StreamCPU.stream_tick_eq (mem : Admission) (rng : Mt19937_64) (s : StreamCPU) :
    s.ClockTick mem rng =
      { s.prepared rng with
        memory_system_ := (streamOfferLoop mem (s.prepared rng).addrs (s.prepared rng).offset_
          (List.range num_stream) (s.prepared rng).inserted
          (s.memory_system_ ++ [Event.ClockTick])).2,
        offset_ := if s.complete mem rng then ((s.prepared rng).offset_ + stride_) % 2 ^ 64
          else (s.prepared rng).offset_,
        inserted := if s.complete mem rng then List.replicate num_stream false
          else s.flags mem rng,
        clk_ := (s.clk_ + 1) % 2 ^ 64 } := rfl

theorem StreamCPU.prepared_inserted (rng : Mt19937_64) (s : StreamCPU) :
    (s.prepared rng).inserted = s.inserted := by
  unfold StreamCPU.prepared
  split <;> rfl

theorem StreamCPU.prepared_offset (rng : Mt19937_64) (s : StreamCPU) :
    (s.prepared rng).offset_ < array_size_ ∧
      ((s.prepared rng).offset_ = 0 ∨ (s.prepared rng).offset_ = s.offset_) := by
  unfold StreamCPU.prepared
  split
  · exact ⟨by show (0 : Nat) < array_size_; decide, Or.inl rfl⟩
  · rename_i h
    exact ⟨by omega, Or.inr rfl⟩

theorem getD_set_ne (l : List Bool) (i j : Nat) (a : Bool) (h : i ≠ j) :
    (l.set i a).getD j false = l.getD j false := by
  simp [List.getD_eq_getElem?_getD, List.getElem?_set_ne h]

theorem getD_set_eq (l : List Bool) (i : Nat) (a : Bool) (h : i < l.length) :
    (l.set i a).getD i false = a := by
  simp [List.getD_eq_getElem?_getD, List.getElem?_set_self, h]

theorem streamCalls_inserted (addrs : List Nat) (off : Nat) (ins fin : List Bool) (i : Nat)
    (h : ins.getD i false = true) : streamCalls addrs off ins fin i = [] := by
  unfold streamCalls
  rw [if_pos h]

theorem streamCalls_congr (addrs : List Nat) (off : Nat) (ins ins1 fin : List Bool) (i : Nat)
    (h : ins1.getD i false = ins.getD i false) :
    streamCalls addrs off ins1 fin i = streamCalls addrs off ins fin i := by
  unfold streamCalls
  rw [h]

theorem streamCalls_accepted (addrs : List Nat) (off : Nat) (ins fin : List Bool) (i : Nat)
    (h : ins.getD i false = false) (hf : fin.getD i false = true) :
    streamCalls addrs off ins fin i =
      [Event.WillAcceptTransaction ((addrs.getD i 0 + off) % 2 ^ 64) (decide (i % 3 = 2)) true,
       Event.AddTransaction ((addrs.getD i 0 + off) % 2 ^ 64) (decide (i % 3 = 2))] := by
  unfold streamCalls
  rw [h, hf]
  rfl

theorem streamCalls_refused (addrs : List Nat) (off : Nat) (ins fin : List Bool) (i : Nat)
    (h : ins.getD i false = false) (hf : fin.getD i false = false) :
    streamCalls addrs off ins fin i =
      [Event.WillAcceptTransaction ((addrs.getD i 0 + off) % 2 ^ 64) (decide (i % 3 = 2))
        false] := by
  unfold streamCalls
  rw [h, hf]
  rfl

/-- The offer loop of `StreamCPU` over distinct indices of the array: the
flags that were set stay set, the flags of the other indices are untouched,
and the calls are, index by index, the query for an array not yet inserted,
answered by what becomes its flag, and the submission if that is true. -/
theorem streamOfferLoop_spec (mem : Admission) (addrs : List Nat) (off : Nat) (is : List Nat)
    (ins : List Bool) (log : List Event) (hnd : is.Nodup) (hlt : ∀ i ∈ is, i < ins.length) :
    (streamOfferLoop mem addrs off is ins log).1.length = ins.length ∧
    (∀ i, i ∉ is → (streamOfferLoop mem addrs off is ins log).1.getD i false =
      ins.getD i false) ∧
    (∀ i, ins.getD i false = true →
      (streamOfferLoop mem addrs off is ins log).1.getD i false = true) ∧
    (streamOfferLoop mem addrs off is ins log).2 = log ++
      (is.map (streamCalls addrs off ins (streamOfferLoop mem addrs off is ins log).1)).flatten := by
  induction is generalizing ins log with
  | nil => simp [streamOfferLoop]
  | cons i rest ih =>
    have hi : i ∉ rest := (List.nodup_cons.mp hnd).1
    have hnd1 : rest.Nodup := (List.nodup_cons.mp hnd).2
    have hil : i < ins.length := hlt i (by simp)
    unfold streamOfferLoop
    by_cases hins : ins.getD i false = true
    · simp only [hins, if_true]
      obtain ⟨h1, h2, h3, h4⟩ := ih ins log hnd1 fun j hj => hlt j (by simp [hj])
      refine ⟨h1, fun j hj => h2 j (fun hm => hj (by simp [hm])), h3, ?_⟩
      rw [h4, List.map_cons, List.flatten_cons, streamCalls_inserted _ _ _ _ _ hins,
        List.nil_append]
    · simp only [hins, Bool.false_eq_true, if_false]
      have hins0 : ins.getD i false = false := by simpa using hins
      by_cases ha : mem log ((addrs.getD i 0 + off) % 2 ^ 64) (decide (i % 3 = 2)) = true
      · simp only [ha, if_true]
        obtain ⟨h1, h2, h3, h4⟩ := ih (ins.set i true)
          (log ++ [Event.WillAcceptTransaction ((addrs.getD i 0 + off) % 2 ^ 64)
            (decide (i % 3 = 2)) true] ++
            [Event.AddTransaction ((addrs.getD i 0 + off) % 2 ^ 64) (decide (i % 3 = 2))])
          hnd1 fun j hj => by simpa using hlt j (by simp [hj])
        generalize streamOfferLoop mem addrs off rest (ins.set i true)
          (log ++ [Event.WillAcceptTransaction ((addrs.getD i 0 + off) % 2 ^ 64)
            (decide (i % 3 = 2)) true] ++
            [Event.AddTransaction ((addrs.getD i 0 + off) % 2 ^ 64) (decide (i % 3 = 2))]) = r
          at h1 h2 h3 h4 ⊢
        have hfi := (h2 i hi).trans (getD_set_eq ins i true hil)
        refine ⟨by simpa using h1, fun j hj => ?_, fun j hj => ?_, ?_⟩
        · have hji : i ≠ j := fun h => hj (by simp [h])
          rw [h2 j (fun hm => hj (by simp [hm])), getD_set_ne ins i j true hji]
        · by_cases hji : i = j
          · subst hji; exact hfi
          · exact h3 j (by rw [getD_set_ne ins i j true hji]; exact hj)
        · have hm : rest.map (streamCalls addrs off (ins.set i true) r.1) =
              rest.map (streamCalls addrs off ins r.1) :=
            List.map_congr_left fun j hj =>
              streamCalls_congr _ _ _ _ _ _
                (getD_set_ne ins i j true (fun h => hi (h ▸ hj)))
          rw [h4, hm, List.map_cons, List.flatten_cons,
            streamCalls_accepted _ _ _ _ _ hins0 hfi]
          simp only [List.append_assoc, List.cons_append, List.nil_append]
      · simp only [ha, Bool.false_eq_true, if_false]
        have ha0 : mem log ((addrs.getD i 0 + off) % 2 ^ 64) (decide (i % 3 = 2)) = false := by
          simpa using ha
        obtain ⟨h1, h2, h3, h4⟩ := ih ins
          (log ++ [Event.WillAcceptTransaction ((addrs.getD i 0 + off) % 2 ^ 64)
            (decide (i % 3 = 2)) false])
          hnd1 fun j hj => hlt j (by simp [hj])
        generalize streamOfferLoop mem addrs off rest ins
          (log ++ [Event.WillAcceptTransaction ((addrs.getD i 0 + off) % 2 ^ 64)
            (decide (i % 3 = 2)) false]) = r at h1 h2 h3 h4 ⊢
        have hfi := (h2 i hi).trans hins0
        refine ⟨h1, fun j hj => h2 j (fun hm => hj (by simp [hm])), h3, ?_⟩
        rw [h4, List.map_cons, List.flatten_cons, streamCalls_refused _ _ _ _ _ hins0 hfi]
        simp only [List.append_assoc, List.cons_append, List.nil_append]

theorem StreamCPU.arrayCalls_eq (mem : Admission) (rng : Mt19937_64) (s : StreamCPU) (i : Nat)
    (hi : i < 3) :
    s.arrayCalls mem rng i = streamCalls (s.prepared rng).addrs (s.prepared rng).offset_
      s.inserted (s.flags mem rng) i := by
  have hw : decide (i % 3 = 2) = decide (i = 2) := by
    rw [Nat.mod_eq_of_lt hi]
  unfold StreamCPU.arrayCalls streamCalls StreamCPU.offerAddr
  rw [hw]

/-- The offer loop over the three arrays, array by array. -/
theorem StreamCPU.offers_eq (mem : Admission) (rng : Mt19937_64) (s : StreamCPU)
    (hi : s.inserted.length = num_stream) :
    (streamOfferLoop mem (s.prepared rng).addrs (s.prepared rng).offset_
      (List.range num_stream) (s.prepared rng).inserted
      (s.memory_system_ ++ [Event.ClockTick])).2 =
      s.memory_system_ ++ Event.ClockTick ::
        (s.arrayCalls mem rng 0 ++ s.arrayCalls mem rng 1 ++ s.arrayCalls mem rng 2) ∧
    (s.flags mem rng).length = num_stream ∧
    ∀ i, s.inserted.getD i false = true → (s.flags mem rng).getD i false = true := by
  have hr : List.range num_stream = [0, 1, 2] := by decide
  obtain ⟨h1, -, h3, h4⟩ := streamOfferLoop_spec mem (s.prepared rng).addrs
    (s.prepared rng).offset_ (List.range num_stream) (s.prepared rng).inserted
    (s.memory_system_ ++ [Event.ClockTick]) (List.nodup_range _)
    (fun i h => by
      rw [StreamCPU.prepared_inserted, hi]
      exact List.mem_range.mp h)
  have hp := StreamCPU.prepared_inserted rng s
  refine ⟨?_, by unfold StreamCPU.flags; rw [h1, hp, hi],
    fun i h => by unfold StreamCPU.flags; exact h3 i (by rw [hp]; exact h)⟩
  rw [h4, StreamCPU.arrayCalls_eq mem rng s 0 (by decide),
    StreamCPU.arrayCalls_eq mem rng s 1 (by decide),
    StreamCPU.arrayCalls_eq mem rng s 2 (by decide)]
  simp only [StreamCPU.flags, StreamCPU.prepared_inserted, hr, List.map_cons, List.map_nil,
    List.flatten_cons, List.flatten_nil, List.append_nil, List.append_assoc, List.cons_append,
    List.nil_append]

theorem StreamCPU.tick_inserted_length (mem : Admission) (rng : Mt19937_64) (s : StreamCPU)
    (hi : s.inserted.length = num_stream) :
    (s.ClockTick mem rng).inserted.length = num_stream := by
  rw [StreamCPU.stream_tick_eq]
  show (if s.complete mem rng then List.replicate num_stream false
    else s.flags mem rng).length = num_stream
  split
  · simp
  · exact (StreamCPU.offers_eq mem rng s hi).2.1

theorem StreamCPU.tick_offset (mem : Admission) (rng : Mt19937_64) (s : StreamCPU)
    (h : s.offset_ % 64 = 0) : (s.ClockTick mem rng).offset_ % 64 = 0 := by
  rw [StreamCPU.stream_tick_eq]
  show (if s.complete mem rng then ((s.prepared rng).offset_ + stride_) % 2 ^ 64
    else (s.prepared rng).offset_) % 64 = 0
  have hp := (StreamCPU.prepared_offset rng s).2
  have hs : stride_ = 64 := rfl
  split <;> omega

/-- From construction on, `inserted` has its three elements and the offset
is a multiple of 64. -/
theorem StreamCPU.run_inv (mem : Admission) (rng : Mt19937_64) (n : Nat) (s : StreamCPU)
    (hi : s.inserted.length = num_stream) (ho : s.offset_ % 64 = 0) :
    (StreamCPU.run mem rng n s).inserted.length = num_stream ∧
      (StreamCPU.run mem rng n s).offset_ % 64 = 0 := by
  induction n with
  | zero => exact ⟨hi, ho⟩
  | succ n ih =>
    exact ⟨StreamCPU.tick_inserted_length mem rng _ ih.1, StreamCPU.tick_offset mem rng _ ih.2⟩

/-- A sequence of flags that starts unset, ends set and never goes back is
set at exactly one step. -/
theorem flip_unique (b : Nat → Bool) (n : Nat) (h0 : b 0 = false) (hn : b (n + 1) = true)
    (hmono : ∀ j ≤ n, b j = true → b (j + 1) = true) :
    ∃! j, j ≤ n ∧ b j = false ∧ b (j + 1) = true := by
  have hex : ∀ m, m ≤ n → b (m + 1) = true → ∃ j, j ≤ m ∧ b j = false ∧ b (j + 1) = true := by
    intro m
    induction m with
    | zero => exact fun _ h => ⟨0, Nat.le_refl _, h0, h⟩
    | succ m ih =>
      intro hm h
      by_cases hb : b (m + 1) = true
      · obtain ⟨j, hj, h1, h2⟩ := ih (by omega) hb
        exact ⟨j, by omega, h1, h2⟩
      · exact ⟨m + 1, Nat.le_refl _, by simpa using hb, h⟩
  have hup : ∀ j k, j ≤ k → k ≤ n + 1 → b j = true → b k = true := by
    intro j k hjk
    induction k, hjk using Nat.le_induction with
    | base => exact fun _ h => h
    | succ k hk ih => exact fun hkn h => hmono k (by omega) (ih (by omega) h)
  obtain ⟨j, hj, h1, h2⟩ := hex n (Nat.le_refl _) hn
  refine ⟨j, ⟨hj, h1, h2⟩, fun k hk => ?_⟩
  obtain ⟨hkn, hk1, hk2⟩ := hk
  rcases Nat.lt_trichotomy k j with hlt | heq | hgt
  · have := hup (k + 1) j (by omega) (by omega) hk2
    rw [h1] at this
    exact absurd this (by simp)
  · exact heq
  · have := hup (j + 1) k (by omega) (by omega) h2
    rw [hk1] at this
    exact absurd this (by simp)

/-- In a round, the ticks from a state with no array inserted up to the
first tick at whose end all arrays are inserted, every array is submitted in
exactly one tick. -/
theorem StreamCPU.round (mem : Admission) (rng : Mt19937_64) (s0 : StreamCPU) (n : Nat)
    (h0 : s0.inserted = List.replicate num_stream false)
    (hopen : ∀ j < n, (StreamCPU.run mem rng j s0).complete mem rng = false)
    (hdone : (StreamCPU.run mem rng n s0).complete mem rng = true)
    (i : Nat) (hi : i < num_stream) :
    ∃! j, j ≤ n ∧ (StreamCPU.run mem rng j s0).submits mem rng i = true := by
  have hlen : ∀ j, j ≤ n → (StreamCPU.run mem rng j s0).inserted.length = num_stream := by
    intro j
    induction j with
    | zero => intro _; rw [StreamCPU.run, h0]; simp
    | succ j ih =>
      intro hj
      exact StreamCPU.tick_inserted_length mem rng _ (ih (by omega))
  have hstep : ∀ j, j < n → (StreamCPU.run mem rng (j + 1) s0).inserted =
      (StreamCPU.run mem rng j s0).flags mem rng := by
    intro j hj
    show ((StreamCPU.run mem rng j s0).ClockTick mem rng).inserted = _
    rw [StreamCPU.stream_tick_eq]
    show (if (StreamCPU.run mem rng j s0).complete mem rng then List.replicate num_stream false
      else (StreamCPU.run mem rng j s0).flags mem rng) = _
    rw [hopen j hj]
    rfl
  have hb0 : (StreamCPU.run mem rng 0 s0).inserted.getD i false = false := by
    rw [StreamCPU.run, h0]
    simp [List.getD_eq_getElem?_getD, List.getElem?_replicate, hi]
  have hfl : ∀ j, j ≤ n → 1 ≤ j → (StreamCPU.run mem rng j s0).inserted.getD i false =
      ((StreamCPU.run mem rng (j - 1) s0).flags mem rng).getD i false := by
    intro j hj h1
    obtain ⟨k, rfl⟩ : ∃ k, j = k + 1 := ⟨j - 1, by omega⟩
    rw [hstep k (by omega)]
    rfl
  have hall : ((StreamCPU.run mem rng n s0).flags mem rng).getD i false = true := by
    have := hdone
    unfold StreamCPU.complete at this
    rw [List.all_eq_true] at this
    exact this i (List.mem_range.mpr hi)
  have key := flip_unique
    (fun j => if j = 0 then false
      else ((StreamCPU.run mem rng (j - 1) s0).flags mem rng).getD i false) n
    (by simp) (by simpa using hall)
    (fun j hj hb => by
      have hj0 : j ≠ 0 := fun h => by simp [h] at hb
      simp only [hj0, if_false] at hb
      simp only [Nat.add_one_ne_zero, if_false, Nat.add_sub_cancel]
      rw [← hfl j hj (by omega)] at hb
      exact (StreamCPU.offers_eq mem rng _ (hlen j hj)).2.2 i hb)
  have hsub : ∀ j, j ≤ n → ((StreamCPU.run mem rng j s0).submits mem rng i = true ↔
      ((if j = 0 then false
        else ((StreamCPU.run mem rng (j - 1) s0).flags mem rng).getD i false) = false ∧
        (if j + 1 = 0 then false
        else ((StreamCPU.run mem rng (j + 1 - 1) s0).flags mem rng).getD i false) = true)) := by
    intro j hj
    simp only [Nat.add_one_ne_zero, if_false, Nat.add_sub_cancel, StreamCPU.submits,
      Bool.and_eq_true, Bool.not_eq_true']
    by_cases hj0 : j = 0
    · subst hj0
      rw [hb0]
      simp
    · simp only [hj0, if_false]
      rw [hfl j hj (by omega)]
  obtain ⟨j, ⟨hj, hjb⟩, huniq⟩ := key
  exact ⟨j, ⟨hj, (hsub j hj).mpr hjb⟩, fun k hk => huniq k ⟨hk.1, (hsub k hk.1).mp hk.2⟩⟩

/-! ## The text trace driver -/

/-- Once `eofbit` is set, the loop of the tick is not entered. -/
theorem traceLoop_eof (mem : Admission) (stale : Transaction → Transaction) (clk fuel : Nat)
    (f : TextStream) (trans_ : Transaction) (get_next : Bool) (log : List Event)
    (h : f.eofbit = true) :
    traceLoop mem stale clk fuel f trans_ get_next log = (f, trans_, get_next, log) := by
  cases fuel with
  | zero => rfl
  | succ fuel => simp [traceLoop, h]

/-- Once `eofbit` is set, a tick calls `ClockTick` and counts the cycle. -/
theorem TraceBasedCPU.tick_eof (mem : Admission) (stale : Transaction → Transaction)
    (s : TraceBasedCPU) (h : s.trace_file_.eofbit = true) :
    s.ClockTick mem stale =
      { s with memory_system_ := s.memory_system_ ++ [Event.ClockTick],
               clk_ := (s.clk_ + 1) % 2 ^ 64 } := by
  simp only [TraceBasedCPU.ClockTick, traceLoop_eof mem stale _ _ _ _ _ _ h]

/-- After `eofbit` is set the driver makes no call but `ClockTick`. -/
theorem TraceBasedCPU.run_eof (mem : Admission) (stale : Transaction → Transaction)
    (s : TraceBasedCPU) (h : s.trace_file_.eofbit = true) (n : Nat) :
    (TraceBasedCPU.run mem stale n s).trace_file_.eofbit = true ∧
    (TraceBasedCPU.run mem stale n s).memory_system_ =
      s.memory_system_ ++ List.replicate n Event.ClockTick := by
  induction n with
  | zero => exact ⟨h, by simp [TraceBasedCPU.run]⟩
  | succ n ih =>
    simp only [TraceBasedCPU.run]
    rw [TraceBasedCPU.tick_eof mem stale _ ih.1]
    refine ⟨ih.1, ?_⟩
    simp only [ih.2, List.replicate_succ', List.append_assoc]

/-- C14: the last transaction of a text trace is lost. The trace has one
line, a read of address 4096 with issue cycle 2, and nothing after its last
field; the memory system accepts everything. The first tick (cycle 0) reads
the line, which sets `eofbit`, and holds the transaction back because it is
not due. From then on the loop `while (!trace_file_.eof())` is not entered:
after any number of ticks the driver has made no call but `ClockTick`, and
the transaction is neither offered nor submitted, also in the ticks with
cycle 2 and later. -/
theorem text_trace_last_line_lost :
    lastLineStart.ClockTick acceptAll id =
      { memory_system_ := [Event.ClockTick], clk_ := 1,
        trace_file_ := ⟨[], false, true, false⟩, trans_ := ⟨4096, false, 2⟩,
        get_next_ := false } ∧
    ∀ n, (TraceBasedCPU.run acceptAll id (n + 1) lastLineStart).memory_system_ =
        List.replicate (n + 1) Event.ClockTick ∧
      addsOf (TraceBasedCPU.run acceptAll id (n + 1) lastLineStart).memory_system_ = [] := by
  have h1 : lastLineStart.ClockTick acceptAll id =
      { memory_system_ := [Event.ClockTick], clk_ := 1,
        trace_file_ := ⟨[], false, true, false⟩, trans_ := ⟨4096, false, 2⟩,
        get_next_ := false } := by decide
  refine ⟨h1, fun n => ?_⟩
  have hrun : ∀ (m : Nat) (s : TraceBasedCPU),
      TraceBasedCPU.run acceptAll id (m + 1) s =
        TraceBasedCPU.run acceptAll id m (s.ClockTick acceptAll id) := by
    intro m
    induction m with
    | zero => intro s; rfl
    | succ m ih =>
      intro s
      show (TraceBasedCPU.run acceptAll id (m + 1) s).ClockTick acceptAll id = _
      rw [ih]
      rfl
  have hlog : (TraceBasedCPU.run acceptAll id (n + 1) lastLineStart).memory_system_ =
      List.replicate (n + 1) Event.ClockTick := by
    rw [hrun, h1, (TraceBasedCPU.run_eof acceptAll id _ rfl n).2]
    rw [List.replicate_succ]
    rfl
  refine ⟨hlog, ?_⟩
  rw [hlog]
  generalize n + 1 = k
  induction k with
  | zero => rfl
  | succ k ih => rw [List.replicate_succ]; exact ih

/-- With a line end after the last line, and if a failed extraction leaves
the transaction as it is, the last transaction is submitted twice: the tick
that submits it goes round the loop again, the extraction fails, and the old
transaction is offered once more. -/
theorem text_trace_last_line_twice :
    (oneLineStart.ClockTick acceptAll id).memory_system_ =
      [Event.ClockTick, Event.WillAcceptTransaction 4096 false true,
        Event.AddTransaction 4096 false, Event.WillAcceptTransaction 4096 false true,
        Event.AddTransaction 4096 false] := by
  decide

/-- The fuel of the loop of the text trace driver is enough: on a stream
whose `failbit` is only set together with `eofbit`, as in every stream the
extraction produces from a newly opened one, one more unit of fuel does not
change the result. -/
theorem traceLoop_fuel (mem : Admission) (stale : Transaction → Transaction) (clk fuel : Nat)
    (f : TextStream) (trans_ : Transaction) (get_next : Bool) (log : List Event)
    (hf : f.failbit = true → f.eofbit = true)
    (h : (if f.eofbit then 0 else f.lines.length + (if get_next then 1 else 2)) ≤ fuel) :
    traceLoop mem stale clk (fuel + 1) f trans_ get_next log =
      traceLoop mem stale clk fuel f trans_ get_next log := by
  induction fuel generalizing f trans_ get_next log with
  | zero =>
    have he : f.eofbit = true := by
      by_contra hne
      have he0 : f.eofbit = false := by simpa using hne
      cases get_next <;> simp [he0] at h
    rw [traceLoop_eof _ _ _ _ _ _ _ _ he, traceLoop_eof _ _ _ _ _ _ _ _ he]
  | succ k ih =>
    by_cases he : f.eofbit = true
    · rw [traceLoop_eof _ _ _ _ _ _ _ _ he, traceLoop_eof _ _ _ _ _ _ _ _ he]
    · have hfb : f.failbit = false := by
        cases hb : f.failbit with
        | false => rfl
        | true => exact absurd (hf hb) he
      have he0 : f.eofbit = false := by simpa using he
      simp only [he0, Bool.false_eq_true, if_false] at h
      rw [traceLoop, traceLoop]
      simp only [he0, Bool.false_eq_true, if_false]
      cases get_next with
      | false =>
        simp only [Bool.false_eq_true, if_false] at h ⊢
        split
        · split
          · exact ih _ _ _ _ hf (by simp only [he0, Bool.false_eq_true, if_false, if_true]; omega)
          · rfl
        · rfl
      | true =>
        simp only [if_true] at h ⊢
        cases hl : f.lines with
        | nil =>
          have hx : f.extract stale trans_ =
              ({ f with eofbit := true, failbit := true }, stale trans_) := by
            simp [TextStream.extract, he0, hfb, hl]
          rw [hx]
          split
          · split
            · rw [traceLoop_eof _ _ _ _ _ _ _ _ rfl, traceLoop_eof _ _ _ _ _ _ _ _ rfl]
            · rfl
          · rfl
        | cons x rest =>
          have hx : f.extract stale trans_ =
              ({ f with lines := rest, eofbit := rest.isEmpty && !f.trailing }, x) := by
            simp [TextStream.extract, he0, hfb, hl]
          rw [hx]
          split
          · split
            · refine ih _ _ _ _ (fun hb => absurd (hfb ▸ hb) (by simp)) ?_
              rw [hl] at h
              simp only [List.length_cons] at h
              simp only [if_true]
              split <;> omega
            · rfl
          · rfl

/-- A tick of the text trace driver does not run out of fuel. -/
theorem TraceBasedCPU.tick_fuel (mem : Admission) (stale : Transaction → Transaction)
    (s : TraceBasedCPU) (hf : s.trace_file_.failbit = true → s.trace_file_.eofbit = true)
    (k : Nat) :
    traceLoop mem stale s.clk_ (s.trace_file_.lines.length + 2 + k) s.trace_file_ s.trans_
      s.get_next_ (s.memory_system_ ++ [Event.ClockTick]) =
    traceLoop mem stale s.clk_ (s.trace_file_.lines.length + 2) s.trace_file_ s.trans_
      s.get_next_ (s.memory_system_ ++ [Event.ClockTick]) := by
  induction k with
  | zero => rfl
  | succ k ih =>
    rw [← ih]
    show traceLoop mem stale s.clk_ (s.trace_file_.lines.length + 2 + k + 1) _ _ _ _ = _
    refine traceLoop_fuel mem stale _ _ _ _ _ _ hf ?_
    split
    · exact Nat.zero_le _
    · split <;> omega

/-! ## The sentinel of unresolved requests -/

theorem issueCycle_range (clk delay cpu mr : Nat) :
    0 ≤ issueCycle clk delay cpu mr ∨ issueCycle clk delay cpu mr = -(2 ^ 63 : Int) := by
  unfold issueCycle
  split
  · exact Or.inr rfl
  · simp only [F64.toInt64]
    split
    · exact Or.inl (Int.ofNat_nonneg _)
    · exact Or.inr rfl

theorem depSolved_false_of_ids (pend pend1 : List MemReq) (r : MemReq)
    (h : ∀ p ∈ pend, ∃ q ∈ pend1, q.id = p.id) (hs : depSolved pend r = false) :
    depSolved pend1 r = false := by
  cases h1 : depSolved pend1 r with
  | false => rfl
  | true => rw [depSolved_of_ids pend1 pend r h h1] at hs; exact absurd hs (by simp)

theorem waiting_push (clk cpu mr : Nat) (pend : List MemReq) (r : MemReq) (hw : Waiting pend) :
    Waiting (pend ++ [stamped clk cpu mr pend r]) := by
  have hsub : ∀ p ∈ pend, ∃ q ∈ pend ++ [stamped clk cpu mr pend r], q.id = p.id :=
    fun p hp => ⟨p, List.mem_append_left _ hp, rfl⟩
  intro q hq
  rcases List.mem_append.mp hq with hq | hq
  · exact ⟨fun hm => depSolved_false_of_ids _ _ _ hsub ((hw q hq).1 hm), (hw q hq).2⟩
  · simp only [List.mem_singleton] at hq
    subst hq
    by_cases hd : depSolved pend r = true
    · have hm := stamped_min_solved clk cpu mr pend r hd
      refine ⟨fun h => ?_, ?_⟩
      · rw [hm] at h
        exact absurd h (issueCycle_ne_neg_one _ _ _ _)
      · rw [hm]
        exact Or.inr (issueCycle_range _ _ _ _)
    · have hd0 : depSolved pend r = false := by simpa using hd
      have hm : (stamped clk cpu mr pend r).min_issue_cycle = -1 := by simp [stamped, hd0]
      refine ⟨fun _ => ?_, Or.inl hm⟩
      rw [depSolved_deps _ r _ (stamped_deps _ _ _ _ _)]
      exact depSolved_false_of_ids _ _ _ hsub hd0

theorem waiting_erase (clk cpu mr : Nat) (done rest : List MemReq) (x : MemReq)
    (hw : Waiting (done ++ x :: rest)) :
    Waiting ((done ++ rest).map (resolve clk cpu mr (done ++ rest))) := by
  have hsub : ∀ p ∈ done ++ rest,
      ∃ q ∈ (done ++ rest).map (resolve clk cpu mr (done ++ rest)), q.id = p.id :=
    fun p hp => ⟨_, List.mem_map_of_mem _ hp, resolve_id _ _ _ _ _⟩
  intro q hq
  obtain ⟨p, hp, rfl⟩ := List.mem_map.mp hq
  have hp1 : p ∈ done ++ x :: rest := by
    rcases List.mem_append.mp hp with h | h
    · exact List.mem_append_left _ h
    · exact List.mem_append_right _ (List.mem_cons_of_mem _ h)
  rcases resolve_min clk cpu mr (done ++ rest) p with ⟨h1, h2⟩ | ⟨_, _, h3⟩
  · rw [h1]
    exact ⟨fun hm => depSolved_false_of_ids _ _ _ hsub (h2 hm), (hw p hp1).2⟩
  · refine ⟨fun hm => ?_, ?_⟩
    · rw [h3] at hm
      exact absurd hm (issueCycle_ne_neg_one _ _ _ _)
    · rw [h3]
      exact Or.inr (issueCycle_range _ _ _ _)

theorem waiting_replace (done rest : List MemReq) (x y : MemReq)
    (hid : y.id = x.id) (hdeps : y.deps = x.deps) (hmin : y.min_issue_cycle = x.min_issue_cycle)
    (hw : Waiting (done ++ x :: rest)) : Waiting (done ++ y :: rest) := by
  have hsub : ∀ p ∈ done ++ x :: rest, ∃ q ∈ done ++ y :: rest, q.id = p.id := by
    intro a ha
    rcases List.mem_append.mp ha with h | h
    · exact ⟨a, List.mem_append_left _ h, rfl⟩
    · rcases List.mem_cons.mp h with h | h
      · exact ⟨y, by simp, by rw [h, hid]⟩
      · exact ⟨a, List.mem_append_right _ (List.mem_cons_of_mem _ h), rfl⟩
  intro q hq
  rcases List.mem_append.mp hq with h | h
  · have := hw q (List.mem_append_left _ h)
    exact ⟨fun hm => depSolved_false_of_ids _ _ _ hsub (this.1 hm), this.2⟩
  · rcases List.mem_cons.mp h with h | h
    · subst h
      have := hw x (by simp)
      refine ⟨fun hm => ?_, by rw [hmin]; exact this.2⟩
      rw [depSolved_deps _ x _ hdeps]
      exact depSolved_false_of_ids _ _ _ hsub (this.1 (by rw [← hmin]; exact hm))
    · have := hw q (List.mem_append_right _ (List.mem_cons_of_mem _ h))
      exact ⟨fun hm => depSolved_false_of_ids _ _ _ hsub (this.1 hm), this.2⟩

/-- A tick keeps the sentinel discipline. -/
theorem waiting_tick (mem : Admission) (u : Uninit) (s s1 : RamSimCPU)
    (hw : Waiting s.pendReq) (h : s.ClockTick mem u = .ok s1) : Waiting s1.pendReq := by
  obtain ⟨t, pend, atr, hre, rfl⟩ := ClockTick_ok mem u s s1 h
  have h1 : Waiting pend :=
    refillLoop_induction u s.clk_ s.cpu_clock_ratio_ s.mem_clock_ratio_
      (fun _ p _ => Waiting p)
      (fun _ p _ r hq _ _ _ => waiting_push s.clk_ s.cpu_clock_ratio_ s.mem_clock_ratio_ p
        r.record hq)
      (fun _ _ _ _ hq _ _ _ => hq) _ _ _ _ _ _ _ hre hw
  exact scanLoop_pend_induction mem s.clk_ s.cpu_clock_ratio_ s.mem_clock_ratio_
    (fun p _ _ => Waiting p)
    (fun done x rest _ _ hP _ => waiting_erase _ _ _ done rest x hP)
    (fun done x rest _ _ k hP _ _ _ _ => waiting_replace done rest x (x.dropIds k) rfl rfl rfl hP)
    pend _ _ h1

/-- In every state reached from the constructor the sentinel discipline
holds. -/
theorem reachable_waiting (bytes : List Byte) (magic0 cpu mr : Nat) (mem : Admission)
    (u : Uninit) (n : Nat) (s0 s : RamSimCPU)
    (h0 : RamSimCPU.new bytes magic0 cpu mr = .ok s0)
    (hrun : RamSimCPU.run mem u n s0 = .ok s) : Waiting s.pendReq := by
  obtain ⟨t, -, hs0⟩ := new_driver_ok bytes magic0 cpu mr s0 h0
  refine run_induction mem u (fun s => Waiting s.pendReq)
    (fun a b ha hab => waiting_tick mem u a b ha hab) n s0 s ?_ hrun
  subst hs0
  intro q hq
  simp at hq

/-- A tick does not change a `min_issue_cycle` other than the sentinel. -/
theorem tick_keeps_min (mem : Admission) (u : Uninit) (s s1 : RamSimCPU)
    (hr : ReaderOk s.trace_file_) (hp : PendingOk s.trace_file_.expectRecordId s.pendReq)
    (h : s.ClockTick mem u = .ok s1) (q : MemReq) (hq : q ∈ s.pendReq)
    (hm : q.min_issue_cycle ≠ -1) (q1 : MemReq) (hq1 : q1 ∈ s1.pendReq) (hid : q1.id = q.id) :
    q1.min_issue_cycle = q.min_issue_cycle := by
  obtain ⟨t, pend, atr, hre, rfl⟩ := ClockTick_ok mem u s s1 h
  obtain ⟨a1, -, a3⟩ := refillLoop_induction_ok u s.clk_ s.cpu_clock_ratio_ s.mem_clock_ratio_
    (fun _ p _ => ∀ q ∈ s.pendReq, q ∈ p)
    (fun _ p _ _ hQ _ _ _ _ _ _ _ => fun q hq => List.mem_append_left _ (hQ q hq))
    (fun _ _ _ _ hQ _ _ _ => hQ) _ _ _ _ _ _ _ hre hr hp (fun q hq => hq)
  have key := scanLoop_pend_induction mem s.clk_ s.cpu_clock_ratio_ s.mem_clock_ratio_
    (fun p _ _ => ∀ b ∈ p, ∃ a ∈ pend, a.id = b.id ∧
      (a.min_issue_cycle ≠ -1 → b.min_issue_cycle = a.min_issue_cycle))
    (fun done x rest _ _ hP _ => by
      intro b hb
      obtain ⟨p, hp, rfl⟩ := List.mem_map.mp hb
      have hp1 : p ∈ done ++ x :: rest := by
        rcases List.mem_append.mp hp with h | h
        · exact List.mem_append_left _ h
        · exact List.mem_append_right _ (List.mem_cons_of_mem _ h)
      obtain ⟨a, ha, e1, e2⟩ := hP p hp1
      refine ⟨a, ha, by rw [resolve_id]; exact e1, fun hne => ?_⟩
      have : p.min_issue_cycle ≠ -1 := by rw [e2 hne]; exact hne
      rw [resolve_of_resolved _ _ _ _ _ this]
      exact e2 hne)
    (fun done x rest _ _ k hP _ _ _ _ => by
      intro b hb
      rcases List.mem_append.mp hb with h | h
      · exact hP b (List.mem_append_left _ h)
      · rcases List.mem_cons.mp h with h | h
        · subst h
          exact hP x (by simp)
        · exact hP b (List.mem_append_right _ (List.mem_cons_of_mem _ h)))
    pend (s.memory_system_ ++ [Event.ClockTick]) s.submitted
    (fun b hb => ⟨b, hb, rfl, fun _ => rfl⟩)
  obtain ⟨a, ha, e1, e2⟩ := key q1 hq1
  have : a = q := a3.eq_of_id ha (a1 q hq) (e1.trans hid)
  subst this
  exact e2 hm

/-- The sentinel of unresolved requests. In every state the driver
reaches from its constructor on a trace file of fewer than `2^64` bytes,
whatever the memory system does: every pending request with
`min_issue_cycle == -1` has a dependency id that is the id of a pending
request; a pending request none of whose dependencies is pending has a
`min_issue_cycle` that is not the sentinel, namely a cycle `>= 0` or the
value `-2^63` of an overflowed conversion; and a tick does not change a
`min_issue_cycle` other than the sentinel. -/
theorem sentinel_invariant (bytes : List Byte) (magic0 cpu mr : Nat) (mem : Admission)
    (u : Uninit) (n : Nat) (s0 s : RamSimCPU) (hlen : bytes.length < 2 ^ 64)
    (h0 : RamSimCPU.new bytes magic0 cpu mr = .ok s0)
    (hrun : RamSimCPU.run mem u n s0 = .ok s) :
    (∀ q ∈ s.pendReq, q.min_issue_cycle = -1 → ∃ d ∈ q.deps, ∃ p ∈ s.pendReq, p.id = d) ∧
    (∀ q ∈ s.pendReq, depSolved s.pendReq q = true →
      0 ≤ q.min_issue_cycle ∨ q.min_issue_cycle = -(2 ^ 63 : Int)) ∧
    (∀ s1, s.ClockTick mem u = .ok s1 → ∀ q ∈ s.pendReq, q.min_issue_cycle ≠ -1 →
      ∀ q1 ∈ s1.pendReq, q1.id = q.id → q1.min_issue_cycle = q.min_issue_cycle) := by
  have hw := reachable_waiting bytes magic0 cpu mr mem u n s0 s h0 hrun
  obtain ⟨hr, hp⟩ := reachable_pendingOk bytes magic0 cpu mr mem u n s0 s hlen h0 hrun
  refine ⟨fun q hq hm => ?_, fun q hq hd => ?_, fun s1 h1 q hq hm q1 hq1 hid =>
    tick_keeps_min mem u s s1 hr hp h1 q hq hm q1 hq1 hid⟩
  · have := (hw q hq).1 hm
    by_contra hne
    have hs : depSolved s.pendReq q = true := by
      rw [depSolved_iff]
      intro d hd p hpm hpd
      exact hne ⟨d, hd, p, hpm, hpd⟩
    rw [hs] at this
    exact absurd this (by simp)
  · rcases (hw q hq).2 with h | h | h
    · rw [(hw q hq).1 h] at hd
      exact absurd hd (by simp)
    · exact Or.inl h
    · exact Or.inr h

/-- The sentinel discipline on the sample trace after one tick in which the
memory system refuses everything. -/
theorem sentinel_invariant_witness :
    (encodeTrace sampleTrace).length < 2 ^ 64 ∧
    RamSimCPU.new (encodeTrace sampleTrace) 0 1 1 = .ok sampleStart ∧
    RamSimCPU.run refuseAll ⟨zeroReq, 0⟩ 1 sampleStart = .ok sampleAfterTick ∧
    ∀ q ∈ sampleAfterTick.pendReq, q.min_issue_cycle = -1 →
      ∃ d ∈ q.deps, ∃ p ∈ sampleAfterTick.pendReq, p.id = d :=
  ⟨by decide, by decide, by decide,
    (sentinel_invariant (encodeTrace sampleTrace) 0 1 1 refuseAll ⟨zeroReq, 0⟩ 1 sampleStart
      sampleAfterTick (by decide) (by decide) (by decide)).1⟩

/-- C17: a request all of whose dependencies have left the pending set is
not always given a `min_issue_cycle >= 0`, because the conversion of its
issue cycle to `int64_t` can overflow. The trace `longDelayTrace` holds one
record without dependencies and with delay `2^63`; with both clock ratios 1
and a memory system that accepts everything the request is pending after the
first tick with all its dependencies solved and `min_issue_cycle = -2^63`,
which is neither the sentinel nor a cycle, and it is still so after four
ticks, in which nothing was offered or submitted. The discipline that holds
in every reachable state, this value included, is `sentinel_invariant`. -/
theorem sentinel_overflow :
    RamSimCPU.new (encodeTrace longDelayTrace) 0 1 1 = .ok longDelayStart ∧
    RamSimCPU.run acceptAll ⟨zeroReq, 0⟩ 1 longDelayStart = .ok (longDelayAfter 0) ∧
    RamSimCPU.run acceptAll ⟨zeroReq, 0⟩ 4 longDelayStart = .ok (longDelayAfter 3) ∧
    (∃ q ∈ (longDelayAfter 0).pendReq,
      depSolved (longDelayAfter 0).pendReq q = true ∧ q.min_issue_cycle < 0) := by
  refine ⟨by decide, by decide, by decide, ⟨0, 4096, 0, 2 ^ 63, 64, [], [0], -(2 ^ 63)⟩, ?_, ?_, ?_⟩
  · decide
  · decide
  · decide

/-! ## Eviction -/

/-- The scan keeps exactly the requests whose offsets are not empty when it
starts, and what it submits belongs to such requests. -/
theorem scanLoop_evicts (mem : Admission) (clk cpu mr e : Nat) (pend : List MemReq)
    (log : List Event) (sub : List (Nat × Nat × Bool)) (hp : PendingOk e pend) :
    (∀ y ∈ (scanLoop mem clk cpu mr pend.length [] pend log sub).1,
      ∃ x ∈ pend, x.id = y.id ∧ x.ids ≠ []) ∧
    (∀ x ∈ pend, x.ids ≠ [] →
      ∃ y ∈ (scanLoop mem clk cpu mr pend.length [] pend log sub).1, y.id = x.id) ∧
    (∀ a ∈ (scanLoop mem clk cpu mr pend.length [] pend log sub).2.2,
      a ∈ sub ∨ ∃ x ∈ pend, x.ids ≠ [] ∧ a.1 = x.id) := by
  have key := scanLoop_induction mem clk cpu mr
    (fun done todo _ sub1 =>
      (∀ y ∈ done, ∃ x ∈ pend, x.id = y.id ∧ x.ids ≠ []) ∧
      (∀ y ∈ todo, ∃ x ∈ pend, x.id = y.id ∧ x.ids = y.ids) ∧
      (∀ x ∈ pend, x.ids ≠ [] → ∃ y ∈ done ++ todo, y.id = x.id) ∧
      (∀ a ∈ sub1, a ∈ sub ∨ ∃ x ∈ pend, x.ids ≠ [] ∧ a.1 = x.id))
    (fun done y rest _ sub1 ⟨h1, h2, h3, h4⟩ hy => by
      refine ⟨fun z hz => ?_, fun z hz => ?_, fun x hx hne => ?_, h4⟩
      · obtain ⟨p, hp1, rfl⟩ := List.mem_map.mp hz
        obtain ⟨x, hx, e1, e2⟩ := h1 p hp1
        exact ⟨x, hx, by rw [resolve_id]; exact e1, e2⟩
      · obtain ⟨p, hp1, rfl⟩ := List.mem_map.mp hz
        obtain ⟨x, hx, e1, e2⟩ := h2 p (List.mem_cons_of_mem _ hp1)
        exact ⟨x, hx, by rw [resolve_id]; exact e1, by rw [resolve_ids]; exact e2⟩
      · obtain ⟨z, hz, e1⟩ := h3 x hx hne
        have hz1 : z ∈ done ++ rest := by
          rcases List.mem_append.mp hz with h | h
          · exact List.mem_append_left _ h
          · rcases List.mem_cons.mp h with h | h
            · exfalso
              obtain ⟨x1, hx1, e2, e3⟩ := h2 y (by simp)
              have : x1 = x := hp.eq_of_id hx1 hx (by rw [e2, ← h, e1])
              rw [this, hy] at e3
              exact hne e3
            · exact List.mem_append_right _ h
        refine ⟨resolve clk cpu mr (done ++ rest) z, ?_, by rw [resolve_id]; exact e1⟩
        rw [← List.map_append]
        exact List.mem_map_of_mem _ hz1)
    (fun done y rest _ sub1 k ⟨h1, h2, h3, h4⟩ hy _ _ _ => by
      obtain ⟨x0, hx0, e0, e0i⟩ := h2 y (by simp)
      refine ⟨fun z hz => ?_, fun z hz => h2 z (List.mem_cons_of_mem _ hz),
        fun x hx hne => ?_, fun a ha => ?_⟩
      · rcases List.mem_append.mp hz with h | h
        · exact h1 z h
        · simp only [List.mem_singleton] at h
          subst h
          exact ⟨x0, hx0, by rw [dropIds_id]; exact e0, by rw [e0i]; exact hy⟩
      · obtain ⟨z, hz, e1⟩ := h3 x hx hne
        rcases List.mem_append.mp hz with h | h
        · exact ⟨z, by simp [h], e1⟩
        · rcases List.mem_cons.mp h with h | h
          · exact ⟨y.dropIds k, by simp, by rw [dropIds_id, ← h]; exact e1⟩
          · exact ⟨z, by simp [h], e1⟩
      · rcases List.mem_append.mp ha with h | h
        · exact h4 a h
        · obtain ⟨o, -, rfl⟩ := List.mem_map.mp h
          exact Or.inr ⟨x0, hx0, by rw [e0i]; exact hy, e0.symm⟩)
    (fun done y rest _ sub1 ⟨h1, h2, h3, h4⟩ hy _ => by
      obtain ⟨x0, hx0, e0, e0i⟩ := h2 y (by simp)
      refine ⟨fun z hz => ?_, fun z hz => h2 z (List.mem_cons_of_mem _ hz),
        fun x hx hne => ?_, h4⟩
      · rcases List.mem_append.mp hz with h | h
        · exact h1 z h
        · simp only [List.mem_singleton] at h
          subst h
          exact ⟨x0, hx0, e0, by rw [e0i]; exact hy⟩
      · obtain ⟨z, hz, e1⟩ := h3 x hx hne
        exact ⟨z, by simpa using hz, e1⟩)
    pend.length [] pend log sub (Nat.le_refl _)
    ⟨fun y hy => by simp at hy, fun y hy => ⟨y, hy, rfl, rfl⟩,
      fun x hx _ => ⟨x, by simpa using hx, rfl⟩, fun a ha => Or.inl ha⟩
  obtain ⟨k1, -, k3, k4⟩ := key
  exact ⟨k1, fun x hx hne => by simpa using k3 x hx hne, k4⟩

/-- The requests a refill appends carry ids from the expected id of the
reader on, and their offsets are `0, 1, ...` up to the number of fragments. -/
theorem refillLoop_new (u : Uninit) (clk cpu mr fuel : Nat) (t : TraceInputStream)
    (pend : List MemReq) (atr : Bool) (t1 : TraceInputStream) (pend1 : List MemReq)
    (atr1 : Bool) (h : refillLoop u clk cpu mr fuel t pend atr = .ok (t1, pend1, atr1))
    (hr : ReaderOk t) (hp : PendingOk t.expectRecordId pend) :
    (∀ x ∈ pend1, x ∈ pend ∨
      (t.expectRecordId ≤ x.id ∧ x.ids = List.range (chunkCount x.size))) ∧
    PendingOk t1.expectRecordId pend1 := by
  obtain ⟨⟨a1, a2⟩, -, a3⟩ := refillLoop_induction_ok u clk cpu mr
    (fun ta p _ => t.expectRecordId ≤ ta.expectRecordId ∧ ∀ x ∈ p, x ∈ pend ∨
      (t.expectRecordId ≤ x.id ∧ x.ids = List.range (chunkCount x.size)))
    (fun ta p _ r ⟨b1, b2⟩ _ _ _ _ hid hexp hids => by
      refine ⟨by omega, fun x hx => ?_⟩
      rcases List.mem_append.mp hx with hx | hx
      · exact b2 x hx
      · simp only [List.mem_singleton] at hx
        subst hx
        exact Or.inr ⟨by rw [stamped_id, hid]; exact b1, by
          rw [stamped_ids, stamped_size]; exact hids⟩)
    (fun ta p _ r ⟨b1, b2⟩ _ _ hexp => ⟨by omega, b2⟩)
    fuel t pend atr t1 pend1 atr1 h hr hp ⟨Nat.le_refl _, fun x hx => Or.inl hx⟩
  exact ⟨a2, a3⟩

theorem chunkCount_zero : chunkCount 0 = 0 := by decide

/-- C18: the eviction rule. In a tick from any state the driver reaches from
its constructor on a trace file of fewer than `2^64` bytes, let `pend` be the
pending vector after the refill, on which the scan runs; a request's offsets
change only in the offer that follows the test on it. A request of `pend` is
still pending after the tick exactly if its offsets are not empty, whatever
its `min_issue_cycle` and its dependencies, and nothing else is pending. So a
request whose last fragment is admitted in this tick stays pending, and a
request of size 0 read in this tick has no offsets, is not pending after the
tick, and no transaction has been submitted for it. -/
theorem eviction_rule (bytes : List Byte) (magic0 cpu mr : Nat) (mem : Admission)
    (u : Uninit) (n : Nat) (s0 s s1 : RamSimCPU) (hlen : bytes.length < 2 ^ 64)
    (h0 : RamSimCPU.new bytes magic0 cpu mr = .ok s0)
    (hrun : RamSimCPU.run mem u n s0 = .ok s) (htick : s.ClockTick mem u = .ok s1) :
    ∃ t pend atr,
      refillLoop u s.clk_ s.cpu_clock_ratio_ s.mem_clock_ratio_ maxPendEntry
        s.trace_file_ s.pendReq s.all_trace_read = .ok (t, pend, atr) ∧
      (∀ x ∈ pend, (∃ y ∈ s1.pendReq, y.id = x.id) ↔ x.ids ≠ []) ∧
      (∀ y ∈ s1.pendReq, ∃ x ∈ pend, x.id = y.id) ∧
      (∀ x ∈ pend, x ∉ s.pendReq → x.size = 0 →
        x.ids = [] ∧ (∀ y ∈ s1.pendReq, y.id ≠ x.id) ∧ submittedFor s1.submitted x.id = []) := by
  obtain ⟨hr, hp⟩ := reachable_pendingOk bytes magic0 cpu mr mem u n s0 s hlen h0 hrun
  obtain ⟨_, _, _, _, _, _, hsub, _⟩ :=
    reachable_hist bytes magic0 cpu mr mem u n s0 s hlen h0 hrun
  obtain ⟨t, pend, atr, hre, rfl⟩ := ClockTick_ok mem u s s1 htick
  obtain ⟨hnew, hp1⟩ := refillLoop_new u _ _ _ _ _ _ _ _ _ _ hre hr hp
  obtain ⟨k1, k2, k3⟩ := scanLoop_evicts mem s.clk_ s.cpu_clock_ratio_ s.mem_clock_ratio_
    t.expectRecordId pend (s.memory_system_ ++ [Event.ClockTick]) s.submitted hp1
  have hiff : ∀ x ∈ pend, (∃ y ∈ (scanLoop mem s.clk_ s.cpu_clock_ratio_ s.mem_clock_ratio_
      pend.length [] pend (s.memory_system_ ++ [Event.ClockTick]) s.submitted).1,
      y.id = x.id) ↔ x.ids ≠ [] := by
    intro x hx
    refine ⟨fun ⟨y, hy, e1⟩ => ?_, k2 x hx⟩
    obtain ⟨x1, hx1, e2, e3⟩ := k1 y hy
    have : x1 = x := hp1.eq_of_id hx1 hx (e2.trans e1)
    rw [← this]; exact e3
  refine ⟨t, pend, atr, hre, hiff, fun y hy => ?_, fun x hx hxs hsz => ?_⟩
  · obtain ⟨x, hx, e1, _⟩ := k1 y hy
    exact ⟨x, hx, e1⟩
  · rcases hnew x hx with h | ⟨hge, hids⟩
    · exact absurd h hxs
    · have hempty : x.ids = [] := by rw [hids, hsz, chunkCount_zero]; rfl
      refine ⟨hempty, fun y hy hid => ?_, ?_⟩
      · exact (hiff x hx).mp ⟨y, hy, hid⟩ hempty
      · unfold submittedFor
        rw [List.map_eq_nil_iff, List.filter_eq_nil_iff]
        intro a ha
        simp only [decide_eq_true_eq]
        rcases k3 a ha with h | ⟨x1, hx1, hne, e1⟩
        · have := hsub a h
          omega
        · intro he
          have : x1 = x := hp1.eq_of_id hx1 hx (e1.symm.trans he)
          rw [this] at hne
          exact hne hempty

/-- The eviction rule in the first tick on the trace `zeroSizeTrace`: the
request of size 0 is read and removed while the request it depends on is
pending. -/
theorem eviction_rule_witness :
    (encodeTrace zeroSizeTrace).length < 2 ^ 64 ∧
    RamSimCPU.new (encodeTrace zeroSizeTrace) 0 1 1 = .ok zeroSizeStart ∧
    RamSimCPU.run refuseAll ⟨zeroReq, 0⟩ 0 zeroSizeStart = .ok zeroSizeStart ∧
    zeroSizeStart.ClockTick refuseAll ⟨zeroReq, 0⟩ = .ok zeroSizeAfterTick ∧
    ∃ t pend atr,
      refillLoop ⟨zeroReq, 0⟩ zeroSizeStart.clk_ zeroSizeStart.cpu_clock_ratio_
        zeroSizeStart.mem_clock_ratio_ maxPendEntry zeroSizeStart.trace_file_
        zeroSizeStart.pendReq zeroSizeStart.all_trace_read = .ok (t, pend, atr) ∧
      (∀ x ∈ pend, (∃ y ∈ zeroSizeAfterTick.pendReq, y.id = x.id) ↔ x.ids ≠ []) ∧
      (∀ y ∈ zeroSizeAfterTick.pendReq, ∃ x ∈ pend, x.id = y.id) ∧
      (∀ x ∈ pend, x ∉ zeroSizeStart.pendReq → x.size = 0 →
        x.ids = [] ∧ (∀ y ∈ zeroSizeAfterTick.pendReq, y.id ≠ x.id) ∧
        submittedFor zeroSizeAfterTick.submitted x.id = []) :=
  ⟨by decide, by decide, by decide, by decide,
    eviction_rule (encodeTrace zeroSizeTrace) 0 1 1 refuseAll ⟨zeroReq, 0⟩ 0 zeroSizeStart
      zeroSizeStart zeroSizeAfterTick (by decide) (by decide) (by decide) (by decide)⟩

/-! ## The moments of submission -/

/-- The ghost list does not influence the scan, every pass of the offer loop
is recorded with what it submitted, and a property of the pending vector, the
call history and the submitted list that the steps of the scan keep holds at
the moment of every pass. -/
theorem scanLoopGhost_spec (mem : Admission) (clk cpu mr : Nat)
    (P : List MemReq → List Event → List (Nat × Nat × Bool) → Prop)
    (herase : ∀ done x rest log sub, P (done ++ x :: rest) log sub → x.ids = [] →
      P ((done ++ rest).map (resolve clk cpu mr (done ++ rest))) log sub)
    (hoffer : ∀ done x rest log sub k, P (done ++ x :: rest) log sub → x.ids ≠ [] →
      0 ≤ x.min_issue_cycle → x.min_issue_cycle ≤ (clk : Int) → k ≤ x.ids.length →
      P (done ++ x.dropIds k :: rest) (log ++ fragmentCalls x k)
        (sub ++ (x.ids.take k).map fun o => (x.id, fragAddr x o, isWrite x)))
    (fuel : Nat) (done todo : List MemReq) (log : List Event) (sub : List (Nat × Nat × Bool))
    (ghost : List Moment) (hP : P (done ++ todo) log sub) :
    (scanLoopGhost mem clk cpu mr fuel done todo log sub ghost).1 =
      scanLoop mem clk cpu mr fuel done todo log sub ∧
    ∃ ms, (scanLoopGhost mem clk cpu mr fuel done todo log sub ghost).2 = ghost ++ ms ∧
      (scanLoop mem clk cpu mr fuel done todo log sub).2.2 =
        sub ++ (ms.map Moment.submitted).flatten ∧
      ∀ m ∈ ms, m.request ∈ m.pending ∧ 0 ≤ m.request.min_issue_cycle ∧
        (∀ a ∈ m.submitted, a.1 = m.request.id) ∧ ∃ log1, P m.pending log1 m.before := by
  induction fuel generalizing done todo log sub ghost with
  | zero => exact ⟨rfl, [], by simp [scanLoopGhost], by simp [scanLoop], by simp⟩
  | succ fuel ih =>
    cases todo with
    | nil => exact ⟨rfl, [], by simp [scanLoopGhost], by simp [scanLoop], by simp⟩
    | cons x rest =>
      unfold scanLoopGhost scanLoop
      by_cases he : x.ids.isEmpty = true
      · simp only [he, if_true]
        have h1 := herase done x rest log sub hP (List.isEmpty_iff.mp he)
        rw [List.map_append] at h1
        exact ih _ _ _ _ _ h1
      · simp only [he, Bool.false_eq_true, if_false]
        have hne : x.ids ≠ [] := fun hx => he (List.isEmpty_iff.mpr hx)
        have hskip : P ((done ++ [x]) ++ rest) log sub := by simpa using hP
        by_cases h0 : 0 ≤ x.min_issue_cycle
        · by_cases h1 : x.min_issue_cycle ≤ (clk : Int)
          · simp only [h0, h1, if_true]
            obtain ⟨k, hk, hspec⟩ := offerLoop_spec mem x x.ids log sub
            have h2 := hoffer done x rest log sub k hP hne h0 h1 hk
            rw [hspec]
            obtain ⟨i1, ms, i2, i3, i4⟩ := ih (done ++ [x.dropIds k]) rest
              (log ++ fragmentCalls x k)
              (sub ++ (x.ids.take k).map fun o => (x.id, fragAddr x o, isWrite x))
              (ghost ++ [⟨x, done ++ x :: rest, sub,
                (sub ++ (x.ids.take k).map fun o => (x.id, fragAddr x o, isWrite x)).drop
                  sub.length⟩]) (by simpa using h2)
            refine ⟨i1, ⟨x, done ++ x :: rest, sub,
              (sub ++ (x.ids.take k).map fun o => (x.id, fragAddr x o, isWrite x)).drop
                sub.length⟩ :: ms, ?_, ?_, ?_⟩
            · exact i2.trans (by simp)
            · exact i3.trans (by
                simp only [List.map_cons, List.flatten_cons, List.drop_left, List.append_assoc])
            · intro m hm
              rcases List.mem_cons.mp hm with hm | hm
              · subst hm
                refine ⟨by simp, h0, fun a ha => ?_, log, hP⟩
                simp only [List.drop_left] at ha
                obtain ⟨o, -, rfl⟩ := List.mem_map.mp ha
                rfl
              · exact i4 m hm
          · simp only [h0, h1, if_true, if_false]
            exact ih _ _ _ _ _ hskip
        · simp only [h0, if_false]
          exact ih _ _ _ _ _ hskip

/-- The moments of a tick that returns, and what the tick submits. -/
theorem moments_ok (mem : Admission) (u : Uninit) (s s1 : RamSimCPU)
    (h : s.ClockTick mem u = .ok s1) :
    ∃ t pend atr,
      refillLoop u s.clk_ s.cpu_clock_ratio_ s.mem_clock_ratio_ maxPendEntry
        s.trace_file_ s.pendReq s.all_trace_read = .ok (t, pend, atr) ∧
      s.moments mem u = (scanLoopGhost mem s.clk_ s.cpu_clock_ratio_ s.mem_clock_ratio_
        pend.length [] pend (s.memory_system_ ++ [Event.ClockTick]) s.submitted []).2 ∧
      s1.submitted = (scanLoop mem s.clk_ s.cpu_clock_ratio_ s.mem_clock_ratio_ pend.length []
        pend (s.memory_system_ ++ [Event.ClockTick]) s.submitted).2.2 := by
  obtain ⟨t, pend, atr, hre, rfl⟩ := ClockTick_ok mem u s s1 h
  refine ⟨t, pend, atr, hre, ?_, rfl⟩
  unfold RamSimCPU.moments
  rw [hre]

/-- C20: dependency safety for traces whose records depend on smaller ids
only. On an encoded trace of fewer than `2^64` bytes with ids `0, 1, ...` in
which every dependency id is smaller than the id of its record, in every
tick from a state reached by any number of ticks under any admission answers:
what the tick submits is submitted in the recorded passes of the offer loop,
each for the request that is offered. At the moment of such a pass the
pending vector holds distinct ids in ascending order, all below the expected
id of the reader; no request whose id is a dependency id of the offered
request is in the pending vector; and for every dependency id the reader has
returned a record with that id, all of whose fragments had been submitted
before the pass. -/
theorem dependency_safety (rs : List TraceRecord) (magic0 cpu mr : Nat)
    (mem : Admission) (u : Uninit) (n : Nat) (s0 s s1 : RamSimCPU)
    (hid : rs.map TraceRecord.id = List.range rs.length) (hwf : ∀ r ∈ rs, r.WF)
    (hback : ∀ r ∈ rs, ∀ d ∈ r.dependency_ids, d < r.id)
    (hlen : (encodeTrace rs).length < 2 ^ 64)
    (h0 : RamSimCPU.new (encodeTrace rs) magic0 cpu mr = .ok s0)
    (hrun : RamSimCPU.run mem u n s0 = .ok s) (htick : s.ClockTick mem u = .ok s1) :
    s1.submitted = s.submitted ++ ((s.moments mem u).map Moment.submitted).flatten ∧
    ∀ m ∈ s.moments mem u, m.request ∈ m.pending ∧
      (∀ a ∈ m.submitted, a.1 = m.request.id) ∧
      PendingOk s1.trace_file_.expectRecordId m.pending ∧
      ∀ d ∈ m.request.deps, (∀ q ∈ m.pending, q.id ≠ d) ∧
        ∃ md c, (nextMany u.record u.depCount c s0.trace_file_).1[d]? = some md ∧
          md.id = d ∧ submittedFor m.before d = fragments md (chunkCount md.size) := by
  obtain ⟨t, ht, hs0⟩ := new_driver_ok (encodeTrace rs) magic0 cpu mr s0 h0
  obtain ⟨o1, o2, o3, _⟩ := new_ok (encodeTrace rs) magic0 t ht
  have ht0 : s0.trace_file_ = t := by subst hs0; rfl
  have hinv := fun c => nextMany_inv u.record u.depCount c s0.trace_file_
    (by rw [ht0, o1]; exact Nat.zero_le _) (by rw [ht0, o2]; exact o3)
    (by rw [ht0, o2]; exact hlen)
  have ht2 : TraceInputStream.new (encodeTrace rs) magic0 =
      .ok ⟨⟨encodeTrace rs, 8, true⟩, 0⟩ := new_of_magic _ magic0
  have hy : ReaderYields MemReq.Backward u s0.trace_file_ := by
    rw [ht2] at ht
    simp only [Except.ok.injEq] at ht
    subst hs0
    rw [← ht]
    exact readerYields_encodeTrace rs u _ hid hwf (fun m hm => hback _ hm)
  obtain ⟨i1, i2⟩ := reachable_gated (encodeTrace rs) magic0 cpu mr mem u n s0 s hlen h0 hy hrun
  obtain ⟨p1, p2⟩ := reachable_pendingOk (encodeTrace rs) magic0 cpu mr mem u n s0 s hlen h0 hrun
  obtain ⟨c, hist, j1, j2, j3, -⟩ :=
    reachable_progress (encodeTrace rs) magic0 cpu mr mem u n s0 s hlen h0 hrun
  obtain ⟨t1, pend, atr, hre, hmom, hsub⟩ := moments_ok mem u s s1 htick
  have ht1 : s1.trace_file_ = t1 := by
    obtain ⟨t1a, penda, atra, hrea, rfl⟩ := ClockTick_ok mem u s s1 htick
    rw [hre] at hrea
    simp only [Except.ok.injEq, Prod.mk.injEq] at hrea
    exact hrea.1.symm
  obtain ⟨⟨-, q2, c1, hist1, q3, q4, q5⟩, -, q6⟩ := refillLoop_induction_ok u s.clk_
    s.cpu_clock_ratio_ s.mem_clock_ratio_
    (fun t pend _ => ReaderYields MemReq.Backward u t ∧
      (∀ q ∈ pend, q.Backward ∧ (q.min_issue_cycle ≠ -1 → depSolved pend q = true)) ∧
      ∃ c hist, nextMany u.record u.depCount c s0.trace_file_ = (hist, some t) ∧
        (∀ m ∈ hist, m.id < t.expectRecordId ∧ Progress pend s.submitted m) ∧
        (∀ a ∈ s.submitted, a.1 < t.expectRecordId))
    (fun t pend atr r ⟨a1, a2, c, hist, b1, b2, b3⟩ _ hp hn hg hid hex hids => by
      obtain ⟨y1, y2⟩ := readerYields_next _ u t r a1 hn
      refine ⟨y1, gated_push _ _ _ _ pend r.record hp hid (y2 hg) a2,
        c + 1, hist ++ [r.record], ?_, ?_, ?_⟩
      · rw [nextMany_step _ _ c _ t hist r b1 hn, hg]; rfl
      · intro m hm
        rcases List.mem_append.mp hm with hm | hm
        · obtain ⟨e1, e2⟩ := b2 m hm
          refine ⟨by omega, progress_push_old _ _ _ _ e2 ?_⟩
          rw [stamped_id]; omega
        · simp only [List.mem_singleton] at hm
          subst hm
          exact ⟨by omega, progress_push_new _ _ _ _ _ _ _ hp b3 hid hids⟩
      · intro a ha
        have := b3 a ha
        omega)
    (fun t pend atr r ⟨a1, a2, c, hist, b1, b2, b3⟩ hn hg hex => by
      refine ⟨(readerYields_next _ u t r a1 hn).1, a2, c + 1, hist, ?_, ?_, ?_⟩
      · rw [nextMany_step _ _ c _ t hist r b1 hn, hg]; rfl
      · rw [hex]; exact b2
      · rw [hex]; exact b3)
    _ _ _ _ _ _ _ hre p1 p2 ⟨i1, i2, c, hist, j1, j2, j3⟩
  obtain ⟨-, ms, k2, k3, k4⟩ := scanLoopGhost_spec mem s.clk_ s.cpu_clock_ratio_
    s.mem_clock_ratio_
    (fun pend _ sub =>
      (∀ q ∈ pend, q.Backward ∧ (q.min_issue_cycle ≠ -1 → depSolved pend q = true)) ∧
      PendingOk t1.expectRecordId pend ∧
      (∀ m ∈ hist1, m.id < t1.expectRecordId ∧ Progress pend sub m) ∧
      (∀ a ∈ sub, a.1 < t1.expectRecordId))
    (fun done x rest _ sub ⟨a1, a2, a3, a4⟩ hx =>
      ⟨gated_erase _ _ _ done rest x a1, a2.erase _ _ _ _,
        fun m hm => ⟨(a3 m hm).1, progress_erase _ _ _ _ done rest x sub m hx (a3 m hm).2⟩, a4⟩)
    (fun done x rest _ sub k ⟨a1, a2, a3, a4⟩ _ _ _ hk => by
      refine ⟨gated_replace done rest x (x.dropIds k) rfl rfl rfl a1, a2.replace rfl,
        fun m hm => ⟨(a3 m hm).1, progress_offer _ done rest x sub m k hk a2 (a3 m hm).2⟩, ?_⟩
      intro a ha
      rcases List.mem_append.mp ha with ha | ha
      · exact a4 a ha
      · obtain ⟨o, _, rfl⟩ := List.mem_map.mp ha
        exact a2.2 x (by simp))
    pend.length [] pend (s.memory_system_ ++ [Event.ClockTick]) s.submitted []
    ⟨by simpa using q2, by simpa using q6, by simpa using q4, q5⟩
  rw [List.nil_append] at k2
  rw [hmom, k2, hsub, k3, ht1]
  refine ⟨rfl, fun m hm => ?_⟩
  obtain ⟨m1, m2, m3, log1, g1, g2, g3, -⟩ := k4 m hm
  have hsolved : depSolved m.pending m.request = true :=
    (g1 m.request m1).2 (fun h => by rw [h] at m2; exact absurd m2 (by decide))
  rw [depSolved_iff] at hsolved
  refine ⟨m1, m3, g2, fun d hd => ⟨fun q hq => hsolved d hd q hq, ?_⟩⟩
  have hdlt : d < hist1.length := by
    have e1 := (hinv c1).2 t1 (by rw [q3])
    rw [q3, ht0, o1] at e1
    simp only at e1
    have e2 := (g1 m.request m1).1 d hd
    have e3 := g2.2 m.request m1
    omega
  have hget : (nextMany u.record u.depCount c1 s0.trace_file_).1[d]? = some (hist1[d]) := by
    rw [q3]
    exact List.getElem?_eq_getElem hdlt
  have hidd : (hist1[d]).id = d := by
    have := (hinv c1).1 d (hist1[d]) hget
    rw [ht0, o1] at this
    omega
  refine ⟨hist1[d], c1, hget, hidd, ?_⟩
  obtain ⟨k, hk, e1, -, e3⟩ := (g3 (hist1[d]) (List.getElem_mem hdlt)).2
  have hfull : k = chunkCount (hist1[d]).size :=
    e3 fun q hq => by rw [hidd]; exact hsolved d hd q hq
  rw [hidd] at e1
  rw [e1, hfull]

/-- Dependency safety in the first tick on the sample trace with a memory
system that accepts everything. -/
theorem dependency_safety_witness :
    sampleTrace.map TraceRecord.id = List.range sampleTrace.length ∧
    (∀ r ∈ sampleTrace, r.WF) ∧
    (∀ r ∈ sampleTrace, ∀ d ∈ r.dependency_ids, d < r.id) ∧
    (encodeTrace sampleTrace).length < 2 ^ 64 ∧
    RamSimCPU.new (encodeTrace sampleTrace) 0 1 1 = .ok sampleStart ∧
    RamSimCPU.run acceptAll ⟨zeroReq, 0⟩ 0 sampleStart = .ok sampleStart ∧
    sampleStart.ClockTick acceptAll ⟨zeroReq, 0⟩ = .ok sampleAfterAccept ∧
    sampleAfterAccept.submitted = sampleStart.submitted ++
      ((sampleStart.moments acceptAll ⟨zeroReq, 0⟩).map Moment.submitted).flatten :=
  ⟨by decide, by simp [sampleTrace, TraceRecord.WF], by decide, by decide, by decide, by decide,
    by decide,
    (dependency_safety sampleTrace 0 1 1 acceptAll ⟨zeroReq, 0⟩ 0 sampleStart sampleStart
      sampleAfterAccept (by decide) (by simp [sampleTrace, TraceRecord.WF]) (by decide)
      (by decide) (by decide) (by decide) (by decide)).1⟩

/-! ## An end-to-end run -/

/-- A refill with room for all records that are left reads them all, meets
the end of the file and leaves the stream not good. -/
theorem refillLoop_all (u : Uninit) (clk cpu mr : Nat) (rs : List TraceRecord)
    (t : TraceInputStream) (e fuel : Nat) (pend : List MemReq) (atr : Bool)
    (hg : t.file.good = true)
    (hd : t.file.data.drop t.file.pos = (rs.map encodeRecord).flatten)
    (he : t.expectRecordId = e % 2 ^ 64)
    (hid : rs.map TraceRecord.id = List.range' e rs.length) (hwf : ∀ r ∈ rs, r.WF)
    (hroom : pend.length + rs.length < maxPendEntry) (hfuel : rs.length < fuel) :
    ∃ tn, tn.file.good = false ∧
      refillLoop u clk cpu mr fuel t pend atr = .ok (tn,
        stampAll clk cpu mr pend (rs.map fun r => r.toMemReq u.record.min_issue_cycle),
        true) := by
  induction rs generalizing t e fuel pend with
  | nil =>
    obtain ⟨f, rfl⟩ : ∃ f, fuel = f + 1 := ⟨fuel - 1, by simp at hfuel; omega⟩
    obtain ⟨r, hn, hgood, heof⟩ := next_at_end t u.record u.depCount (by simpa using hd)
    obtain ⟨_, _, hng, _⟩ := next_ok_not_good t _ _ r hn hgood
    refine ⟨r.reader, hng, ?_⟩
    have hl : pend.length < maxPendEntry := by simpa using hroom
    simp [refillLoop, hl, hn, hgood, heof, stampAll]
  | cons r rs ih =>
    obtain ⟨f, rfl⟩ : ∃ f, fuel = f + 1 := ⟨fuel - 1, by simp at hfuel; omega⟩
    simp only [List.map_cons, List.flatten_cons] at hd
    simp only [List.map_cons, List.length_cons, List.range'_succ, List.cons.injEq] at hid
    have hr := hwf r (List.mem_cons_self _ _)
    have hre : r.id = t.expectRecordId := by
      rw [he, hid.1]; exact (Nat.mod_eq_of_lt (by rw [← hid.1]; exact hr.1)).symm
    have hn := next_full t u.record u.depCount r _ hg hd hr hre
    have hd2 := drop_add_of_drop_eq _ _ _ _ hd
    simp only [List.length_cons] at hroom hfuel
    obtain ⟨tn, i1, i2⟩ := ih
      { file := { t.file with pos := t.file.pos + (encodeRecord r).length },
        expectRecordId := (t.expectRecordId + 1) % 2 ^ 64 } (e + 1) f
      (pend ++ [stamped clk cpu mr pend (r.toMemReq u.record.min_issue_cycle)]) hg hd2
      (by simp only [he]; omega) hid.2 (fun x hx => hwf x (List.mem_cons_of_mem _ hx))
      (by simp only [List.length_append, List.length_singleton]; omega) (by omega)
    refine ⟨tn, i1, ?_⟩
    have hl : pend.length < maxPendEntry := by omega
    rw [refillLoop]
    simp only [hl, if_true, hn]
    rw [List.map_cons, stampAll, ← i2]
    rfl

theorem issueCycle_delay_zero (clk cpu mr : Nat) (hcpu : 0 < cpu) :
    issueCycle clk 0 cpu mr = ((F64.ofU64 clk).addNat 0).toInt64 := by
  have hc : cpu ≠ 0 := by omega
  simp [issueCycle, hc, F64.ofU64, F64.divInt, F64.mulInt, roundToDouble, F64.ceil]

theorem chunkCount_64 : chunkCount 64 = 1 := by decide

theorem chunkCount_128 : chunkCount 128 = 2 := by decide

theorem issueCycle_at_0 (cpu mr : Nat) (hcpu : 0 < cpu) : issueCycle 0 0 cpu mr = 0 := by
  rw [issueCycle_delay_zero _ _ _ hcpu]; decide

theorem issueCycle_at_1 (cpu mr : Nat) (hcpu : 0 < cpu) : issueCycle 1 0 cpu mr = 1 := by
  rw [issueCycle_delay_zero _ _ _ hcpu]; decide

theorem issueCycle_at_2 (cpu mr : Nat) (hcpu : 0 < cpu) : issueCycle 2 0 cpu mr = 2 := by
  rw [issueCycle_delay_zero _ _ _ hcpu]; decide

/-- The pending vector after the first refill on the chain trace. -/
theorem chain_pend (a0 ty0 a1 ty1 a2 ty2 cpu mr : Nat) (m : Int) (hcpu : 0 < cpu) :
    stampAll 0 cpu mr [] ((chainTrace a0 ty0 a1 ty1 a2 ty2).map fun r => r.toMemReq m) =
      [⟨0, a0, ty0, 0, 64, [], [0], 0⟩, ⟨1, a1, ty1, 0, 64, [0], [0], -1⟩,
        ⟨2, a2, ty2, 0, 128, [1], [0, 1], -1⟩] := by
  simp [stampAll, stamped, chainTrace, TraceRecord.toMemReq, depSolved, chunkCount_64,
    chunkCount_128, issueCycle_at_0 _ _ hcpu, List.range_succ]

/-- The first tick on the chain trace. -/
theorem chain_tick1 (a0 ty0 a1 ty1 a2 ty2 cpu mr : Nat) (mem : Admission) (u : Uninit)
    (h0 : a0 < 2 ^ 64) (g0 : ty0 < 2 ^ 64) (h1 : a1 < 2 ^ 64) (g1 : ty1 < 2 ^ 64)
    (h2 : a2 < 2 ^ 64) (g2 : ty2 < 2 ^ 64) (hcpu : 0 < cpu)
    (hacc : ∀ log a w, mem log a w = true) :
    ∃ tn, tn.file.good = false ∧
      RamSimCPU.ClockTick mem u
        ⟨[], 0, ⟨⟨encodeTrace (chainTrace a0 ty0 a1 ty1 a2 ty2), 8, true⟩, 0⟩, cpu, mr, [],
          false, false, []⟩ =
      .ok ⟨[Event.ClockTick, Event.WillAcceptTransaction a0 (decide (ty0 ≠ 0)) true,
          Event.AddTransaction a0 (decide (ty0 ≠ 0))], 1, tn, cpu, mr,
        [⟨0, a0, ty0, 0, 64, [], [], 0⟩, ⟨1, a1, ty1, 0, 64, [0], [0], -1⟩,
          ⟨2, a2, ty2, 0, 128, [1], [0, 1], -1⟩], true, false,
        [(0, a0, decide (ty0 ≠ 0))]⟩ := by
  obtain ⟨tn, hg, hre⟩ := refillLoop_all u 0 cpu mr (chainTrace a0 ty0 a1 ty1 a2 ty2)
    ⟨⟨encodeTrace (chainTrace a0 ty0 a1 ty1 a2 ty2), 8, true⟩, 0⟩ 0 maxPendEntry [] false rfl
    (by simp [encodeTrace, BINFILE]) rfl rfl
    (by simp [chainTrace, TraceRecord.WF]; omega)
    (by simp [chainTrace, maxPendEntry]) (by simp [chainTrace, maxPendEntry])
  rw [chain_pend _ _ _ _ _ _ _ _ _ hcpu] at hre
  refine ⟨tn, hg, ?_⟩
  have hm : a0 % 18446744073709551616 = a0 := Nat.mod_eq_of_lt h0
  simp [RamSimCPU.ClockTick, hre, scanLoop, offerLoop, hacc, fragAddr, isWrite, hm]

/-- A tick of a driver whose reader is not good: nothing is read. -/
theorem ClockTick_not_good (mem : Admission) (u : Uninit) (s : RamSimCPU)
    (h : s.trace_file_.file.good = false) (ha : s.all_trace_read = true) :
    s.ClockTick mem u = .ok
      { s with
        memory_system_ := (scanLoop mem s.clk_ s.cpu_clock_ratio_ s.mem_clock_ratio_
          s.pendReq.length [] s.pendReq (s.memory_system_ ++ [Event.ClockTick]) s.submitted).2.1,
        clk_ := (s.clk_ + 1) % 2 ^ 64,
        pendReq := (scanLoop mem s.clk_ s.cpu_clock_ratio_ s.mem_clock_ratio_
          s.pendReq.length [] s.pendReq (s.memory_system_ ++ [Event.ClockTick]) s.submitted).1,
        finish := s.finish || (scanLoop mem s.clk_ s.cpu_clock_ratio_ s.mem_clock_ratio_
          s.pendReq.length [] s.pendReq (s.memory_system_ ++ [Event.ClockTick])
          s.submitted).1.isEmpty,
        submitted := (scanLoop mem s.clk_ s.cpu_clock_ratio_ s.mem_clock_ratio_
          s.pendReq.length [] s.pendReq (s.memory_system_ ++ [Event.ClockTick])
          s.submitted).2.2 } := by
  have hre : refillLoop u s.clk_ s.cpu_clock_ratio_ s.mem_clock_ratio_ maxPendEntry
      s.trace_file_ s.pendReq s.all_trace_read = .ok (s.trace_file_, s.pendReq, true) := by
    have := refillLoop_not_good u s.clk_ s.cpu_clock_ratio_ s.mem_clock_ratio_ 255
      s.trace_file_ s.pendReq s.all_trace_read h
    rw [ha] at this ⊢
    simpa using this
  simp only [RamSimCPU.ClockTick, hre, Bool.true_and]
  rw [ha]

/-- The second tick on the chain trace. -/
theorem chain_tick2 (a0 ty0 a1 ty1 a2 ty2 cpu mr : Nat) (mem : Admission) (u : Uninit)
    (tn : TraceInputStream) (log : List Event) (sub : List (Nat × Nat × Bool))
    (hg : tn.file.good = false) (h1 : a1 < 2 ^ 64) (hcpu : 0 < cpu)
    (hacc : ∀ log a w, mem log a w = true) :
    RamSimCPU.ClockTick mem u
      ⟨log, 1, tn, cpu, mr,
        [⟨0, a0, ty0, 0, 64, [], [], 0⟩, ⟨1, a1, ty1, 0, 64, [0], [0], -1⟩,
          ⟨2, a2, ty2, 0, 128, [1], [0, 1], -1⟩], true, false, sub⟩ =
    .ok ⟨log ++ [Event.ClockTick, Event.WillAcceptTransaction a1 (decide (ty1 ≠ 0)) true,
        Event.AddTransaction a1 (decide (ty1 ≠ 0))], 2, tn, cpu, mr,
      [⟨1, a1, ty1, 0, 64, [0], [], 1⟩, ⟨2, a2, ty2, 0, 128, [1], [0, 1], -1⟩], true, false,
      sub ++ [(1, a1, decide (ty1 ≠ 0))]⟩ := by
  have hm : a1 % 18446744073709551616 = a1 := Nat.mod_eq_of_lt h1
  rw [ClockTick_not_good mem u _ hg rfl]
  simp [scanLoop, offerLoop, hacc, fragAddr, isWrite, hm, resolve, depSolved,
    issueCycle_at_1 _ _ hcpu]

/-- The third tick on the chain trace. -/
theorem chain_tick3 (a1 ty1 a2 ty2 cpu mr : Nat) (mem : Admission) (u : Uninit)
    (tn : TraceInputStream) (log : List Event) (sub : List (Nat × Nat × Bool))
    (hg : tn.file.good = false) (h2 : a2 < 2 ^ 64) (hcpu : 0 < cpu)
    (hacc : ∀ log a w, mem log a w = true) :
    RamSimCPU.ClockTick mem u
      ⟨log, 2, tn, cpu, mr,
        [⟨1, a1, ty1, 0, 64, [0], [], 1⟩, ⟨2, a2, ty2, 0, 128, [1], [0, 1], -1⟩], true, false,
        sub⟩ =
    .ok ⟨log ++ [Event.ClockTick, Event.WillAcceptTransaction a2 (decide (ty2 ≠ 0)) true,
        Event.AddTransaction a2 (decide (ty2 ≠ 0)),
        Event.WillAcceptTransaction ((a2 + 64) % 2 ^ 64) (decide (ty2 ≠ 0)) true,
        Event.AddTransaction ((a2 + 64) % 2 ^ 64) (decide (ty2 ≠ 0))], 3, tn, cpu, mr,
      [⟨2, a2, ty2, 0, 128, [1], [], 2⟩], true, false,
      sub ++ [(2, a2, decide (ty2 ≠ 0)), (2, (a2 + 64) % 2 ^ 64, decide (ty2 ≠ 0))]⟩ := by
  have hm : a2 % 18446744073709551616 = a2 := Nat.mod_eq_of_lt h2
  rw [ClockTick_not_good mem u _ hg rfl]
  simp [scanLoop, offerLoop, hacc, fragAddr, isWrite, hm, resolve, depSolved,
    issueCycle_at_2 _ _ hcpu]

/-- The fourth tick on the chain trace. -/
theorem chain_tick4 (a2 ty2 cpu mr : Nat) (mem : Admission) (u : Uninit)
    (tn : TraceInputStream) (log : List Event) (sub : List (Nat × Nat × Bool))
    (hg : tn.file.good = false) :
    RamSimCPU.ClockTick mem u
      ⟨log, 3, tn, cpu, mr, [⟨2, a2, ty2, 0, 128, [1], [], 2⟩], true, false, sub⟩ =
    .ok ⟨log ++ [Event.ClockTick], 4, tn, cpu, mr, [], true, true, sub⟩ := by
  rw [ClockTick_not_good mem u _ hg rfl]
  simp [scanLoop]

theorem RamSimCPU.run_succ_ok (mem : Admission) (u : Uninit) (n : Nat) (s0 s : RamSimCPU)
    (h : RamSimCPU.run mem u n s0 = .ok s) :
    RamSimCPU.run mem u (n + 1) s0 = s.ClockTick mem u := by
  simp [RamSimCPU.run, h]

/-- C11: an end-to-end run. The trace holds record 0 of size 64 without
dependency, record 1 of size 64 that depends on record 0 and record 2 of size
128 that depends on record 1, all with delay 0, with any addresses and
operation types; the CPU clock ratio is positive and the memory system accepts
everything. The first tick submits the fragment of record 0, the second the
fragment of record 1, the third the two fragments of record 2 at its address
and at its address plus 64 (in 64-bit arithmetic), in this order, the fourth
nothing; each submission comes right after its accepted query, and the ticks
make no other call but their `ClockTick`. Record 0 is pending after the first
tick and evicted in the second, record 1 is evicted in the third, record 2 in
the fourth. `finished()` is false after each of the first three ticks and
true after the fourth. -/
theorem end_to_end (a0 ty0 a1 ty1 a2 ty2 magic0 cpu mr : Nat) (mem : Admission) (u : Uninit)
    (h0 : a0 < 2 ^ 64) (g0 : ty0 < 2 ^ 64) (h1 : a1 < 2 ^ 64) (g1 : ty1 < 2 ^ 64)
    (h2 : a2 < 2 ^ 64) (g2 : ty2 < 2 ^ 64) (hcpu : 0 < cpu)
    (hacc : ∀ log a w, mem log a w = true) :
    ∃ s0 s1 s2 s3 s4,
      RamSimCPU.new (encodeTrace (chainTrace a0 ty0 a1 ty1 a2 ty2)) magic0 cpu mr = .ok s0 ∧
      RamSimCPU.run mem u 1 s0 = .ok s1 ∧ RamSimCPU.run mem u 2 s0 = .ok s2 ∧
      RamSimCPU.run mem u 3 s0 = .ok s3 ∧ RamSimCPU.run mem u 4 s0 = .ok s4 ∧
      s1.memory_system_ = [Event.ClockTick,
        Event.WillAcceptTransaction a0 (decide (ty0 ≠ 0)) true,
        Event.AddTransaction a0 (decide (ty0 ≠ 0))] ∧
      s2.memory_system_ = s1.memory_system_ ++ [Event.ClockTick,
        Event.WillAcceptTransaction a1 (decide (ty1 ≠ 0)) true,
        Event.AddTransaction a1 (decide (ty1 ≠ 0))] ∧
      s3.memory_system_ = s2.memory_system_ ++ [Event.ClockTick,
        Event.WillAcceptTransaction a2 (decide (ty2 ≠ 0)) true,
        Event.AddTransaction a2 (decide (ty2 ≠ 0)),
        Event.WillAcceptTransaction ((a2 + 64) % 2 ^ 64) (decide (ty2 ≠ 0)) true,
        Event.AddTransaction ((a2 + 64) % 2 ^ 64) (decide (ty2 ≠ 0))] ∧
      s4.memory_system_ = s3.memory_system_ ++ [Event.ClockTick] ∧
      s1.pendReq.map MemReq.id = [0, 1, 2] ∧ s2.pendReq.map MemReq.id = [1, 2] ∧
      s3.pendReq.map MemReq.id = [2] ∧ s4.pendReq = [] ∧
      s1.finished = false ∧ s2.finished = false ∧ s3.finished = false ∧
      s4.finished = true := by
  obtain ⟨tn, hg, t1⟩ := chain_tick1 a0 ty0 a1 ty1 a2 ty2 cpu mr mem u h0 g0 h1 g1 h2 g2 hcpu hacc
  have hnew : RamSimCPU.new (encodeTrace (chainTrace a0 ty0 a1 ty1 a2 ty2)) magic0 cpu mr =
      .ok ⟨[], 0, ⟨⟨encodeTrace (chainTrace a0 ty0 a1 ty1 a2 ty2), 8, true⟩, 0⟩, cpu, mr, [],
        false, false, []⟩ := by
    unfold RamSimCPU.new encodeTrace
    rw [new_of_magic]
  have t2 := chain_tick2 a0 ty0 a1 ty1 a2 ty2 cpu mr mem u tn
    [Event.ClockTick, Event.WillAcceptTransaction a0 (decide (ty0 ≠ 0)) true,
      Event.AddTransaction a0 (decide (ty0 ≠ 0))] [(0, a0, decide (ty0 ≠ 0))] hg h1 hcpu hacc
  have t3 := chain_tick3 a1 ty1 a2 ty2 cpu mr mem u tn
    ([Event.ClockTick, Event.WillAcceptTransaction a0 (decide (ty0 ≠ 0)) true,
      Event.AddTransaction a0 (decide (ty0 ≠ 0))] ++
      [Event.ClockTick, Event.WillAcceptTransaction a1 (decide (ty1 ≠ 0)) true,
        Event.AddTransaction a1 (decide (ty1 ≠ 0))])
    ([(0, a0, decide (ty0 ≠ 0))] ++ [(1, a1, decide (ty1 ≠ 0))]) hg h2 hcpu hacc
  have t4 := chain_tick4 a2 ty2 cpu mr mem u tn
    ([Event.ClockTick, Event.WillAcceptTransaction a0 (decide (ty0 ≠ 0)) true,
      Event.AddTransaction a0 (decide (ty0 ≠ 0))] ++
      [Event.ClockTick, Event.WillAcceptTransaction a1 (decide (ty1 ≠ 0)) true,
        Event.AddTransaction a1 (decide (ty1 ≠ 0))] ++
      [Event.ClockTick, Event.WillAcceptTransaction a2 (decide (ty2 ≠ 0)) true,
        Event.AddTransaction a2 (decide (ty2 ≠ 0)),
        Event.WillAcceptTransaction ((a2 + 64) % 2 ^ 64) (decide (ty2 ≠ 0)) true,
        Event.AddTransaction ((a2 + 64) % 2 ^ 64) (decide (ty2 ≠ 0))])
    ([(0, a0, decide (ty0 ≠ 0))] ++ [(1, a1, decide (ty1 ≠ 0))] ++
      [(2, a2, decide (ty2 ≠ 0)), (2, (a2 + 64) % 2 ^ 64, decide (ty2 ≠ 0))]) hg
  have r1 := (RamSimCPU.run_succ_ok mem u 0 _ _ rfl).trans t1
  have r2 := (RamSimCPU.run_succ_ok mem u 1 _ _ r1).trans t2
  have r3 := (RamSimCPU.run_succ_ok mem u 2 _ _ r2).trans t3
  have r4 := (RamSimCPU.run_succ_ok mem u 3 _ _ r3).trans t4
  exact ⟨_, _, _, _, _, hnew, r1, r2, r3, r4, rfl, rfl, rfl, rfl, rfl, rfl, rfl, rfl, rfl, rfl,
    rfl, rfl⟩

/-- The end-to-end run with the addresses 4096, 8192 and 12288, a write as
record 1, and both clock ratios 1. -/
theorem end_to_end_witness :
    (4096 < 2 ^ 64 ∧ 0 < 2 ^ 64 ∧ 8192 < 2 ^ 64 ∧ 1 < 2 ^ 64 ∧ 12288 < 2 ^ 64 ∧ 0 < 1 ∧
      ∀ (log : List Event) (a : Nat) (w : Bool), acceptAll log a w = true) ∧
    ∃ s0 s1 s2 s3 s4,
      RamSimCPU.new (encodeTrace (chainTrace 4096 0 8192 1 12288 0)) 0 1 1 = .ok s0 ∧
      RamSimCPU.run acceptAll ⟨zeroReq, 0⟩ 1 s0 = .ok s1 ∧
      RamSimCPU.run acceptAll ⟨zeroReq, 0⟩ 2 s0 = .ok s2 ∧
      RamSimCPU.run acceptAll ⟨zeroReq, 0⟩ 3 s0 = .ok s3 ∧
      RamSimCPU.run acceptAll ⟨zeroReq, 0⟩ 4 s0 = .ok s4 ∧
      s1.memory_system_ = [Event.ClockTick,
        Event.WillAcceptTransaction 4096 (decide (0 ≠ 0)) true,
        Event.AddTransaction 4096 (decide (0 ≠ 0))] ∧
      s2.memory_system_ = s1.memory_system_ ++ [Event.ClockTick,
        Event.WillAcceptTransaction 8192 (decide (1 ≠ 0)) true,
        Event.AddTransaction 8192 (decide (1 ≠ 0))] ∧
      s3.memory_system_ = s2.memory_system_ ++ [Event.ClockTick,
        Event.WillAcceptTransaction 12288 (decide (0 ≠ 0)) true,
        Event.AddTransaction 12288 (decide (0 ≠ 0)),
        Event.WillAcceptTransaction ((12288 + 64) % 2 ^ 64) (decide (0 ≠ 0)) true,
        Event.AddTransaction ((12288 + 64) % 2 ^ 64) (decide (0 ≠ 0))] ∧
      s4.memory_system_ = s3.memory_system_ ++ [Event.ClockTick] ∧
      s1.pendReq.map MemReq.id = [0, 1, 2] ∧ s2.pendReq.map MemReq.id = [1, 2] ∧
      s3.pendReq.map MemReq.id = [2] ∧ s4.pendReq = [] ∧
      s1.finished = false ∧ s2.finished = false ∧ s3.finished = false ∧
      s4.finished = true :=
  ⟨⟨by decide, by decide, by decide, by decide, by decide, by decide, fun _ _ _ => rfl⟩,
    end_to_end 4096 0 8192 1 12288 0 0 1 1 acceptAll ⟨zeroReq, 0⟩ (by decide) (by decide)
      (by decide) (by decide) (by decide) (by decide) (by decide) (fun _ _ _ => rfl)⟩

/-! ## The answers of the memory system -/

theorem answeredBy_append (mem : Admission) (log a b : List Event) :
    answeredBy mem log (a ++ b) = (answeredBy mem log a && answeredBy mem (log ++ a) b) := by
  induction a generalizing log with
  | nil => simp [answeredBy]
  | cons e a ih =>
    have h := ih (log ++ [e])
    rw [List.append_assoc, List.singleton_append] at h
    show (_ && answeredBy mem (log ++ [e]) (a ++ b)) = _
    rw [h]
    simp only [answeredBy, Bool.and_assoc]

/-- The queries of the offer loop carry the answers of the memory system. -/
theorem offerLoop_answered (mem : Admission) (r : MemReq) (ids : List Nat) (log : List Event)
    (sub : List (Nat × Nat × Bool)) :
    ∃ calls, (offerLoop mem r ids log sub).2.1 = log ++ calls ∧
      answeredBy mem log calls = true := by
  induction ids generalizing log sub with
  | nil => exact ⟨[], by simp [offerLoop], rfl⟩
  | cons o rest ih =>
    by_cases ha : mem log (fragAddr r o) (isWrite r) = true
    · obtain ⟨c, h1, h2⟩ := ih
        (log ++ [Event.WillAcceptTransaction (fragAddr r o) (isWrite r) true] ++
          [Event.AddTransaction (fragAddr r o) (isWrite r)])
        (sub ++ [(r.id, fragAddr r o, isWrite r)])
      refine ⟨Event.WillAcceptTransaction (fragAddr r o) (isWrite r) true ::
        Event.AddTransaction (fragAddr r o) (isWrite r) :: c, ?_, ?_⟩
      · simp only [offerLoop, ha, if_true, h1]
        simp
      · simp only [answeredBy, ha, decide_True, Bool.true_and]
        simpa using h2
    · have ha' : mem log (fragAddr r o) (isWrite r) = false := by simpa using ha
      refine ⟨[Event.WillAcceptTransaction (fragAddr r o) (isWrite r) false], ?_, ?_⟩
      · simp only [offerLoop, ha', Bool.false_eq_true, if_false]
      · simp [answeredBy, ha']

/-- The queries of the scan carry the answers of the memory system. -/
theorem scanLoop_answered (mem : Admission) (clk cpu mr fuel : Nat) (done todo : List MemReq)
    (log : List Event) (sub : List (Nat × Nat × Bool)) :
    ∃ calls, (scanLoop mem clk cpu mr fuel done todo log sub).2.1 = log ++ calls ∧
      answeredBy mem log calls = true := by
  induction fuel generalizing done todo log sub with
  | zero => exact ⟨[], by simp [scanLoop], rfl⟩
  | succ fuel ih =>
    cases todo with
    | nil => exact ⟨[], by simp [scanLoop], rfl⟩
    | cons x rest =>
      unfold scanLoop
      by_cases he : x.ids.isEmpty = true
      · simp only [he, if_true]
        exact ih _ _ _ _
      · simp only [he, Bool.false_eq_true, if_false]
        by_cases h0 : 0 ≤ x.min_issue_cycle
        · by_cases h1 : x.min_issue_cycle ≤ (clk : Int)
          · simp only [h0, h1, if_true]
            obtain ⟨c1, a1, a2⟩ := offerLoop_answered mem x x.ids log sub
            obtain ⟨c2, b1, b2⟩ := ih (done ++ [{ x with ids := (offerLoop mem x x.ids log sub).1 }])
              rest (offerLoop mem x x.ids log sub).2.1 (offerLoop mem x x.ids log sub).2.2
            refine ⟨c1 ++ c2, ?_, ?_⟩
            · rw [b1, a1, List.append_assoc]
            · rw [answeredBy_append, a2, Bool.true_and, ← a1]
              exact b2
          · simp only [h0, h1, if_true, if_false]
            exact ih _ _ _ _
        · simp only [h0, if_false]
          exact ih _ _ _ _

/-- The queries of a tick of `RamSimCPU` carry the answers of the memory
system. -/
theorem ramsim_tick_answered (mem : Admission) (u : Uninit) (s s1 : RamSimCPU)
    (h : s.ClockTick mem u = .ok s1) :
    ∃ calls, s1.memory_system_ = s.memory_system_ ++ Event.ClockTick :: calls ∧
      answeredBy mem s.memory_system_ (Event.ClockTick :: calls) = true := by
  obtain ⟨t, pend, atr, -, rfl⟩ := ClockTick_ok mem u s s1 h
  obtain ⟨c, h1, h2⟩ := scanLoop_answered mem s.clk_ s.cpu_clock_ratio_ s.mem_clock_ratio_
    pend.length [] pend (s.memory_system_ ++ [Event.ClockTick]) s.submitted
  refine ⟨c, ?_, ?_⟩
  · show (scanLoop mem s.clk_ s.cpu_clock_ratio_ s.mem_clock_ratio_ pend.length [] pend
      (s.memory_system_ ++ [Event.ClockTick]) s.submitted).2.1 = _
    rw [h1]; simp
  · simpa [answeredBy] using h2

/-- The queries of the offer loop of `StreamCPU` carry the answers of the
memory system. -/
theorem streamOfferLoop_answered (mem : Admission) (addrs : List Nat) (offset : Nat)
    (is : List Nat) (inserted : List Bool) (log : List Event) :
    ∃ calls, (streamOfferLoop mem addrs offset is inserted log).2 = log ++ calls ∧
      answeredBy mem log calls = true := by
  induction is generalizing inserted log with
  | nil => exact ⟨[], by simp [streamOfferLoop], rfl⟩
  | cons i rest ih =>
    unfold streamOfferLoop
    by_cases hi : inserted.getD i false = true
    · simp only [hi, if_true]
      exact ih _ _
    · simp only [hi, Bool.false_eq_true, if_false]
      by_cases ha : mem log ((addrs.getD i 0 + offset) % 2 ^ 64) (decide (i % 3 = 2)) = true
      · simp only [ha, if_true]
        obtain ⟨c, h1, h2⟩ := ih (inserted.set i true)
          (log ++ [Event.WillAcceptTransaction ((addrs.getD i 0 + offset) % 2 ^ 64)
              (decide (i % 3 = 2)) true] ++
            [Event.AddTransaction ((addrs.getD i 0 + offset) % 2 ^ 64) (decide (i % 3 = 2))])
        refine ⟨Event.WillAcceptTransaction ((addrs.getD i 0 + offset) % 2 ^ 64)
            (decide (i % 3 = 2)) true ::
          Event.AddTransaction ((addrs.getD i 0 + offset) % 2 ^ 64) (decide (i % 3 = 2)) :: c,
          ?_, ?_⟩
        · rw [h1]; simp
        · simp only [answeredBy, ha, decide_True, Bool.true_and]
          simpa using h2
      · have ha' : mem log ((addrs.getD i 0 + offset) % 2 ^ 64) (decide (i % 3 = 2)) = false := by
          simpa using ha
        simp only [ha', Bool.false_eq_true, if_false]
        obtain ⟨c, h1, h2⟩ := ih inserted
          (log ++ [Event.WillAcceptTransaction ((addrs.getD i 0 + offset) % 2 ^ 64)
              (decide (i % 3 = 2)) false])
        refine ⟨Event.WillAcceptTransaction ((addrs.getD i 0 + offset) % 2 ^ 64)
            (decide (i % 3 = 2)) false :: c, ?_, ?_⟩
        · rw [h1]; simp
        · simp only [answeredBy, ha', decide_True, Bool.true_and]
          exact h2

/-- C7, fragment ordering within a cycle. In a tick from a reachable state
(on a file of fewer than `2^64` bytes, for every memory system `mem`) the
calls to the memory system are its `ClockTick` and then one block per offered
request, the blocks in the order of the pending vector and at most one per
request. The request of a block has offsets left, a `min_issue_cycle` between
0 and the cycle counter, and its remaining offsets are consecutive and
ascending; the block queries them in this order at `addr + offset*64`
(64-bit arithmetic), each query answered true directly followed by the
submission, and ends with the first query answered false. Every answer in
these calls is the answer of `mem` on the calls made before the query, so a
fragment is submitted exactly if the memory system accepts it when asked, and
nothing of the request is asked after its first refusal. The request stays
pending with exactly the accepted offsets erased. Every request that was
pending at the start of the tick with offsets left and a `min_issue_cycle`
between 0 and the cycle counter has its block. -/
theorem fragment_ordering (bytes : List Byte) (magic0 cpu mr : Nat) (mem : Admission)
    (u : Uninit) (n : Nat) (s0 s s1 : RamSimCPU) (hlen : bytes.length < 2 ^ 64)
    (h0 : RamSimCPU.new bytes magic0 cpu mr = .ok s0)
    (hrun : RamSimCPU.run mem u n s0 = .ok s)
    (htick : s.ClockTick mem u = .ok s1) :
    ∃ blocks : List (MemReq × Nat),
      s1.memory_system_ = s.memory_system_ ++
        Event.ClockTick :: (blocks.map fun b => fragmentCalls b.1 b.2).flatten ∧
      answeredBy mem s.memory_system_
        (Event.ClockTick :: (blocks.map fun b => fragmentCalls b.1 b.2).flatten) = true ∧
      (∀ b ∈ blocks, b.1.ids ≠ [] ∧ 0 ≤ b.1.min_issue_cycle ∧
        b.1.min_issue_cycle ≤ (s.clk_ : Int) ∧ b.2 ≤ b.1.ids.length ∧
        ∃ j c, b.1.ids = List.range' j c) ∧
      (blocks.map fun b => b.1.dropIds b.2).Sublist s1.pendReq ∧
      (∀ r ∈ s.pendReq, r.ids ≠ [] → 0 ≤ r.min_issue_cycle →
        r.min_issue_cycle ≤ (s.clk_ : Int) → ∃ b ∈ blocks, b.1 = r) := by
  obtain ⟨p1, p2⟩ := reachable_pendingOk bytes magic0 cpu mr mem u n s0 s hlen h0 hrun
  have hasc := reachable_ascending bytes magic0 cpu mr mem u n s0 s hlen h0 hrun
  obtain ⟨calls, c1, c2⟩ := ramsim_tick_answered mem u s s1 htick
  obtain ⟨t, pend, atr, hre, hs1⟩ := ClockTick_ok mem u s s1 htick
  obtain ⟨k1, k2, _⟩ := refillLoop_keeps u _ _ _ _ _ _ _ _ _ _ hre p1 p2 hasc
  obtain ⟨blocks, b1, b2, b3, b4⟩ := scanLoop_blocks mem s.clk_ s.cpu_clock_ratio_
    s.mem_clock_ratio_ pend (s.memory_system_ ++ [Event.ClockTick]) s.submitted k2
  have hlog : s1.memory_system_ = s.memory_system_ ++
      Event.ClockTick :: (blocks.map fun b => fragmentCalls b.1 b.2).flatten := by
    subst hs1
    simp only [b1, List.append_assoc, List.singleton_append]
  have hcalls : calls = (blocks.map fun b => fragmentCalls b.1 b.2).flatten := by
    have := c1.symm.trans hlog
    simpa using this
  subst hs1
  exact ⟨blocks, hlog, by rw [← hcalls]; exact c2, b2, b3,
    fun r hr g1 g2 g3 => b4 r (k1 r hr) g1 g2 g3⟩

/-- The second tick on the sample trace with the memory system `refuse8256`:
the first fragment of request 1 is accepted and submitted, the second is
refused, the third is not offered. -/
theorem fragment_ordering_witness :
    (encodeTrace sampleTrace).length < 2 ^ 64 ∧
    RamSimCPU.new (encodeTrace sampleTrace) 0 1 1 = .ok sampleStart ∧
    RamSimCPU.run refuse8256 ⟨zeroReq, 0⟩ 1 sampleStart = .ok sampleAfterAccept ∧
    sampleAfterAccept.ClockTick refuse8256 ⟨zeroReq, 0⟩ = .ok samplePartial ∧
    ∃ blocks : List (MemReq × Nat),
      samplePartial.memory_system_ = sampleAfterAccept.memory_system_ ++
        Event.ClockTick :: (blocks.map fun b => fragmentCalls b.1 b.2).flatten ∧
      answeredBy refuse8256 sampleAfterAccept.memory_system_
        (Event.ClockTick :: (blocks.map fun b => fragmentCalls b.1 b.2).flatten) = true ∧
      (∀ b ∈ blocks, b.1.ids ≠ [] ∧ 0 ≤ b.1.min_issue_cycle ∧
        b.1.min_issue_cycle ≤ (sampleAfterAccept.clk_ : Int) ∧ b.2 ≤ b.1.ids.length ∧
        ∃ j c, b.1.ids = List.range' j c) ∧
      (blocks.map fun b => b.1.dropIds b.2).Sublist samplePartial.pendReq ∧
      (∀ r ∈ sampleAfterAccept.pendReq, r.ids ≠ [] → 0 ≤ r.min_issue_cycle →
        r.min_issue_cycle ≤ (sampleAfterAccept.clk_ : Int) → ∃ b ∈ blocks, b.1 = r) :=
  ⟨by decide, by decide, by decide, by decide,
    fragment_ordering (encodeTrace sampleTrace) 0 1 1 refuse8256 ⟨zeroReq, 0⟩ 1 sampleStart
      sampleAfterAccept samplePartial (by decide) (by decide) (by decide) (by decide)⟩

/-- The queries of a tick of `StreamCPU` carry the answers of the memory
system. -/
theorem stream_tick_answered (mem : Admission) (rng : Mt19937_64) (s : StreamCPU) :
    ∃ calls, (s.ClockTick mem rng).memory_system_ = s.memory_system_ ++ Event.ClockTick :: calls ∧
      answeredBy mem s.memory_system_ (Event.ClockTick :: calls) = true := by
  obtain ⟨c, h1, h2⟩ := streamOfferLoop_answered mem (s.prepared rng).addrs
    (s.prepared rng).offset_ (List.range num_stream) (s.prepared rng).inserted
    (s.memory_system_ ++ [Event.ClockTick])
  refine ⟨c, ?_, ?_⟩
  · rw [StreamCPU.stream_tick_eq]
    show (streamOfferLoop mem (s.prepared rng).addrs (s.prepared rng).offset_
      (List.range num_stream) (s.prepared rng).inserted
      (s.memory_system_ ++ [Event.ClockTick])).2 = _
    rw [h1]; simp
  · simpa [answeredBy] using h2

/-- C19: the progress rule of `StreamCPU`. In the tick that starts in any
state with a three-element array `inserted`, for every memory system `mem`,
the calls after the `ClockTick` are, for the arrays 0, 1, 2 in this order:
nothing for an inserted array; for any other array the query for
`addrs[i] + offset` (64-bit) with write flag `i = 2`, and the submission
exactly if the array is marked inserted at the end of the offers. Every
answer in these calls is the answer of `mem` on the calls made before the
query, so an array that was not inserted is marked inserted exactly if the
memory system accepts its fragment when asked. Flags that were set stay set.
If all three arrays are inserted at the end of the offers, the offset grows
by 64 and the flags are reset; otherwise the offset stays and the flags are
kept. The offset of the offers is below `array_size_`, and from construction
on it is a multiple of 64. In a round that starts with no array inserted and
ends with the first tick that inserts the last array, every array is
submitted in exactly one tick. -/
theorem stream_progress (mem : Admission) (rng : Mt19937_64) :
    (∀ s : StreamCPU, s.inserted.length = num_stream →
      (s.ClockTick mem rng).memory_system_ = s.memory_system_ ++ Event.ClockTick ::
        (s.arrayCalls mem rng 0 ++ s.arrayCalls mem rng 1 ++ s.arrayCalls mem rng 2) ∧
      answeredBy mem s.memory_system_ (Event.ClockTick ::
        (s.arrayCalls mem rng 0 ++ s.arrayCalls mem rng 1 ++ s.arrayCalls mem rng 2)) = true ∧
      (∀ i, s.inserted.getD i false = true → (s.flags mem rng).getD i false = true) ∧
      (s.complete mem rng = true →
        (s.ClockTick mem rng).offset_ = ((s.prepared rng).offset_ + 64) % 2 ^ 64 ∧
        (s.ClockTick mem rng).inserted = List.replicate num_stream false) ∧
      (s.complete mem rng = false →
        (s.ClockTick mem rng).offset_ = (s.prepared rng).offset_ ∧
        (s.ClockTick mem rng).inserted = s.flags mem rng) ∧
      (s.prepared rng).offset_ < array_size_) ∧
    (∀ a0 a1 a2 n : Nat,
      ((StreamCPU.run mem rng n (StreamCPU.new a0 a1 a2)).prepared rng).offset_ % 64 = 0 ∧
      ((StreamCPU.run mem rng n (StreamCPU.new a0 a1 a2)).prepared rng).offset_ < array_size_ ∧
      (StreamCPU.run mem rng n (StreamCPU.new a0 a1 a2)).inserted.length = num_stream) ∧
    (∀ (s0 : StreamCPU) (n : Nat), s0.inserted = List.replicate num_stream false →
      (∀ j < n, (StreamCPU.run mem rng j s0).complete mem rng = false) →
      (StreamCPU.run mem rng n s0).complete mem rng = true →
      ∀ i < num_stream, ∃! j, j ≤ n ∧ (StreamCPU.run mem rng j s0).submits mem rng i = true) := by
  refine ⟨fun s hi => ⟨?_, ?_, (StreamCPU.offers_eq mem rng s hi).2.2, fun hc => ?_, fun hc => ?_,
      (StreamCPU.prepared_offset rng s).1⟩,
    fun a0 a1 a2 n => ?_, fun s0 n h0 hopen hdone i hi => StreamCPU.round mem rng s0 n h0 hopen
      hdone i hi⟩
  · rw [StreamCPU.stream_tick_eq]
    exact (StreamCPU.offers_eq mem rng s hi).1
  · obtain ⟨calls, c1, c2⟩ := stream_tick_answered mem rng s
    have hlog : (s.ClockTick mem rng).memory_system_ = s.memory_system_ ++ Event.ClockTick ::
        (s.arrayCalls mem rng 0 ++ s.arrayCalls mem rng 1 ++ s.arrayCalls mem rng 2) := by
      rw [StreamCPU.stream_tick_eq]
      exact (StreamCPU.offers_eq mem rng s hi).1
    have hcalls : calls =
        s.arrayCalls mem rng 0 ++ s.arrayCalls mem rng 1 ++ s.arrayCalls mem rng 2 := by
      have := c1.symm.trans hlog
      simpa using this
    rw [← hcalls]; exact c2
  · rw [StreamCPU.stream_tick_eq]
    simp [hc, stride_]
  · rw [StreamCPU.stream_tick_eq]
    simp [hc]
  · have hinv := StreamCPU.run_inv mem rng n (StreamCPU.new a0 a1 a2) rfl rfl
    have hp := StreamCPU.prepared_offset rng (StreamCPU.run mem rng n (StreamCPU.new a0 a1 a2))
    refine ⟨?_, hp.1, hinv.1⟩
    rcases hp.2 with h | h
    · rw [h]
    · rw [h]; exact hinv.2

/-- The first tick of `StreamCPU` with the base addresses 0, 4096 and 8192
and a memory system that refuses the address 4096: the arrays 0 and 2 are
submitted and marked, array 1 is refused and not marked, the offset stays. -/
theorem stream_progress_witness :
    (StreamCPU.new 0 0 0).inserted.length = num_stream ∧
    ((StreamCPU.new 0 0 0).ClockTick refuse4096 pageRng).memory_system_ =
      [Event.ClockTick, Event.WillAcceptTransaction 0 false true, Event.AddTransaction 0 false,
        Event.WillAcceptTransaction 4096 false false,
        Event.WillAcceptTransaction 8192 true true, Event.AddTransaction 8192 true] ∧
    (StreamCPU.new 0 0 0).flags refuse4096 pageRng = [true, false, true] ∧
    (StreamCPU.new 0 0 0).complete refuse4096 pageRng = false ∧
    ((StreamCPU.new 0 0 0).ClockTick refuse4096 pageRng).memory_system_ =
      (StreamCPU.new 0 0 0).memory_system_ ++ Event.ClockTick ::
        ((StreamCPU.new 0 0 0).arrayCalls refuse4096 pageRng 0 ++
          (StreamCPU.new 0 0 0).arrayCalls refuse4096 pageRng 1 ++
          (StreamCPU.new 0 0 0).arrayCalls refuse4096 pageRng 2) ∧
    answeredBy refuse4096 (StreamCPU.new 0 0 0).memory_system_ (Event.ClockTick ::
      ((StreamCPU.new 0 0 0).arrayCalls refuse4096 pageRng 0 ++
        (StreamCPU.new 0 0 0).arrayCalls refuse4096 pageRng 1 ++
        (StreamCPU.new 0 0 0).arrayCalls refuse4096 pageRng 2)) = true ∧
    ((StreamCPU.new 0 0 0).ClockTick refuse4096 pageRng).offset_ =
      ((StreamCPU.new 0 0 0).prepared pageRng).offset_ ∧
    ((StreamCPU.new 0 0 0).ClockTick refuse4096 pageRng).inserted =
      (StreamCPU.new 0 0 0).flags refuse4096 pageRng :=
  ⟨by decide, by decide, by decide, by decide,
    ((stream_progress refuse4096 pageRng).1 (StreamCPU.new 0 0 0) (by decide)).1,
    ((stream_progress refuse4096 pageRng).1 (StreamCPU.new 0 0 0) (by decide)).2.1,
    (((stream_progress refuse4096 pageRng).1 (StreamCPU.new 0 0 0) (by decide)).2.2.2.2.1
      (by decide)).1,
    (((stream_progress refuse4096 pageRng).1 (StreamCPU.new 0 0 0) (by decide)).2.2.2.2.1
      (by decide)).2⟩

/-! ## The reader and the storage of its vectors -/

theorem readDeps_length (f : IfStream) (olds : List Nat) :
    (readDeps f olds).1.length = olds.length := by
  induction olds generalizing f with
  | nil => rfl
  | cons d ds ih => simp only [readDeps, List.length_cons, ih]

/-- `parseRecordAlloc` ends the program if a record is there and one of its
two vectors does not get its storage, and is `parseRecord` otherwise. -/
theorem parseRecordAlloc_eq (alloc : Allocator) (t : TraceInputStream) (record : MemReq)
    (dc : Nat) :
    t.parseRecordAlloc alloc record dc =
      if (t.parseRecord record dc).good = true ∧
          ¬ (resizeOk alloc record.deps (t.parseRecord record dc).record.deps.length = true ∧
            resizeOk alloc record.ids
              (chunkCount (t.parseRecord record dc).record.size) = true) then
        .error .badAlloc
      else .ok (t.parseRecord record dc) := by
  unfold TraceInputStream.parseRecordAlloc TraceInputStream.parseRecord
  by_cases hp : t.file.peekEOF.1 = true
  · simp [hp]
  · simp only [hp, Bool.false_eq_true, if_false, readDeps_length, resize_length, true_and]
    by_cases h1 : resizeOk alloc record.deps (readU64 (readU64 (readU64 (readU64 (readU64
        (readU64 t.file.peekEOF.2 record.id).2 record.addr).2 record.type).2 record.delay).2
        record.size).2 dc).1 = true
    · by_cases h2 : resizeOk alloc record.ids (chunkCount (readU64 (readU64 (readU64 (readU64
          (readU64 t.file.peekEOF.2 record.id).2 record.addr).2 record.type).2 record.delay).2
          record.size).1) = true
      · simp [h1, h2]
      · simp [h1, h2]
    · simp [h1]

/-- The same for `next`. -/
theorem nextAlloc_eq (alloc : Allocator) (t : TraceInputStream) (record : MemReq) (dc : Nat) :
    t.nextAlloc alloc record dc =
      if (t.parseRecord record dc).good = true ∧
          ¬ (resizeOk alloc record.deps (t.parseRecord record dc).record.deps.length = true ∧
            resizeOk alloc record.ids
              (chunkCount (t.parseRecord record dc).record.size) = true) then
        .error .badAlloc
      else t.next record dc := by
  unfold TraceInputStream.nextAlloc
  rw [parseRecordAlloc_eq]
  by_cases hc : (t.parseRecord record dc).good = true ∧
      ¬ (resizeOk alloc record.deps (t.parseRecord record dc).record.deps.length = true ∧
        resizeOk alloc record.ids (chunkCount (t.parseRecord record dc).record.size) = true)
  · rw [if_pos hc, if_pos hc]
  · rw [if_neg hc, if_neg hc]
    rfl

/-- A call that finds its storage is the call of `next`. -/
theorem nextAlloc_full (alloc : Allocator) (t : TraceInputStream) (record : MemReq) (dc : Nat)
    (r : TraceRecord) (rest : List Byte) (hg : t.file.good = true)
    (hd : t.file.data.drop t.file.pos = encodeRecord r ++ rest) (hr : r.WF)
    (ha1 : resizeOk alloc record.deps r.dependency_ids.length = true)
    (ha2 : resizeOk alloc record.ids (chunkCount r.size) = true) :
    t.nextAlloc alloc record dc = t.next record dc := by
  rw [nextAlloc_eq, parseRecord_full t record dc r rest hg hd hr]
  simp [ha1, ha2]

/-- A call that finds no record asks for no storage. -/
theorem nextAlloc_not_good (alloc : Allocator) (t : TraceInputStream) (record : MemReq)
    (dc : Nat) (res : ParseResult) (hn : t.next record dc = .ok res) (hg : res.good = false) :
    t.nextAlloc alloc record dc = .ok res := by
  have hp : (t.parseRecord record dc).good = false := by
    cases hpg : (t.parseRecord record dc).good with
    | false => rfl
    | true =>
      exfalso
      unfold TraceInputStream.next at hn
      by_cases hi : (t.parseRecord record dc).record.id = t.expectRecordId
      · simp only [hpg, hi, if_true, ne_eq, not_true_eq_false, if_false, Except.ok.injEq] at hn
        subst hn
        simp [hpg] at hg
      · simp [hpg, hi] at hn
  rw [nextAlloc_eq, hp]
  simpa using hn

/-- Reading back the images of records whose ids continue the expected id and
whose vectors get their storage. -/
theorem nextManyAlloc_full (alloc : Allocator) (record : MemReq) (dc : Nat)
    (rs : List TraceRecord) (rest : List Byte)
    (t : TraceInputStream) (e : Nat) (hg : t.file.good = true)
    (hd : t.file.data.drop t.file.pos = (rs.map encodeRecord).flatten ++ rest)
    (he : t.expectRecordId = e % 2 ^ 64)
    (hid : rs.map TraceRecord.id = List.range' e rs.length) (hwf : ∀ r ∈ rs, r.WF)
    (halloc : ∀ r ∈ rs, resizeOk alloc record.deps r.dependency_ids.length = true ∧
      resizeOk alloc record.ids (chunkCount r.size) = true) :
    ∃ out tn, nextManyAlloc alloc record dc rs.length t = (out, some tn) ∧
      out.map MemReq.toTraceRecord = rs ∧
      tn.file.good = true ∧ tn.file.data = t.file.data ∧
      tn.file.data.drop tn.file.pos = rest ∧
      tn.expectRecordId = (e + rs.length) % 2 ^ 64 := by
  induction rs generalizing t e with
  | nil =>
    refine ⟨[], t, rfl, rfl, hg, rfl, ?_, ?_⟩
    · simpa using hd
    · simpa using he
  | cons r rs ih =>
    simp only [List.map_cons, List.flatten_cons, List.append_assoc] at hd
    simp only [List.map_cons, List.length_cons, List.range'_succ, List.cons.injEq] at hid
    have hr := hwf r (List.mem_cons_self _ _)
    have ha := halloc r (List.mem_cons_self _ _)
    have hre : r.id = t.expectRecordId := by
      rw [he, hid.1]; exact (Nat.mod_eq_of_lt (by rw [← hid.1]; exact hr.1)).symm
    have hn := (nextAlloc_full alloc t record dc r _ hg hd hr ha.1 ha.2).trans
      (next_full t record dc r _ hg hd hr hre)
    have hd2 := drop_add_of_drop_eq _ _ _ _ hd
    obtain ⟨out, tn, i1, i2, i3, i4, i5, i6⟩ := ih
      { file := { t.file with pos := t.file.pos + (encodeRecord r).length },
        expectRecordId := (t.expectRecordId + 1) % 2 ^ 64 } (e + 1) hg hd2
      (by simp only [he]; omega) hid.2 (fun x hx => hwf x (List.mem_cons_of_mem _ hx))
      (fun x hx => halloc x (List.mem_cons_of_mem _ hx))
    refine ⟨MemReq.mk r.id r.address r.op_type r.delay r.size r.dependency_ids
      (List.range (chunkCount r.size)) record.min_issue_cycle :: out, tn, ?_, ?_, i3, i4, i5, ?_⟩
    · simp only [nextManyAlloc, hn, i1, if_true, List.length_cons]
    · simp only [List.map_cons, i2, MemReq.toTraceRecord]
    · rw [i6, List.length_cons]; congr 1; omega

/-! ## C3 and C4: the round trip and the chunk offsets -/

/-- C3, round trip of the trace format, for records whose vectors get their
storage. For records with ids `0, 1, ..., n-1` whose fields fit 64 bits, and
an allocator that grants, for each record, a vector of `dependency_count`
elements and one of `ceil(size / 64.0)` elements, the reader opened on the
encoded trace returns, in `n` successive calls of `next`, `n` records with
exactly the stored fields of the given ones, in order, and the call after them
returns false with `eof` set. -/
theorem trace_round_trip (alloc : Allocator) (rs : List TraceRecord) (magic0 : Nat)
    (record : MemReq) (depCount0 : Nat)
    (hid : rs.map TraceRecord.id = List.range rs.length) (hwf : ∀ r ∈ rs, r.WF)
    (halloc : ∀ r ∈ rs, resizeOk alloc record.deps r.dependency_ids.length = true ∧
      resizeOk alloc record.ids (chunkCount r.size) = true) :
    ∃ t0 tn out res, TraceInputStream.new (encodeTrace rs) magic0 = .ok t0 ∧
      nextManyAlloc alloc record depCount0 rs.length t0 = (out, some tn) ∧
      out.map MemReq.toTraceRecord = rs ∧
      tn.nextAlloc alloc record depCount0 = .ok res ∧ res.good = false ∧ res.eof = true := by
  obtain ⟨out, tn, i1, i2, i3, i4, i5, i6⟩ := nextManyAlloc_full alloc record depCount0 rs []
    ⟨⟨BINFILE ++ (rs.map encodeRecord).flatten, 8, true⟩, 0⟩ 0 rfl
    (by simp [BINFILE]) rfl (by rw [hid, List.range_eq_range']) hwf halloc
  obtain ⟨res, j1, j2, j3⟩ := next_at_end tn record depCount0 i5
  exact ⟨_, tn, out, res, new_of_magic _ magic0, i1, i2,
    nextAlloc_not_good alloc tn record depCount0 res j1 j2, j2, j3⟩

/-- The hypotheses of C3 hold on the sample trace, read into a new request
with an allocator that grants every vector of fewer than `2^47` elements. -/
theorem trace_round_trip_witness :
    sampleTrace.map TraceRecord.id = List.range sampleTrace.length ∧
    (∀ r ∈ sampleTrace, r.WF) ∧
    (∀ r ∈ sampleTrace, resizeOk pebibyte zeroReq.deps r.dependency_ids.length = true ∧
      resizeOk pebibyte zeroReq.ids (chunkCount r.size) = true) ∧
    ∃ t0 tn out res, TraceInputStream.new (encodeTrace sampleTrace) 0 = .ok t0 ∧
      nextManyAlloc pebibyte zeroReq 0 sampleTrace.length t0 = (out, some tn) ∧
      out.map MemReq.toTraceRecord = sampleTrace ∧
      tn.nextAlloc pebibyte zeroReq 0 = .ok res ∧ res.good = false ∧ res.eof = true :=
  ⟨by decide, by simp [sampleTrace, TraceRecord.WF], by decide,
    trace_round_trip pebibyte sampleTrace 0 zeroReq 0 (by decide)
      (by simp [sampleTrace, TraceRecord.WF]) (by decide)⟩

/-- C3, the claim as stated fails for a size whose chunk offsets get no
storage. The trace of one record with id 0 and size `2^53 + 1` has the ids
`0, ..., n-1` and 64-bit fields, and the reader opens it; the vector of its
`2^47` chunk offsets (1 PiB) is refused by an allocator that grants every
vector of fewer than `2^47` elements, so the first call of `next` ends the
program and returns no record. -/
theorem trace_round_trip_bad_alloc :
    hugeTrace.map TraceRecord.id = List.range hugeTrace.length ∧
    (∀ r ∈ hugeTrace, r.WF) ∧
    TraceInputStream.new (encodeTrace hugeTrace) 0 =
      .ok ⟨⟨encodeTrace hugeTrace, 8, true⟩, 0⟩ ∧
    chunkCount (2 ^ 53 + 1) = 2 ^ 47 ∧
    TraceInputStream.nextAlloc pebibyte ⟨⟨encodeTrace hugeTrace, 8, true⟩, 0⟩ zeroReq 0 =
      .error Fatal.badAlloc ∧
    nextManyAlloc pebibyte zeroReq 0 hugeTrace.length ⟨⟨encodeTrace hugeTrace, 8, true⟩, 0⟩ =
      ([], none) := by
  have hn : TraceInputStream.nextAlloc pebibyte ⟨⟨encodeTrace hugeTrace, 8, true⟩, 0⟩
      zeroReq 0 = .error Fatal.badAlloc := by
    rw [nextAlloc_eq, parseRecord_full ⟨⟨encodeTrace hugeTrace, 8, true⟩, 0⟩ zeroReq 0
      ⟨0, 0, 0, 0, 2 ^ 53 + 1, []⟩ [] rfl (by simp [hugeTrace, encodeTrace, BINFILE])
      (by simp [TraceRecord.WF])]
    have hc : chunkCount 9007199254740993 = 140737488355328 := by decide
    simp [hc, resizeOk, pebibyte, zeroReq]
  refine ⟨by decide, by simp [hugeTrace, TraceRecord.WF], new_of_magic _ 0, by decide, hn, ?_⟩
  simp only [hugeTrace, List.length_singleton, nextManyAlloc]
  rw [show TraceInputStream.nextAlloc pebibyte
      ⟨⟨encodeTrace [⟨0, 0, 0, 0, 2 ^ 53 + 1, []⟩], 8, true⟩, 0⟩ zeroReq 0 =
      .error Fatal.badAlloc from hn]

end dramsim3
